import Mathlib

/-!
# Verification of `climate.c`

A shallow embedding of the state-aggregation program `src/climate.c`.

* A C string is the list of its characters before the terminating NUL; a `char*` that may be
  `NULL` is an `Option (List Char)`.  Buffer capacities are not part of the embedding.
* `unsigned long` fields are natural numbers reduced modulo `2 ^ 64`; `long` values are
  integers in the range of a 64-bit signed word.
* `double` values are exact rationals, so rounding, infinities and NaN are outside the embedding.
* Undefined behaviour that the program can reach (dereferencing `NULL`, addressing a slot
  outside the registry) is an explicit `Fault`.
* The registry `struct climate_info *states[NUM_STATES]` is a list of optional accumulators:
  entry `i` is `none` when `states[i] == NULL`, and otherwise holds the structure found at
  `(*states + i)`, that is element `i` of the block `states[0]` points to (every block is
  allocated with `calloc(num_states, ...)`, so the block of slot `0` has room for all slots).
-/

namespace Climate

/-- The registry size, `#define NUM_STATES 50`. -/
def NUM_STATES : Nat := 50

/-- The ways a run of the program can leave defined behaviour. -/
inductive Fault where
  | nullDeref
  | outOfBounds
deriving DecidableEq, Repr

/-- The accumulator `struct climate_info`. -/
structure climate_info where
  code : List Char
  num_records : Nat
  sum_temp : ℚ
  max_temp : ℚ
  min_temp : ℚ
  min_temp_time : List Char
  max_temp_time : List Char
  sum_humidity : Nat
  sum_strikes : Nat
  sum_snow : Nat
  sum_cloud : Nat
deriving DecidableEq

/-- The registry: one optional accumulator per slot of `states`. -/
abbrev Registry := List (Option climate_info)

/-- The registry `main` starts from: `states[NUM_STATES] = { NULL }`. -/
def emptyRegistry : Registry := List.replicate NUM_STATES none

/-! ## C library functions used by the program -/

/-- The C library `strcmp`, by the sign of its result (`-1`, `0` or `1`): the strings are
compared at the first pair of characters that differ, the end of a string coming first. -/
def strcmp : List Char → List Char → Int
  | [], [] => 0
  | [], _ :: _ => -1
  | _ :: _, [] => 1
  | a :: as, b :: bs => if a = b then strcmp as bs else if a.toNat < b.toNat then -1 else 1

/-- Tokens of `s` after the characters collected in `cur` (held in reverse). -/
def strtokAux (delims : List Char) : List Char → List Char → List (List Char)
  | [], cur => if cur = [] then [] else [cur.reverse]
  | c :: cs, cur =>
    if delims.contains c then
      if cur = [] then strtokAux delims cs [] else cur.reverse :: strtokAux delims cs []
    else strtokAux delims cs (c :: cur)

/-- The tokens that `strtok(s, delims)` followed by repeated `strtok(NULL, delims)` returns, in
order: the maximal runs of non-delimiter characters.  Call number `i` returns entry `i`, and
`NULL` once the list is exhausted. -/
def strtokAll (delims : List Char) (s : List Char) : List (List Char) :=
  strtokAux delims s []

/-- The first `strtok(s, delims)` call: the first token, or `NULL`. -/
def strtok (s : List Char) (delims : List Char) : Option (List Char) :=
  (strtokAll delims s).head?

/-- The C library `isspace` in the C locale. -/
def isspace (c : Char) : Bool :=
  c = ' ' || c = '\t' || c = '\n' || c = '\x0b' || c = '\x0c' || c = '\r'

/-- The value of the leading run of decimal digits, continuing from `acc`. -/
def digitsVal : Nat → List Char → Nat
  | acc, [] => acc
  | acc, c :: cs => if c.isDigit then digitsVal (acc * 10 + (c.toNat - 48)) cs else acc

/-- Saturation to the range of `long`. -/
def clampLong (z : Int) : Int :=
  if z < -(2 ^ 63) then -(2 ^ 63) else if 2 ^ 63 - 1 < z then 2 ^ 63 - 1 else z

/-- The C library `atol` (as `strtol` in base 10): leading white space, an optional sign, then
the leading decimal digits; anything after them is ignored and no digits give `0`. -/
def atol (s : List Char) : Int :=
  match s.dropWhile isspace with
  | '-' :: r => clampLong (- (digitsVal 0 r : Int))
  | '+' :: r => clampLong (digitsVal 0 r)
  | r => clampLong (digitsVal 0 r)

/-- The optional exponent part of a decimal floating constant: `e` or `E`, an optional sign and
at least one digit. -/
def atofExp : List Char → Int
  | [] => 0
  | c :: r =>
    if c = 'e' || c = 'E' then
      match r with
      | '-' :: d :: r2 => if d.isDigit then - (digitsVal 0 (d :: r2) : Int) else 0
      | '+' :: d :: r2 => if d.isDigit then (digitsVal 0 (d :: r2) : Int) else 0
      | d :: r2 => if d.isDigit then (digitsVal 0 (d :: r2) : Int) else 0
      | [] => 0
    else 0

/-- The pieces of the decimal constant at the start of `s`: whether it is negative, the digits
of the integer and fraction parts read as one number, the number of fraction digits, and the
exponent. -/
def atofParts (s : List Char) : Bool × Nat × Nat × Int :=
  let s1 := s.dropWhile isspace
  let neg := s1.head? = some '-'
  let s2 := match s1 with
    | '-' :: r => r
    | '+' :: r => r
    | r => r
  let ip := s2.takeWhile Char.isDigit
  let r1 := s2.dropWhile Char.isDigit
  match r1 with
  | '.' :: r =>
    let fp := r.takeWhile Char.isDigit
    if ip = [] ∧ fp = [] then (neg, 0, 0, 0)
    else (neg, digitsVal 0 (ip ++ fp), fp.length, atofExp (r.dropWhile Char.isDigit))
  | _ => if ip = [] then (neg, 0, 0, 0) else (neg, digitsVal 0 ip, 0, atofExp r1)

/-- The C library `atof` on decimal input, with the exact rational value of the constant (the
hexadecimal, infinity and NaN spellings are not decimal constants and are not covered). -/
def atof (s : List Char) : ℚ :=
  match atofParts s with
  | (neg, m, k, e) =>
    let v : ℚ := (m : ℚ) / 10 ^ k * 10 ^ e
    if neg then -v else v

/-! ## The program -/

/-- The C function `KtoF`: Kelvin to Fahrenheit. -/
def KtoF (K : ℚ) : ℚ := K * 1.8 - 459.67

/-- The C function `timeToString`.  The C library `ctime`, which depends on the time zone of the
environment, is the parameter `ctime`; it receives `atol(time) / 1000` and its text is cut at
the newline by `strtok(timestamp_string, "\n")`, which gives `NULL` when no token is found. -/
def timeToString (ctime : Int → List Char) (time : List Char) : Option (List Char) :=
  strtok (ctime ((atol time).tdiv 1000)) ['\n']

/-- Conversion of a `long` to `unsigned long` and reduction of an `unsigned long` result. -/
def wrapUL (z : Int) : Nat := (z % 2 ^ 64).toNat

/-- The accumulator that the second loop of `analyze_file` initialises for a new code. -/
def newInfo (token : List Char) : climate_info where
  code := token
  num_records := 0
  sum_temp := 0
  max_temp := -1000
  min_temp := 1000
  min_temp_time := []
  max_temp_time := []
  sum_humidity := 0
  sum_strikes := 0
  sum_snow := 0
  sum_cloud := 0

/-- Whether `states[0]` is allocated, so that `(*states + i)` addresses a block. -/
def blockAllocated (states : Registry) : Bool :=
  match states with
  | some _ :: _ => true
  | _ => false

/-- The first loop of `analyze_file`, scanning the slots from index `i` on: the index of the
first occupied slot whose code compares equal to `token`, or `-1`.  `blk` tells whether
`states[0]` is allocated, which `(*states + i)` needs; `token` is `none` when `strtok` returned
`NULL`. -/
def findLoop (blk : Bool) (token : Option (List Char)) : Registry → Nat → Except Fault Int
  | [], _ => .ok (-1)
  | none :: rest, i => findLoop blk token rest (i + 1)
  | some a :: rest, i =>
    if blk then
      match token with
      | none => .error .nullDeref
      | some t => if strcmp a.code t = 0 then .ok (i : Int) else findLoop blk token rest (i + 1)
    else .error .nullDeref

/-- The second loop of `analyze_file`, scanning the slots from index `i` on: the first free slot
receives a new accumulator and its index is returned; the index is `-1` when no slot is free. -/
def createLoop (token : Option (List Char)) : Registry → Nat → Except Fault (Registry × Int)
  | [], _ => .ok ([], -1)
  | none :: rest, i =>
    match token with
    | none => .error .nullDeref
    | some t => .ok (some (newInfo t) :: rest, (i : Int))
  | some a :: rest, i =>
    match createLoop token rest (i + 1) with
    | .ok (r, k) => .ok (some a :: r, k)
    | .error e => .error e

/-- A library call on a token: `NULL` is dereferenced by the callee. -/
def tokenArg (token : Option (List Char)) : Except Fault (List Char) :=
  match token with
  | some t => .ok t
  | none => .error .nullDeref

/-- The new maximum, when `temp_F > max_temp`. -/
def setMax (a : climate_info) (temp_F : ℚ) (string_time : Option (List Char)) :
    Except Fault climate_info :=
  if temp_F > a.max_temp then
    match string_time with
    | some s => .ok { a with max_temp := temp_F, max_temp_time := s }
    | none => .error .nullDeref
  else .ok a

/-- The new minimum, when `temp_F < min_temp`. -/
def setMin (a : climate_info) (temp_F : ℚ) (string_time : Option (List Char)) :
    Except Fault climate_info :=
  if temp_F < a.min_temp then
    match string_time with
    | some s => .ok { a with min_temp := temp_F, min_temp_time := s }
    | none => .error .nullDeref
  else .ok a

/-- The part of the loop body of `analyze_file` after the slot is chosen, acting on the
accumulator at `(*states + found_index)`; `toks` are the tokens of the line. -/
def updateInfo (ctime : Int → List Char) (a : climate_info) (toks : List (List Char)) :
    Except Fault climate_info := do
  let a1 := { a with num_records := (a.num_records + 1) % 2 ^ 64 }
  let temp_time := toks[1]?
  let humidity ← tokenArg toks[3]?
  let a2 := { a1 with sum_humidity := wrapUL (a1.sum_humidity + atol humidity) }
  let snow ← tokenArg toks[4]?
  let a3 := if atol snow ≠ 0 then { a2 with sum_snow := (a2.sum_snow + 1) % 2 ^ 64 } else a2
  let cloud ← tokenArg toks[5]?
  let a4 := { a3 with sum_cloud := wrapUL (a3.sum_cloud + atol cloud) }
  let lightning ← tokenArg toks[6]?
  let a5 := if atol lightning ≠ 0 then { a4 with sum_strikes := (a4.sum_strikes + 1) % 2 ^ 64 }
    else a4
  let surface ← tokenArg toks[8]?
  let temp_F := KtoF (atof surface)
  let time ← tokenArg temp_time
  let string_time := timeToString ctime time
  let a6 := { a5 with sum_temp := a5.sum_temp + temp_F }
  let a7 ← setMax a6 temp_F string_time
  setMin a7 temp_F string_time

/-- The body of the `while` loop of `analyze_file` for one line returned by `fgets`. -/
def processLine (ctime : Int → List Char) (states : Registry) (line : List Char) :
    Except Fault Registry := do
  let toks := strtokAll [' ', '\t', '\n'] line
  let token := toks[0]?
  let found ← findLoop (blockAllocated states) token states 0
  let (states1, found_index) ← if found < 0 then createLoop token states 0 else pure (states, found)
  if found_index < 0 then .error .outOfBounds
  else
    match states1[found_index.toNat]? with
    | some (some a) => do
      let a1 ← updateInfo ctime a toks
      pure (states1.set found_index.toNat (some a1))
    | _ => .error .outOfBounds

/-- The C function `analyze_file`: the loop body applied in order to the strings that the
successive `fgets(line, line_sz, file)` calls return, until `fgets` returns `NULL`. -/
def analyze_file (ctime : Int → List Char) (states : Registry) (lines : List (List Char)) :
    Except Fault Registry :=
  lines.foldlM (processLine ctime) states

/-- The conversion `%ld` applied to an `unsigned long` argument, which is read as a `long`. -/
def fmt_ld (n : Nat) : List Char :=
  if n < 2 ^ 63 then (Nat.repr n).toList else '-' :: (Nat.repr (2 ^ 64 - n)).toList

/-- The conversion `%.lu`: an unsigned decimal with precision zero, for which the value zero
is converted to no characters. -/
def fmt_dot_lu (n : Nat) : List Char :=
  if n = 0 then [] else (Nat.repr n).toList

/-- The quotient `x / n` of `double` values; `none` stands for the non-finite result of a
division by zero. -/
def fdiv (x : ℚ) (n : Nat) : Option ℚ :=
  if n = 0 then none else some (x / n)

/-- The first loop of `print_report`: the text printed after `States found: `. -/
def foundLoop (blk : Bool) : Registry → Except Fault (List Char)
  | [] => .ok []
  | none :: rest => foundLoop blk rest
  | some a :: rest =>
    if blk then
      match foundLoop blk rest with
      | .ok r => .ok (a.code ++ [' '] ++ r)
      | .error e => .error e
    else .error .nullDeref

/-- The lines `print_report` prints for one accumulator; `fmtF` is the conversion `%.1f`. -/
def reportBlock (fmtF : Option ℚ → List Char) (a : climate_info) : List (List Char) :=
  [ "-- State: ".toList ++ a.code ++ " --".toList,
    "Number of Records: ".toList ++ fmt_ld a.num_records,
    "Average Humidity: ".toList ++ fmtF (fdiv a.sum_humidity a.num_records) ++ ['%'],
    "Average Temperature: ".toList ++ fmtF (fdiv a.sum_temp a.num_records) ++ ['F'],
    "Max Temperature: ".toList ++ fmtF (some a.max_temp) ++ ['F'],
    "Max Temperature on: ".toList ++ a.max_temp_time,
    "Min Temperature: ".toList ++ fmtF (some a.min_temp) ++ ['F'],
    "Min Temperature on: ".toList ++ a.min_temp_time,
    "Lightning Strikes: ".toList ++ fmt_dot_lu a.sum_strikes,
    "Records with Snow Cover: ".toList ++ fmt_dot_lu a.sum_snow,
    "Average Cloud Cover: ".toList ++ fmtF (fdiv a.sum_cloud a.num_records) ++ ['%'] ]

/-- The second loop of `print_report`: the block of every occupied slot, in slot order. -/
def blockLoop (fmtF : Option ℚ → List Char) (blk : Bool) : Registry → Except Fault (List (List Char))
  | [] => .ok []
  | none :: rest => blockLoop fmtF blk rest
  | some a :: rest =>
    if blk then
      match blockLoop fmtF blk rest with
      | .ok r => .ok (reportBlock fmtF a ++ r)
      | .error e => .error e
    else .error .nullDeref

/-- The C function `print_report`: the lines written to standard output.  The conversion
`%.1f` of a `double` is the parameter `fmtF`. -/
def print_report (fmtF : Option ℚ → List Char) (states : Registry) :
    Except Fault (List (List Char)) := do
  let found ← foundLoop (blockAllocated states) states
  let blocks ← blockLoop fmtF (blockAllocated states) states
  pure (("States found: ".toList ++ found) :: blocks)

/-- The `for` loop of `main` over `argv[1]`, `argv[2]`, ...: the lines printed and the registry
after the files are read.  `fopen` is the parameter `fs`, giving the lines `fgets` reads from a
file that can be opened. -/
def fileLoop (ctime : Int → List Char) (fs : List Char → Option (List (List Char))) :
    List (List Char) → Registry → Except Fault (List (List Char) × Registry)
  | [], states => .ok ([], states)
  | path :: rest, states =>
    match fs path with
    | none =>
      match fileLoop ctime fs rest states with
      | .ok (out, st) =>
        .ok (("Opening file: ".toList ++ path) :: "File cannot be opened.".toList :: out, st)
      | .error e => .error e
    | some lines =>
      match analyze_file ctime states lines with
      | .ok st1 =>
        match fileLoop ctime fs rest st1 with
        | .ok (out, st) => .ok (("Opening file: ".toList ++ path) :: out, st)
        | .error e => .error e
      | .error e => .error e

/-- The C function `main`: the lines written to standard output and the exit status, for the
argument vector `argv` (program name first, so `argc = argv.length`). -/
def main (ctime : Int → List Char) (fmtF : Option ℚ → List Char)
    (fs : List Char → Option (List (List Char))) (argv : List (List Char)) :
    Except Fault (List (List Char) × Int) :=
  if argv.length < 1 then .ok (["At least 1 file must be opened!".toList], 1)
  else
    match fileLoop ctime fs (argv.drop 1) emptyRegistry with
    | .ok (out, states) =>
      match print_report fmtF states with
      | .ok report => .ok (out ++ report, 0)
      | .error e => .error e
    | .error e => .error e

/-! ## Vocabulary of the statements -/

/-- The fields of an input line, as `analyze_file` tokenises it. -/
def fields (line : List Char) : List (List Char) := strtokAll [' ', '\t', '\n'] line

/-- A well-formed line has at least the nine fields `analyze_file` reads. -/
def WellFormed (line : List Char) : Prop := 9 ≤ (fields line).length

instance (line : List Char) : Decidable (WellFormed line) := by
  unfold WellFormed; infer_instance

/-- The state code of a line: its first field (empty when the line has no field). -/
def codeOf (line : List Char) : List Char := (fields line).headD []

/-- The converted Fahrenheit temperature of a line: `KtoF` of its ninth field. -/
def tempOf (line : List Char) : ℚ := KtoF (atof ((fields line).getD 8 []))

/-- The formatted timestamp of a line: `timeToString` of its second field. -/
def stampOf (ctime : Int → List Char) (line : List Char) : Option (List Char) :=
  timeToString ctime ((fields line).getD 1 [])

/-- The property of the C library `ctime` that `timeToString` relies on: the text has a
character other than the newline. -/
def CtimeOk (ctime : Int → List Char) : Prop := ∀ t, ∃ c ∈ ctime t, c ≠ '\n'

/-- The distinct entries of a list in the order of their first appearance. -/
def firstSeen {α : Type} [DecidableEq α] : List α → List α
  | [] => []
  | x :: xs => x :: (firstSeen xs).filter (fun y => y ≠ x)

/-- The position of the first entry equal to `t` (the length when there is none). -/
def indexIn {α : Type} [DecidableEq α] (t : α) : List α → Nat
  | [] => 0
  | x :: xs => if x = t then 0 else indexIn t xs + 1

/-- The accumulator of a registry for the code `c`: the first occupied slot with that code. -/
def accFor (c : List Char) : Registry → Option climate_info
  | [] => none
  | none :: rest => accFor c rest
  | some a :: rest => if a.code = c then some a else accFor c rest

/-- The codes of the occupied slots, in slot order. -/
def codesOf (states : Registry) : List (List Char) :=
  states.filterMap (fun s => s.map (fun a => a.code))

/-- The effect of the loop body on the accumulator of the line when nothing faults. -/
def recordEffect (ctime : Int → List Char) (a : climate_info) (toks : List (List Char)) :
    climate_info :=
  let temp_F := KtoF (atof (toks.getD 8 []))
  let stamp := (timeToString ctime (toks.getD 1 [])).getD []
  { code := a.code
    num_records := (a.num_records + 1) % 2 ^ 64
    sum_temp := a.sum_temp + temp_F
    max_temp := if temp_F > a.max_temp then temp_F else a.max_temp
    min_temp := if temp_F < a.min_temp then temp_F else a.min_temp
    min_temp_time := if temp_F < a.min_temp then stamp else a.min_temp_time
    max_temp_time := if temp_F > a.max_temp then stamp else a.max_temp_time
    sum_humidity := wrapUL (a.sum_humidity + atol (toks.getD 3 []))
    sum_strikes := if atol (toks.getD 6 []) ≠ 0 then (a.sum_strikes + 1) % 2 ^ 64
      else a.sum_strikes
    sum_snow := if atol (toks.getD 4 []) ≠ 0 then (a.sum_snow + 1) % 2 ^ 64 else a.sum_snow
    sum_cloud := wrapUL (a.sum_cloud + atol (toks.getD 5 [])) }

/-- The accumulator built from the lines of code `c` among `lines`, in order. -/
def accOf (ctime : Int → List Char) (c : List Char) (lines : List (List Char)) : climate_info :=
  (lines.filter (fun l => codeOf l = c)).foldl (fun a l => recordEffect ctime a (fields l))
    (newInfo c)

/-- The accumulators of all codes of `lines`, in first-seen order. -/
def accsOf (ctime : Int → List Char) (lines : List (List Char)) : List climate_info :=
  (firstSeen (lines.map codeOf)).map (fun c => accOf ctime c lines)

/-- A registry whose first slots hold `accs` and whose other slots are free. -/
def dense (accs : List climate_info) : Registry :=
  accs.map some ++ List.replicate (NUM_STATES - accs.length) none

/-- A calendar text standing for the C library `ctime` in examples: the text `T`, the number of
seconds and a newline. -/
def ctimeSeconds (t : Int) : List Char := 'T' :: (Nat.repr t.toNat).toList ++ ['\n']

/-- Three lines in the format of the header comment of `climate.c`: two observations for `CA`
around one for `TN`. -/
def sampleLines : List (List Char) :=
  [ "CA\t1428300000000\t9prcjqk3yc80\t93.0\t0.0\t100.0\t0.0\t95644.0\t277.58716\n".toList,
    "TN\t1438599600000\tdn5bpsbw25c0\t40.0\t0.0\t12.0\t1.0\t98000.0\t316.7\n".toList,
    "CA\t1430308800000\t9prc9sgwvw80\t4.0\t0.0\t100.0\t0.0\t99226.0\t282.63037\n".toList ]

/-- A line for `CA` whose surface temperature, 900 Kelvin, converts to 1160.33 degrees
Fahrenheit. -/
def hotLine : List Char :=
  "CA\t1428300000000\t9prcjqk3yc80\t93.0\t0.0\t100.0\t0.0\t95644.0\t900.0\n".toList

/-- Three of the `CA` lines shown in the header comment of `climate.c`. -/
def caLines : List (List Char) :=
  [ "CA\t1428300000000\t9prcjqk3yc80\t93.0\t0.0\t100.0\t0.0\t95644.0\t277.58716\n".toList,
    "CA\t1430308800000\t9prc9sgwvw80\t4.0\t0.0\t100.0\t0.0\t99226.0\t282.63037\n".toList,
    "CA\t1428559200000\t9prrremmdqxb\t61.0\t0.0\t0.0\t0.0\t102112.0\t285.07513\n".toList ]

/-- An accumulator for `CA` after one record of 277.58716 Kelvin. -/
def tieInfo : climate_info where
  code := "CA".toList
  num_records := 1
  sum_temp := 39.986888
  max_temp := 39.986888
  min_temp := 39.986888
  min_temp_time := "T1428300000".toList
  max_temp_time := "T1428300000".toList
  sum_humidity := 93
  sum_strikes := 0
  sum_snow := 0
  sum_cloud := 100

/-- A later line for `CA` with the same surface temperature as the record behind `tieInfo`. -/
def tieLine : List Char :=
  "CA\t1430308800000\t9prc9sgwvw80\t4.0\t0.0\t100.0\t0.0\t99226.0\t277.58716\n".toList

/-- A line whose code is `ca` in lower case. -/
def lowerLine : List Char :=
  "ca\t1428559200000\t9prrremmdqxb\t61.0\t0.0\t0.0\t0.0\t102112.0\t285.07513\n".toList

/-- The order-independent part of an accumulator: `num_records`, `sum_humidity`, `sum_cloud`,
`sum_snow`, `sum_strikes`, `sum_temp`, `min_temp` and `max_temp`. -/
def summary (a : climate_info) : Nat × Nat × Nat × Nat × Nat × ℚ × ℚ × ℚ :=
  (a.num_records, a.sum_humidity, a.sum_cloud, a.sum_snow, a.sum_strikes, a.sum_temp,
    a.min_temp, a.max_temp)

/-- A line with two fields only. -/
def shortLine : List Char := "CA\t1428300000000\n".toList

/-- The part of the loop body of `analyze_file` that sets `found_index`: the first loop, and
the second loop when the first one leaves `found_index` at `-1`.  The result is the registry
after these loops and the value of `found_index`. -/
def selectSlot (states : Registry) (token : Option (List Char)) :
    Except Fault (Registry × Int) := do
  let found ← findLoop (blockAllocated states) token states 0
  if found < 0 then createLoop token states 0 else pure (states, found)

/-- The line of the worked example in the header comment of `climate.c`. -/
def exampleLine : List Char :=
  "CA\t1428300000000\t9prcjqk3yc80\t93.0\t0.0\t100.0\t0.0\t95644.0\t277.58716\n".toList

/-- The example line with the snow and lightning fields set to `0.5`. -/
def halfLine : List Char :=
  "CA\t1428300000000\t9prcjqk3yc80\t93.0\t0.5\t100.0\t0.5\t95644.0\t277.58716\n".toList

/-- The example line with the humidity field set to `93.5` and the cloud field to `99.5`. -/
def fractionLine : List Char :=
  "CA\t1428300000000\t9prcjqk3yc80\t93.5\t0.0\t99.5\t0.0\t95644.0\t277.58716\n".toList

/-- The accumulator a line is attributed to in the registry `st`: the one registered for its
code, or the new accumulator when the code is not registered. -/
def accBefore (st : Registry) (line : List Char) : climate_info :=
  (accFor (codeOf line) st).getD (newInfo (codeOf line))

/-- A well-formed line whose code is the two capital letters numbered `n / 26` and `n % 26`. -/
def codeLine (n : Nat) : List Char :=
  [Char.ofNat (65 + n / 26), Char.ofNat (65 + n % 26)]
    ++ "\t1428300000000\t9prcjqk3yc80\t93.0\t0.0\t100.0\t0.0\t95644.0\t277.58716\n".toList

/-- Fifty lines with fifty distinct codes, `AA` to `BX`. -/
def fiftyLines : List (List Char) := (List.range 50).map codeLine

end Climate

/-!
# Verification of `project4.c`

A shallow embedding of the sorted doubly linked list of strings of `src/project4.c`.

* The heap is a list of nodes; the address of a node is its position in that list and a pointer
  is an `Option Nat`, `none` being `NULL`.
* What `malloc` gives is a parameter `malloc` of `Allocate_node`, `Insert` and `main`: whether
  the node is allocated, and what the storage of its `data`, which nothing initialises, holds.
  A node that is allocated lies at the next unused address, so an address is never handed out
  twice.
* `free` records the address of the node in `Memory.freed` and leaves its contents in place, as
  the C library does; reading a released node therefore gives the values stored last, and
  releasing a node a second time is the error `Err.doubleFree`.
* The other ways to leave defined behaviour are errors too: dereferencing `NULL`
  (`Err.nullDeref`) and dereferencing an address that holds no node (`Err.wildPointer`).
* Every loop over the nodes is run for at most as many steps as the heap has nodes, plus one;
  a loop that needs more is walking a cycle of links and is reported as `Err.loops`.
-/

namespace Project4

/-- The ways an operation can fail to complete. -/
inductive Err where
  | nullDeref
  | wildPointer
  | doubleFree
  | loops
  | endOfInput
deriving DecidableEq, Repr

/-- The node type `struct list_node_s`; `data` is the string the node owns. -/
structure list_node_s where
  data : List Char
  prev_p : Option Nat
  next_p : Option Nat
deriving DecidableEq, Repr

/-- The list header `struct list_s`: pointers to the head and the tail of the list. -/
structure list_s where
  h_p : Option Nat
  t_p : Option Nat
deriving DecidableEq, Repr

/-- The heap: the nodes allocated so far, and the addresses passed to `free` so far (latest
first). -/
structure Memory where
  nodes : List list_node_s
  freed : List Nat
deriving DecidableEq, Repr

/-- The heap and the list of `main` before the first command: `list.h_p = list.t_p = NULL`. -/
def emptyMemory : Memory := { nodes := [], freed := [] }

/-- The empty list header. -/
def emptyList : list_s := { h_p := none, t_p := none }

/-- Reading the node a pointer refers to (`p->...`). -/
def load (m : Memory) (p : Option Nat) : Except Err list_node_s :=
  match p with
  | none => .error .nullDeref
  | some a =>
    match m.nodes[a]? with
    | some n => .ok n
    | none => .error .wildPointer

/-- Writing one member of the node a pointer refers to (`p->member = ...`): the node is replaced
by `f` of itself. -/
def modify (m : Memory) (p : Option Nat) (f : list_node_s → list_node_s) : Except Err Memory :=
  match p with
  | none => .error .nullDeref
  | some a =>
    match m.nodes[a]? with
    | some n => .ok { m with nodes := m.nodes.set a (f n) }
    | none => .error .wildPointer

/-- The C function `Allocate_node`.  The parameter `malloc` stands for the C library: for the
call made when `k` nodes have been allocated, `malloc k = none` when `malloc` returns `NULL` for
the node, and `malloc k = some block` when the node is allocated and the storage that `data`
points to, which `malloc` does not initialise, holds the characters `block` before its first
NUL.  In the first case the function returns `NULL`; in the second the new node has
`prev_p = next_p = NULL` and lies at the next unused address. -/
def Allocate_node (malloc : Nat → Option (List Char)) (m : Memory) (_size : Nat) :
    Memory × Option Nat :=
  match malloc m.nodes.length with
  | none => (m, none)
  | some block =>
    ({ m with nodes := m.nodes ++ [{ data := block, prev_p := none, next_p := none }] },
      some m.nodes.length)

/-- The `while` loop of `Insert`: from `curr_p`, move to the next node as long as there is one
and `strcmp(new_p->data, curr_p->data) >= 0`; the result is the node the loop stops at. -/
def insertLoop : Nat → Memory → Option Nat → Option Nat → Except Err (Option Nat)
  | 0, _, _, _ => .error .loops
  | fuel + 1, m, new_p, curr_p => do
    let c ← load m curr_p
    if c.next_p ≠ none then do
      let nw ← load m new_p
      if Climate.strcmp nw.data c.data ≥ 0 then insertLoop fuel m new_p c.next_p
      else pure curr_p
    else pure curr_p

/-- The part of `Insert` after the `while` loop: the new node `new_p` is linked in next to the
node `curr_p` the loop stopped at, before the head, after the tail, or between two nodes. -/
def linkNode (m1 : Memory) (list : list_s) (new_p curr_p : Option Nat) :
    Except Err (Memory × list_s) := do
  let c ← load m1 curr_p
  let nw ← load m1 new_p
  if c.prev_p = none ∧ Climate.strcmp nw.data c.data ≤ 0 then do
    let m2 ← modify m1 curr_p (fun n => { n with prev_p := new_p })
    let m3 ← modify m2 new_p (fun n => { n with next_p := curr_p })
    let c3 ← load m3 curr_p
    if c3.next_p = none then pure (m3, { h_p := new_p, t_p := curr_p })
    else pure (m3, { list with h_p := new_p })
  else if c.next_p = none ∧ Climate.strcmp nw.data c.data > 0 then do
    let m2 ← modify m1 curr_p (fun n => { n with next_p := new_p })
    let m3 ← modify m2 new_p (fun n => { n with prev_p := curr_p })
    pure (m3, { list with t_p := new_p })
  else do
    let temp_p := c.prev_p
    let m2 ← modify m1 curr_p (fun n => { n with prev_p := new_p })
    let m3 ← modify m2 temp_p (fun n => { n with next_p := new_p })
    let m4 ← modify m3 new_p (fun n => { n with prev_p := temp_p })
    let m5 ← modify m4 new_p (fun n => { n with next_p := curr_p })
    pure (m5, list)

/-- The C function `Insert`.  `strcat(new_p->data, string)` appends `string` to what the
storage of `data` holds. -/
def Insert (malloc : Nat → Option (List Char)) (m : Memory) (list : list_s)
    (string : List Char) : Except Err (Memory × list_s) := do
  let (m0, new_p) := Allocate_node malloc m (string.length + 1)
  let m1 ← modify m0 new_p (fun n => { n with data := n.data ++ string })
  if list.h_p = none ∧ list.t_p = none then
    pure (m1, { h_p := new_p, t_p := new_p })
  else do
    let curr_p ← insertLoop m1.nodes.length m1 new_p list.h_p
    linkNode m1 list new_p curr_p

/-- The `while` loop of `Print`: the text `"%s "` of every node from `curr_p` on. -/
def printLoop : Nat → Memory → Option Nat → Except Err (List Char)
  | 0, _, _ => .error .loops
  | fuel + 1, m, curr_p =>
    match curr_p with
    | none => .ok []
    | some a => do
      let c ← load m (some a)
      let rest ← printLoop fuel m c.next_p
      pure (c.data ++ [' '] ++ rest)

/-- The C function `Print`: the text written to standard output. -/
def Print (m : Memory) (list : list_s) : Except Err (List Char) := do
  let body ← printLoop (m.nodes.length + 1) m list.h_p
  pure ("list = ".toList ++ body ++ ['\n'])

/-- The `while` loop of `Member`. -/
def memberLoop : Nat → Memory → Option Nat → List Char → Except Err Int
  | 0, _, _, _ => .error .loops
  | fuel + 1, m, curr_p, string =>
    match curr_p with
    | none => .ok 0
    | some a => do
      let c ← load m (some a)
      if Climate.strcmp c.data string = 0 then pure 1
      else memberLoop fuel m c.next_p string

/-- The C function `Member`. -/
def Member (m : Memory) (list : list_s) (string : List Char) : Except Err Int :=
  memberLoop (m.nodes.length + 1) m list.h_p string

/-- The C function `Free_node`: `free(node_p->data); free(node_p);`. -/
def Free_node (m : Memory) (node_p : Option Nat) : Except Err Memory :=
  match node_p with
  | none => .error .nullDeref
  | some a =>
    match m.nodes[a]? with
    | none => .error .wildPointer
    | some _ => if a ∈ m.freed then .error .doubleFree else .ok { m with freed := a :: m.freed }

/-- The C function `Free_list`. -/
def Free_list (m : Memory) (list : list_s) : Except Err (Memory × list_s) := do
  let m1 ← Free_node m list.h_p
  if list.t_p ≠ none then do
    let m2 ← Free_node m1 list.t_p
    pure (m2, list)
  else pure (m1, list)

/-- The body of the `if (!strcmp(curr_p->data, string))` in `Delete`, for the node `curr_p`
that holds the string: unlink the node and release it. -/
def deleteNode (m : Memory) (list : list_s) (curr_p : Option Nat) :
    Except Err (Memory × list_s) := do
  let c ← load m curr_p
  let (m1, list1) ← if c.prev_p = none ∧ c.next_p = none then Free_list m list
    else pure (m, list)
  let c1 ← load m1 curr_p
  let (m2, list2) ← if c1.prev_p = none then do
      let m2 ← modify m1 c1.next_p (fun n => { n with prev_p := none })
      let c2 ← load m2 curr_p
      pure (m2, { list1 with h_p := c2.next_p })
    else if c1.next_p = none then do
      let m2 ← modify m1 c1.prev_p (fun n => { n with next_p := none })
      let c2 ← load m2 curr_p
      pure (m2, { list1 with t_p := c2.prev_p })
    else do
      let temp_p := c1.next_p
      let m2 ← modify m1 temp_p (fun n => { n with prev_p := c1.prev_p })
      let c2 ← load m2 curr_p
      let m3 ← modify m2 c2.prev_p (fun n => { n with next_p := temp_p })
      pure (m3, list1)
  let m3 ← Free_node m2 curr_p
  pure (m3, list2)

/-- The `while` loop of `Delete`, from `curr_p` on with `found = 0`: the heap and the list
after the loop, and the final value of `found`. -/
def deleteLoop : Nat → Memory → list_s → Option Nat → List Char →
    Except Err (Memory × list_s × Bool)
  | 0, _, _, _, _ => .error .loops
  | fuel + 1, m, list, curr_p, string =>
    match curr_p with
    | none => .ok (m, list, false)
    | some a => do
      let c ← load m (some a)
      if Climate.strcmp c.data string = 0 then do
        let (m1, list1) ← deleteNode m list (some a)
        let _ ← load m1 (some a)
        pure (m1, list1, true)
      else deleteLoop fuel m list c.next_p string

/-- The C function `Delete`: the heap and the list afterwards, and the text written to
standard output. -/
def Delete (m : Memory) (list : list_s) (string : List Char) :
    Except Err (Memory × list_s × List Char) := do
  let (m1, list1, found) ← deleteLoop (m.nodes.length + 1) m list list.h_p string
  if found then pure (m1, list1, [])
  else pure (m1, list1, "String was not found. No change was made.\n".toList)

/-- The C function `Get_command`, after its prompt: `scanf(" %c", &c)` skips white space and
reads one character.  At the end of the input `scanf` stores nothing and the result is
indeterminate, which is the error `Err.endOfInput`. -/
def Get_command (stdin : List Char) : Except Err (Char × List Char) :=
  match stdin.dropWhile Climate.isspace with
  | [] => .error .endOfInput
  | c :: rest => .ok (c, rest)

/-- The C function `Get_string`, after its prompt: `scanf("%s", string)` skips white space and
reads the characters up to the next white space. -/
def Get_string (stdin : List Char) : Except Err (List Char × List Char) :=
  match stdin.dropWhile Climate.isspace with
  | [] => .error .endOfInput
  | c :: rest =>
    .ok ((c :: rest).takeWhile (fun x => !Climate.isspace x),
      (c :: rest).dropWhile (fun x => !Climate.isspace x))

/-- The prompt of `Get_command`. -/
def commandPrompt : List Char := "Please enter a command (i, d, m, p, f, q):  ".toList

/-- The prompt of `Get_string`. -/
def stringPrompt : List Char := "Please enter a string:  ".toList

/-- The `switch` of `main` for one command other than `q` and `Q`: the heap, the list and the
rest of the input afterwards, and the texts written. -/
def runCommand (malloc : Nat → Option (List Char)) (m : Memory) (list : list_s)
    (command : Char) (stdin : List Char) :
    Except Err (Memory × list_s × List Char × List (List Char)) :=
  if command = 'i' ∨ command = 'I' then do
    let (string, rest) ← Get_string stdin
    let (m1, list1) ← Insert malloc m list string
    pure (m1, list1, rest, [stringPrompt])
  else if command = 'p' ∨ command = 'P' then do
    let text ← Print m list
    pure (m, list, stdin, [text])
  else if command = 'm' ∨ command = 'M' then do
    let (string, rest) ← Get_string stdin
    let r ← Member m list string
    if r ≠ 0 then pure (m, list, rest, [stringPrompt, string ++ " is in the list\n".toList])
    else pure (m, list, rest, [stringPrompt, string ++ " is not in the list\n".toList])
  else if command = 'd' ∨ command = 'D' then do
    let (string, rest) ← Get_string stdin
    let (m1, list1, text) ← Delete m list string
    pure (m1, list1, rest, [stringPrompt, text])
  else if command = 'f' ∨ command = 'F' then do
    let (m1, list1) ← Free_list m list
    pure (m1, list1, stdin, [])
  else
    pure (m, list, stdin,
      ["There is no ".toList ++ [command] ++ " command\n".toList, "Please try again\n".toList])

/-- The `while (command != 'q' && command != 'Q')` loop of `main`. -/
def mainLoop (malloc : Nat → Option (List Char)) :
    Nat → Memory → list_s → Char → List Char → List (List Char) →
    Except Err (Memory × list_s × List (List Char))
  | 0, _, _, _, _, _ => .error .loops
  | fuel + 1, m, list, command, stdin, out =>
    if command ≠ 'q' ∧ command ≠ 'Q' then do
      let (m1, list1, rest, texts) ← runCommand malloc m list command stdin
      let (next, rest1) ← Get_command rest
      mainLoop malloc fuel m1 list1 next rest1 (out ++ texts ++ [commandPrompt])
    else pure (m, list, out)

/-- The C function `main` on the input `stdin`: the texts written to standard output and the
exit status. -/
def main (malloc : Nat → Option (List Char)) (stdin : List Char) :
    Except Err (List (List Char) × Int) := do
  let (command, rest) ← Get_command stdin
  let (m, list, out) ← mainLoop malloc (stdin.length + 1) emptyMemory emptyList command rest
    [commandPrompt]
  let _ ← Free_list m list
  pure (out, 0)

/-! ## Vocabulary of the statements -/

/-- A cell of a list: the address of a node and the string it holds. -/
abbrev Cell := Nat × List Char

/-- The pointer to the first of `rest`, or `nxt` when `rest` is empty. -/
def nextPtr (rest : List Cell) (nxt : Option Nat) : Option Nat :=
  match rest with
  | [] => nxt
  | c :: _ => some c.1

/-- The pointer to the last of `pre`, or `prev` when `pre` is empty. -/
def lastPtr : List Cell → Option Nat → Option Nat
  | [], prev => prev
  | c :: rest, _ => lastPtr rest (some c.1)

/-- The nodes of `cells` are linked in both directions, one after the other: the first has
`prev_p = prev`, the last has `next_p = nxt`, and every node holds the string of its cell. -/
def Seg (nodes : List list_node_s) : Option Nat → List Cell → Option Nat → Prop
  | _, [], _ => True
  | prev, c :: rest, nxt =>
    nodes[c.1]? = some { data := c.2, prev_p := prev, next_p := nextPtr rest nxt }
      ∧ Seg nodes (some c.1) rest nxt

/-- A well-formed doubly linked list with the cells `cells` from head to tail: the nodes are
distinct and not released, they are linked in both directions with `prev_p = NULL` at the first
and `next_p = NULL` at the last, `h_p` points to the first and `t_p` to the last (both are
`NULL` for the empty list), and only allocated nodes have been released. -/
structure WellFormedList (m : Memory) (list : list_s) (cells : List Cell) : Prop where
  nodup : (cells.map Prod.fst).Nodup
  seg : Seg m.nodes none cells none
  head : list.h_p = nextPtr cells none
  tail : list.t_p = lastPtr cells none
  live : ∀ c ∈ cells, c.1 ∉ m.freed
  freedValid : ∀ a ∈ m.freed, a < m.nodes.length

/-- The strings of a list of cells, from head to tail. -/
def elements (cells : List Cell) : List (List Char) := cells.map Prod.snd

/-- Strictly ascending order: `strcmp(a, b) < 0` for adjacent `a`, `b`. -/
def Ascending (xs : List (List Char)) : Prop := List.Chain' (fun a b => Climate.strcmp a b < 0) xs

/-- The cells the `while` loop of `Insert` passes, and the cells from the node it stops at. -/
def advance (s : List Char) : List Cell → List Cell × List Cell
  | [] => ([], [])
  | [c] => ([], [c])
  | c :: c2 :: r =>
    if Climate.strcmp s c.2 ≥ 0 then ((c :: (advance s (c2 :: r)).1), (advance s (c2 :: r)).2)
    else ([], c :: c2 :: r)

/-- The cells after `Insert` has linked the new cell `nw` into `cells`. -/
def insertCells (nw : Cell) (cells : List Cell) : List Cell :=
  match advance nw.2 cells with
  | (pre, []) => pre ++ [nw]
  | (pre, q :: post) =>
    if post = [] ∧ Climate.strcmp nw.2 q.2 > 0 then pre ++ [q, nw] else pre ++ nw :: q :: post

/-- Successive calls of `Insert`, one for each string of `strings`. -/
def insertAll (malloc : Nat → Option (List Char)) (m : Memory) (list : list_s)
    (strings : List (List Char)) : Except Err (Memory × list_s) :=
  strings.foldlM (fun st s => Insert malloc st.1 st.2 s) (m, list)

/-- A C library whose `malloc` always succeeds and gives storage that starts with NUL. -/
def cleanMalloc : Nat → Option (List Char) := fun _ => some []

/-- A C library whose `malloc` always succeeds and gives storage that still holds `kiwi`, as
storage released by `Free_node` and handed out again may. -/
def staleMalloc : Nat → Option (List Char) := fun _ => some "kiwi".toList

/-- The heap after `banana`, `apple` and `cherry` have been inserted in that order into the empty
list. -/
def fruitMemory : Memory where
  nodes :=
    [ { data := "banana".toList, prev_p := some 1, next_p := some 2 },
      { data := "apple".toList, prev_p := none, next_p := some 0 },
      { data := "cherry".toList, prev_p := some 0, next_p := none } ]
  freed := []

/-- The list header after `banana`, `apple` and `cherry` have been inserted. -/
def fruitList : list_s := { h_p := some 1, t_p := some 2 }

/-- The cells of the list `apple banana cherry` in `fruitMemory`. -/
def fruitCells : List Cell :=
  [(1, "apple".toList), (0, "banana".toList), (2, "cherry".toList)]

/-- The heap after `apple` has been inserted into the empty list. -/
def singleMemory : Memory where
  nodes := [ { data := "apple".toList, prev_p := none, next_p := none } ]
  freed := []

/-- The list header of the one-node list in `singleMemory`. -/
def singleList : list_s := { h_p := some 0, t_p := some 0 }

end Project4

namespace Climate

/-! ## Library facts -/

theorem strcmp_eq_zero_iff (a b : List Char) : strcmp a b = 0 ↔ a = b := by
  induction a generalizing b with
  | nil => cases b <;> simp [strcmp]
  | cons x xs ih =>
    cases b with
    | nil => simp [strcmp]
    | cons y ys =>
      by_cases hxy : x = y
      · simp [strcmp, hxy, ih]
      · simp only [strcmp, hxy, if_false, List.cons.injEq, false_and, iff_false]
        split <;> omega

theorem strtokAux_ne_nil (delims : List Char) (s cur : List Char)
    (h : cur ≠ [] ∨ ∃ c ∈ s, delims.contains c = false) : strtokAux delims s cur ≠ [] := by
  induction s generalizing cur with
  | nil =>
    rcases h with h | ⟨c, hc, _⟩
    · simp [strtokAux, h]
    · cases hc
  | cons x xs ih =>
    unfold strtokAux
    by_cases hx : delims.contains x = true
    · rw [if_pos hx]
      by_cases hcur : cur = []
      · rw [if_pos hcur]
        apply ih
        rcases h with h | ⟨c, hc, hd⟩
        · exact absurd hcur h
        · right
          rcases List.mem_cons.mp hc with rfl | hc
          · rw [hx] at hd; cases hd
          · exact ⟨c, hc, hd⟩
      · rw [if_neg hcur]; exact List.cons_ne_nil _ _
    · rw [if_neg hx]
      exact ih _ (Or.inl (List.cons_ne_nil _ _))

theorem timeToString_isSome (ctime : Int → List Char) (hct : CtimeOk ctime) (time : List Char) :
    ∃ s, timeToString ctime time = some s := by
  unfold timeToString strtok strtokAll
  obtain ⟨c, hc, hne⟩ := hct ((atol time).tdiv 1000)
  have h := strtokAux_ne_nil ['\n'] (ctime ((atol time).tdiv 1000)) []
    (Or.inr ⟨c, hc, by simpa using hne⟩)
  cases hs : strtokAux ['\n'] (ctime ((atol time).tdiv 1000)) [] with
  | nil => exact absurd hs h
  | cons y ys => exact ⟨y, rfl⟩

theorem updateInfo_eq (ctime : Int → List Char) (hct : CtimeOk ctime) (a : climate_info)
    (toks : List (List Char)) (h : 9 ≤ toks.length) :
    updateInfo ctime a toks = .ok (recordEffect ctime a toks) := by
  obtain ⟨t0, t1, t2, t3, t4, t5, t6, t7, t8, rest, rfl⟩ :
      ∃ t0 t1 t2 t3 t4 t5 t6 t7 t8 rest, toks = t0 :: t1 :: t2 :: t3 :: t4 :: t5 :: t6 :: t7 :: t8 :: rest := by
    match toks, h with
    | t0 :: t1 :: t2 :: t3 :: t4 :: t5 :: t6 :: t7 :: t8 :: rest, _ =>
      exact ⟨t0, t1, t2, t3, t4, t5, t6, t7, t8, rest, rfl⟩
  obtain ⟨s, hs⟩ := timeToString_isSome ctime hct t1
  simp only [updateInfo, recordEffect, tokenArg, setMax, setMin, List.getElem?_cons_succ,
    List.getElem?_cons_zero, List.getD_cons_succ, List.getD_cons_zero, hs, Option.getD_some,
    bind, Except.bind, pure, Except.pure]
  by_cases h4 : atol t4 = 0 <;> by_cases h6 : atol t6 = 0 <;>
    by_cases hmax : KtoF (atof t8) > a.max_temp <;>
    by_cases hmin : KtoF (atof t8) < a.min_temp <;>
    simp [h4, h6, hmax, hmin]

/-! ## The two loops over the slots -/

theorem findLoop_found (c : List Char) (st : Registry) (k i : Nat) (a : climate_info)
    (hi : st[i]? = some (some a)) (hc : a.code = c)
    (hfirst : ∀ j, j < i → ∀ b, st[j]? = some (some b) → b.code ≠ c) :
    findLoop true (some c) st k = .ok ((k + i : Nat) : Int) := by
  induction st generalizing k i with
  | nil => simp at hi
  | cons x xs ih =>
    cases i with
    | zero =>
      simp only [List.getElem?_cons_zero, Option.some.injEq] at hi
      subst hi
      simp [findLoop, (strcmp_eq_zero_iff a.code c).mpr hc]
    | succ n =>
      simp only [List.getElem?_cons_succ] at hi
      have hrec := ih (k + 1) n hi (fun j hj b hb => hfirst (j + 1) (by omega) b (by simpa using hb))
      have e : k + 1 + n = k + (n + 1) := by omega
      rw [e] at hrec
      cases x with
      | none => simpa [findLoop] using hrec
      | some b =>
        have hb : b.code ≠ c := hfirst 0 (by omega) b (by simp)
        have hs : strcmp b.code c ≠ 0 := fun h => hb ((strcmp_eq_zero_iff _ _).mp h)
        simpa [findLoop, hs] using hrec

theorem findLoop_absent (c : List Char) (st : Registry) (k : Nat)
    (h : ∀ b, some b ∈ st → b.code ≠ c) : findLoop true (some c) st k = .ok (-1) := by
  induction st generalizing k with
  | nil => rfl
  | cons x xs ih =>
    have hrec := ih (k + 1) (fun b hb => h b (List.mem_cons_of_mem _ hb))
    cases x with
    | none => simpa [findLoop] using hrec
    | some b =>
      have hb : b.code ≠ c := h b (List.mem_cons_self _ _)
      have hs : strcmp b.code c ≠ 0 := fun h => hb ((strcmp_eq_zero_iff _ _).mp h)
      simpa [findLoop, hs] using hrec

theorem findLoop_free (blk : Bool) (token : Option (List Char)) (st : Registry) (k : Nat)
    (h : ∀ x ∈ st, x = none) : findLoop blk token st k = .ok (-1) := by
  induction st generalizing k with
  | nil => rfl
  | cons x xs ih =>
    have hx : x = none := h x (List.mem_cons_self _ _)
    subst hx
    simpa [findLoop] using ih (k + 1) (fun y hy => h y (List.mem_cons_of_mem _ hy))

theorem createLoop_free (c : List Char) (st : Registry) (k i : Nat)
    (hi : st[i]? = some none) (hfirst : ∀ j, j < i → st[j]? ≠ some none) :
    createLoop (some c) st k = .ok (st.set i (some (newInfo c)), ((k + i : Nat) : Int)) := by
  induction st generalizing k i with
  | nil => simp at hi
  | cons x xs ih =>
    cases i with
    | zero =>
      simp only [List.getElem?_cons_zero, Option.some.injEq] at hi
      subst hi
      simp [createLoop]
    | succ n =>
      simp only [List.getElem?_cons_succ] at hi
      have hrec := ih (k + 1) n hi (fun j hj => by simpa using hfirst (j + 1) (by omega))
      have e : k + 1 + n = k + (n + 1) := by omega
      rw [e] at hrec
      cases x with
      | none => exact absurd (by simp) (hfirst 0 (by omega))
      | some b => simp [createLoop, hrec]

theorem createLoop_full (token : Option (List Char)) (st : Registry) (k : Nat)
    (h : ∀ x ∈ st, x ≠ none) : createLoop token st k = .ok (st, -1) := by
  induction st generalizing k with
  | nil => rfl
  | cons x xs ih =>
    have hrec := ih (k + 1) (fun y hy => h y (List.mem_cons_of_mem _ hy))
    cases x with
    | none => exact absurd rfl (h none (List.mem_cons_self _ _))
    | some b => simp [createLoop, hrec]

theorem fields_head_of_wellFormed (line : List Char) (h : WellFormed line) :
    (fields line)[0]? = some (codeOf line) := by
  unfold WellFormed at h
  unfold codeOf
  cases hf : fields line with
  | nil => rw [hf] at h; simp at h
  | cons t ts => simp

/-! ## One line -/

theorem processLine_found (ctime : Int → List Char) (hct : CtimeOk ctime) (st : Registry)
    (line : List Char) (i : Nat) (a b0 : climate_info) (rest : Registry)
    (hwf : WellFormed line) (hblk : st = some b0 :: rest)
    (hi : st[i]? = some (some a)) (hc : a.code = codeOf line)
    (hfirst : ∀ j, j < i → ∀ b, st[j]? = some (some b) → b.code ≠ codeOf line) :
    processLine ctime st line
      = .ok (st.set i (some (recordEffect ctime a (fields line)))) := by
  have hfind := findLoop_found (codeOf line) st 0 i a hi hc hfirst
  have htok := fields_head_of_wellFormed line hwf
  have hupd := updateInfo_eq ctime hct a (fields line) hwf
  unfold fields at htok hupd
  unfold processLine
  simp only [htok]
  subst hblk
  simp only [blockAllocated, hfind, bind, Except.bind, pure, Except.pure]
  have hnn : ¬ ((i : Int) < 0) := by omega
  simp only [Nat.zero_add, hnn, if_false, Int.toNat_ofNat, hi, hupd, fields]

theorem processLine_new (ctime : Int → List Char) (hct : CtimeOk ctime) (st : Registry)
    (line : List Char) (i : Nat) (hwf : WellFormed line)
    (hblk : (∃ b0 rest, st = some b0 :: rest) ∨ ∀ x ∈ st, x = none)
    (habs : ∀ b, some b ∈ st → b.code ≠ codeOf line)
    (hi : st[i]? = some none) (hfirst : ∀ j, j < i → st[j]? ≠ some none) :
    processLine ctime st line
      = .ok (st.set i (some (recordEffect ctime (newInfo (codeOf line)) (fields line)))) := by
  have htok := fields_head_of_wellFormed line hwf
  have hupd := updateInfo_eq ctime hct (newInfo (codeOf line)) (fields line) hwf
  have hcreate := createLoop_free (codeOf line) st 0 i hi hfirst
  have hlt : i < st.length := by
    by_contra hge
    rw [List.getElem?_eq_none (by omega)] at hi
    cases hi
  unfold fields at htok hupd
  unfold processLine
  simp only [htok]
  have hfind : findLoop (blockAllocated st) (some (codeOf line)) st 0 = .ok (-1) := by
    rcases hblk with ⟨b0, rest, rfl⟩ | hall
    · exact findLoop_absent _ _ _ habs
    · exact findLoop_free _ _ _ _ hall
  simp only [hfind, bind, Except.bind, pure, Except.pure, hcreate]
  have hnn : ¬ ((i : Int) < 0) := by omega
  have hneg : ((-1 : Int) < 0) := by omega
  simp only [hneg, if_true, hnn, if_false, Nat.zero_add, Int.toNat_ofNat,
    List.getElem?_set_self hlt, hupd, fields, List.set_set]

theorem processLine_full (ctime : Int → List Char) (st : Registry) (line : List Char)
    (b0 : climate_info) (rest : Registry) (hwf : WellFormed line) (hblk : st = some b0 :: rest)
    (habs : ∀ b, some b ∈ st → b.code ≠ codeOf line) (hfull : ∀ x ∈ st, x ≠ none) :
    processLine ctime st line = .error .outOfBounds := by
  have htok := fields_head_of_wellFormed line hwf
  have hfind := findLoop_absent (codeOf line) st 0 habs
  have hcreate := createLoop_full (some (codeOf line)) st 0 hfull
  unfold fields at htok
  unfold processLine
  simp only [htok]
  subst hblk
  simp only [blockAllocated, hfind, bind, Except.bind, pure, Except.pure, hcreate]
  simp

/-! ## First-seen order -/

theorem mem_firstSeen {α : Type} [DecidableEq α] (x : α) (l : List α) :
    x ∈ firstSeen l ↔ x ∈ l := by
  induction l with
  | nil => simp [firstSeen]
  | cons y ys ih =>
    by_cases hxy : x = y
    · simp [firstSeen, hxy]
    · simp [firstSeen, hxy, ih, List.mem_filter]

theorem nodup_firstSeen {α : Type} [DecidableEq α] (l : List α) : (firstSeen l).Nodup := by
  induction l with
  | nil => simp [firstSeen]
  | cons y ys ih =>
    simp only [firstSeen, List.nodup_cons]
    exact ⟨by simp [List.mem_filter], ih.filter _⟩

theorem firstSeen_snoc {α : Type} [DecidableEq α] (l : List α) (x : α) :
    firstSeen (l ++ [x]) = if x ∈ l then firstSeen l else firstSeen l ++ [x] := by
  induction l with
  | nil => simp [firstSeen]
  | cons y ys ih =>
    show firstSeen (y :: (ys ++ [x])) = _
    simp only [firstSeen]
    rw [ih]
    by_cases hx : x ∈ ys
    · simp [hx]
    · by_cases hxy : x = y
      · subst hxy
        simp [hx, List.filter_append]
      · simp [hx, hxy, List.filter_append]

theorem length_firstSeen {α : Type} [DecidableEq α] (l : List α) :
    (firstSeen l).length = l.toFinset.card := by
  rw [← List.toFinset_card_of_nodup (nodup_firstSeen l)]
  congr 1
  ext x
  simp [mem_firstSeen]

theorem length_firstSeen_le_snoc {α : Type} [DecidableEq α] (l : List α) (x : α) :
    (firstSeen l).length ≤ (firstSeen (l ++ [x])).length := by
  rw [firstSeen_snoc]
  split <;> simp

/-! ## The accumulator of one code -/

theorem recordEffect_code (ctime : Int → List Char) (a : climate_info)
    (toks : List (List Char)) : (recordEffect ctime a toks).code = a.code := rfl

theorem foldl_recordEffect_code (ctime : Int → List Char) (ls : List (List Char))
    (a : climate_info) :
    (ls.foldl (fun a l => recordEffect ctime a (fields l)) a).code = a.code := by
  induction ls generalizing a with
  | nil => rfl
  | cons l ls ih => simp [List.foldl_cons, ih, recordEffect_code]

theorem accOf_code (ctime : Int → List Char) (c : List Char) (lines : List (List Char)) :
    (accOf ctime c lines).code = c := by
  unfold accOf
  rw [foldl_recordEffect_code]
  rfl

theorem accOf_snoc (ctime : Int → List Char) (c : List Char) (lines : List (List Char))
    (l : List Char) :
    accOf ctime c (lines ++ [l])
      = if codeOf l = c then recordEffect ctime (accOf ctime c lines) (fields l)
        else accOf ctime c lines := by
  unfold accOf
  by_cases h : codeOf l = c
  · simp [List.filter_append, h, List.foldl_append]
  · simp [List.filter_append, h]

theorem accOf_of_not_mem (ctime : Int → List Char) (c : List Char) (lines : List (List Char))
    (h : c ∉ lines.map codeOf) : accOf ctime c lines = newInfo c := by
  unfold accOf
  have : lines.filter (fun l => codeOf l = c) = [] := by
    rw [List.filter_eq_nil_iff]
    intro l hl hc
    exact h (List.mem_map.mpr ⟨l, hl, by simpa using hc⟩)
  rw [this]
  rfl

theorem accsOf_snoc_new (ctime : Int → List Char) (lines : List (List Char)) (l : List Char)
    (h : codeOf l ∉ lines.map codeOf) :
    accsOf ctime (lines ++ [l])
      = accsOf ctime lines ++ [recordEffect ctime (newInfo (codeOf l)) (fields l)] := by
  unfold accsOf
  rw [List.map_append, List.map_singleton, firstSeen_snoc, if_neg h, List.map_append,
    List.map_singleton, accOf_snoc, if_pos rfl, accOf_of_not_mem ctime _ _ h]
  congr 1
  apply List.map_congr_left
  intro c hc
  rw [accOf_snoc, if_neg]
  intro hEq
  exact h (hEq ▸ (mem_firstSeen _ _).mp hc)

theorem map_set_indexIn {α β : Type} [DecidableEq α] (L : List α) (t : α) (f : α → β) (y : β)
    (hnd : L.Nodup) :
    L.map (fun c => if t = c then y else f c) = (L.map f).set (indexIn t L) y := by
  induction L with
  | nil => simp
  | cons x xs ih =>
    rw [List.nodup_cons] at hnd
    by_cases hx : x = t
    · subst hx
      simp only [List.map_cons, if_true, indexIn, List.set_cons_zero, List.cons.injEq, true_and]
      apply List.map_congr_left
      intro c hc
      rw [if_neg]
      intro h
      exact hnd.1 (h ▸ hc)
    · have hx2 : ¬ t = x := fun h => hx h.symm
      simp only [List.map_cons, if_neg hx2, indexIn, if_neg hx, List.set_cons_succ, ih hnd.2]

theorem accsOf_snoc_old (ctime : Int → List Char) (lines : List (List Char)) (l : List Char)
    (h : codeOf l ∈ lines.map codeOf) :
    accsOf ctime (lines ++ [l])
      = (accsOf ctime lines).set (indexIn (codeOf l) (firstSeen (lines.map codeOf)))
          (recordEffect ctime (accOf ctime (codeOf l) lines) (fields l)) := by
  unfold accsOf
  rw [List.map_append, List.map_singleton, firstSeen_snoc, if_pos h]
  refine Eq.trans ?_ (map_set_indexIn (firstSeen (lines.map codeOf)) (codeOf l)
    (fun c => accOf ctime c lines) _ (nodup_firstSeen _))
  apply List.map_congr_left
  intro c _
  rw [accOf_snoc]
  by_cases hc : codeOf l = c
  · subst hc; simp
  · simp [hc]

theorem indexIn_lt {α : Type} [DecidableEq α] (t : α) (L : List α) (h : t ∈ L) :
    indexIn t L < L.length := by
  induction L with
  | nil => cases h
  | cons x xs ih =>
    by_cases hx : x = t
    · simp [indexIn, hx]
    · have : t ∈ xs := by
        rcases List.mem_cons.mp h with h1 | h1
        · exact absurd h1.symm hx
        · exact h1
      simp [indexIn, hx, ih this]

theorem getElem?_indexIn {α : Type} [DecidableEq α] (t : α) (L : List α) (h : t ∈ L) :
    L[indexIn t L]? = some t := by
  induction L with
  | nil => cases h
  | cons x xs ih =>
    by_cases hx : x = t
    · simp [indexIn, hx]
    · have : t ∈ xs := by
        rcases List.mem_cons.mp h with h1 | h1
        · exact absurd h1.symm hx
        · exact h1
      simp [indexIn, hx, ih this]

theorem getElem?_ne_of_lt_indexIn {α : Type} [DecidableEq α] (t : α) (L : List α) (j : Nat)
    (hj : j < indexIn t L) : L[j]? ≠ some t := by
  induction L generalizing j with
  | nil => simp [indexIn] at hj
  | cons x xs ih =>
    by_cases hx : x = t
    · simp [indexIn, hx] at hj
    · cases j with
      | zero => simpa using hx
      | succ n =>
        simp only [indexIn, if_neg hx] at hj
        simpa using ih n (by omega)

/-! ## Dense registries -/

theorem dense_getElem? (accs : List climate_info) (i : Nat) (h : i < accs.length) :
    (dense accs)[i]? = some (some accs[i]) := by
  unfold dense
  rw [List.getElem?_append_left (by simpa using h)]
  simp [h]

theorem dense_getElem?_some (accs : List climate_info) (j : Nat) (b : climate_info)
    (h : (dense accs)[j]? = some (some b)) : accs[j]? = some b := by
  unfold dense at h
  by_cases hj : j < accs.length
  · rw [List.getElem?_append_left (by simpa using hj)] at h
    simpa [hj] using h
  · rw [List.getElem?_append_right (by simpa using hj)] at h
    rw [List.getElem?_replicate] at h
    split at h <;> simp at h

theorem mem_dense (accs : List climate_info) (b : climate_info) (h : some b ∈ dense accs) :
    b ∈ accs := by
  unfold dense at h
  rcases List.mem_append.mp h with h1 | h1
  · simpa using h1
  · have := List.eq_of_mem_replicate h1
    cases this

theorem dense_set (accs : List climate_info) (i : Nat) (x : climate_info)
    (h : i < accs.length) : (dense accs).set i (some x) = dense (accs.set i x) := by
  unfold dense
  rw [List.set_append_left _ _ (by simpa using h)]
  simp [List.map_set]

theorem dense_free (accs : List climate_info) (h : accs.length < NUM_STATES) :
    (dense accs)[accs.length]? = some none := by
  unfold dense
  rw [List.getElem?_append_right (by simp)]
  simp only [List.length_map, Nat.sub_self, List.getElem?_replicate]
  rw [if_pos (by omega)]

theorem dense_not_free (accs : List climate_info) (j : Nat) (h : j < accs.length) :
    (dense accs)[j]? ≠ some none := by
  rw [dense_getElem? accs j h]
  simp

theorem dense_set_free (accs : List climate_info) (x : climate_info)
    (h : accs.length < NUM_STATES) :
    (dense accs).set accs.length (some x) = dense (accs ++ [x]) := by
  unfold dense
  rw [List.set_append_right _ _ (by simp)]
  simp only [List.length_map, Nat.sub_self, List.map_append, List.map_singleton,
    List.length_append, List.length_singleton, List.append_assoc]
  congr 1
  obtain ⟨m, hm⟩ : ∃ m, NUM_STATES - accs.length = m + 1 := ⟨NUM_STATES - accs.length - 1, by omega⟩
  have hm2 : NUM_STATES - (accs.length + 1) = m := by omega
  rw [hm, hm2]
  simp [List.replicate_succ]

theorem dense_block (accs : List climate_info) :
    (∃ b0 rest, dense accs = some b0 :: rest) ∨ ∀ x ∈ dense accs, x = none := by
  cases accs with
  | nil =>
    right
    intro x hx
    unfold dense at hx
    simp only [List.map_nil, List.nil_append] at hx
    exact List.eq_of_mem_replicate hx
  | cons a as => exact Or.inl ⟨a, _, rfl⟩

theorem accsOf_codes (ctime : Int → List Char) (lines : List (List Char)) :
    (accsOf ctime lines).map (fun a => a.code) = firstSeen (lines.map codeOf) := by
  unfold accsOf
  rw [List.map_map]
  conv_rhs => rw [← List.map_id (firstSeen (lines.map codeOf))]
  apply List.map_congr_left
  intro c _
  simp [accOf_code]

theorem length_accsOf (ctime : Int → List Char) (lines : List (List Char)) :
    (accsOf ctime lines).length = (firstSeen (lines.map codeOf)).length := by
  simp [accsOf]

/-! ## The run of `analyze_file` from the empty registry -/

theorem processLine_dense (ctime : Int → List Char) (hct : CtimeOk ctime)
    (lines : List (List Char)) (l : List Char) (hwf : WellFormed l)
    (hcap : (firstSeen ((lines ++ [l]).map codeOf)).length ≤ NUM_STATES) :
    processLine ctime (dense (accsOf ctime lines)) l
      = .ok (dense (accsOf ctime (lines ++ [l]))) := by
  have hcodes := accsOf_codes ctime lines
  have hlen := length_accsOf ctime lines
  by_cases h : codeOf l ∈ lines.map codeOf
  · have hmem : codeOf l ∈ firstSeen (lines.map codeOf) := (mem_firstSeen _ _).mpr h
    have hi := indexIn_lt _ _ hmem
    have hi2 : indexIn (codeOf l) (firstSeen (lines.map codeOf)) < (accsOf ctime lines).length := by
      rw [hlen]; exact hi
    have hget := dense_getElem? (accsOf ctime lines) _ hi2
    have hacc : (accsOf ctime lines)[indexIn (codeOf l) (firstSeen (lines.map codeOf))]
        = accOf ctime (codeOf l) lines := by
      have h1 := getElem?_indexIn _ _ hmem
      rw [List.getElem?_eq_getElem hi] at h1
      simp only [accsOf, List.getElem_map]
      congr 1
      exact Option.some.inj h1
    rw [hacc] at hget
    rcases dense_block (accsOf ctime lines) with ⟨b0, rest, hb⟩ | hall
    · rw [processLine_found ctime hct _ l _ _ b0 rest hwf hb hget (accOf_code _ _ _),
        dense_set _ _ _ hi2, accsOf_snoc_old ctime lines l h]
      intro j hj b hb2 hbc
      have h1 := dense_getElem?_some _ _ _ hb2
      have h2 : ((accsOf ctime lines).map (fun a => a.code))[j]? = some b.code := by
        rw [List.getElem?_map, h1]; rfl
      rw [hcodes, hbc] at h2
      exact getElem?_ne_of_lt_indexIn _ _ j hj h2
    · have := hall _ (List.getElem?_mem hget)
      cases this
  · have hsn : firstSeen ((lines ++ [l]).map codeOf) = firstSeen (lines.map codeOf) ++ [codeOf l] := by
      rw [List.map_append, List.map_singleton, firstSeen_snoc, if_neg h]
    have hlt : (accsOf ctime lines).length < NUM_STATES := by
      rw [hsn, List.length_append, List.length_singleton] at hcap
      omega
    rw [processLine_new ctime hct _ l (accsOf ctime lines).length hwf (dense_block _) _
        (dense_free _ hlt) (fun j hj => dense_not_free _ j hj),
      dense_set_free _ _ hlt, accsOf_snoc_new ctime lines l h]
    intro b hb hbc
    have h1 : b.code ∈ (accsOf ctime lines).map (fun a => a.code) :=
      List.mem_map.mpr ⟨b, mem_dense _ _ hb, rfl⟩
    rw [hcodes, hbc] at h1
    exact h ((mem_firstSeen _ _).mp h1)

theorem analyze_file_append (ctime : Int → List Char) (st : Registry)
    (xs ys : List (List Char)) :
    analyze_file ctime st (xs ++ ys)
      = (analyze_file ctime st xs).bind (fun st1 => analyze_file ctime st1 ys) := by
  unfold analyze_file
  rw [List.foldlM_append]
  rfl

theorem analyze_file_eq (ctime : Int → List Char) (hct : CtimeOk ctime)
    (lines : List (List Char)) (hwf : ∀ l ∈ lines, WellFormed l)
    (hcap : (lines.map codeOf).toFinset.card ≤ NUM_STATES) :
    analyze_file ctime emptyRegistry lines = .ok (dense (accsOf ctime lines)) := by
  rw [← length_firstSeen] at hcap
  induction lines using List.reverseRecOn with
  | nil => rfl
  | append_singleton xs l ih =>
    have hcap2 : (firstSeen (xs.map codeOf)).length ≤ NUM_STATES := by
      have := length_firstSeen_le_snoc (xs.map codeOf) (codeOf l)
      rw [List.map_append, List.map_singleton] at hcap
      omega
    rw [analyze_file_append, ih (fun x hx => hwf x (List.mem_append_left _ hx)) hcap2]
    show analyze_file ctime (dense (accsOf ctime xs)) [l] = _
    have := processLine_dense ctime hct xs l (hwf l (by simp)) hcap
    simp only [analyze_file, List.foldlM_cons, List.foldlM_nil, bind, Except.bind, this, pure,
      Except.pure]

/-! ## Looking an accumulator up by its code -/

theorem accFor_append_free (c : List Char) (xs : Registry) (n : Nat) :
    accFor c (xs ++ List.replicate n none) = accFor c xs := by
  induction xs with
  | nil =>
    induction n with
    | zero => rfl
    | succ m ih => simpa [List.replicate_succ, accFor] using ih
  | cons x xs ih =>
    cases x with
    | none => simpa [accFor] using ih
    | some a => simp [accFor, ih]

theorem accFor_map (c : List Char) (L : List (List Char)) (f : List Char → climate_info)
    (hf : ∀ x, (f x).code = x) :
    accFor c ((L.map f).map some) = if c ∈ L then some (f c) else none := by
  induction L with
  | nil => simp [accFor]
  | cons x xs ih =>
    by_cases hx : x = c
    · subst hx; simp [accFor, hf]
    · have hx2 : ¬ c = x := fun h => hx h.symm
      simp only [List.map_cons, accFor, hf, hx, if_false, List.mem_cons, hx2, false_or]
      exact ih

theorem accFor_dense_accsOf (ctime : Int → List Char) (c : List Char)
    (lines : List (List Char)) :
    accFor c (dense (accsOf ctime lines))
      = if c ∈ lines.map codeOf then some (accOf ctime c lines) else none := by
  unfold dense accsOf
  rw [accFor_append_free, accFor_map c _ (fun c => accOf ctime c lines)
    (fun x => accOf_code ctime x lines)]
  simp only [mem_firstSeen]

theorem head?_eq_iff_codeOf (l c : List Char) (h : WellFormed l) :
    (fields l).head? = some c ↔ codeOf l = c := by
  unfold WellFormed at h
  unfold codeOf
  cases hf : fields l with
  | nil => rw [hf] at h; simp at h
  | cons t ts => simp

/-! ## Closed forms of the accumulator fields -/

theorem foldl_num_records (ctime : Int → List Char) (ls : List (List Char)) (a : climate_info)
    (h : a.num_records < 2 ^ 64) :
    (ls.foldl (fun a l => recordEffect ctime a (fields l)) a).num_records
      = (a.num_records + ls.length) % 2 ^ 64 := by
  induction ls generalizing a with
  | nil => simp only [List.foldl_nil, List.length_nil]; omega
  | cons l ls ih =>
    rw [List.foldl_cons, ih _ (by simp only [recordEffect]; omega)]
    simp only [recordEffect, List.length_cons]
    omega

theorem foldl_sum_humidity (ctime : Int → List Char) (ls : List (List Char)) (a : climate_info) :
    ((ls.foldl (fun a l => recordEffect ctime a (fields l)) a).sum_humidity : Int) % 2 ^ 64
      = (a.sum_humidity + (ls.map (fun l => atol ((fields l).getD 3 []))).sum) % 2 ^ 64 := by
  induction ls generalizing a with
  | nil => simp
  | cons l ls ih =>
    rw [List.foldl_cons, ih]
    simp only [recordEffect, wrapUL, List.map_cons, List.sum_cons]
    omega

theorem foldl_sum_humidity_lt (ctime : Int → List Char) (ls : List (List Char))
    (a : climate_info) (h : a.sum_humidity < 2 ^ 64) :
    (ls.foldl (fun a l => recordEffect ctime a (fields l)) a).sum_humidity < 2 ^ 64 := by
  induction ls generalizing a with
  | nil => simpa using h
  | cons l ls ih =>
    rw [List.foldl_cons]
    apply ih
    simp only [recordEffect, wrapUL]
    omega

theorem foldl_sum_cloud (ctime : Int → List Char) (ls : List (List Char)) (a : climate_info) :
    ((ls.foldl (fun a l => recordEffect ctime a (fields l)) a).sum_cloud : Int) % 2 ^ 64
      = (a.sum_cloud + (ls.map (fun l => atol ((fields l).getD 5 []))).sum) % 2 ^ 64 := by
  induction ls generalizing a with
  | nil => simp
  | cons l ls ih =>
    rw [List.foldl_cons, ih]
    simp only [recordEffect, wrapUL, List.map_cons, List.sum_cons]
    omega

theorem foldl_sum_cloud_lt (ctime : Int → List Char) (ls : List (List Char))
    (a : climate_info) (h : a.sum_cloud < 2 ^ 64) :
    (ls.foldl (fun a l => recordEffect ctime a (fields l)) a).sum_cloud < 2 ^ 64 := by
  induction ls generalizing a with
  | nil => simpa using h
  | cons l ls ih =>
    rw [List.foldl_cons]
    apply ih
    simp only [recordEffect, wrapUL]
    omega

theorem foldl_sum_snow (ctime : Int → List Char) (ls : List (List Char)) (a : climate_info)
    (h : a.sum_snow < 2 ^ 64) :
    (ls.foldl (fun a l => recordEffect ctime a (fields l)) a).sum_snow
      = (a.sum_snow + ls.countP (fun l => atol ((fields l).getD 4 []) ≠ 0)) % 2 ^ 64 := by
  induction ls generalizing a with
  | nil => simp only [List.foldl_nil, List.countP_nil]; omega
  | cons l ls ih =>
    rw [List.foldl_cons, ih _ (by simp only [recordEffect]; split <;> omega)]
    by_cases hz : atol ((fields l).getD 4 []) = 0
    · simp only [recordEffect, ne_eq, hz, not_true_eq_false, if_false, List.countP_cons,
        decide_False, Bool.false_eq_true]
      omega
    · simp only [recordEffect, ne_eq, hz, not_false_eq_true, if_true, List.countP_cons,
        decide_True]
      omega

theorem foldl_sum_strikes (ctime : Int → List Char) (ls : List (List Char)) (a : climate_info)
    (h : a.sum_strikes < 2 ^ 64) :
    (ls.foldl (fun a l => recordEffect ctime a (fields l)) a).sum_strikes
      = (a.sum_strikes + ls.countP (fun l => atol ((fields l).getD 6 []) ≠ 0)) % 2 ^ 64 := by
  induction ls generalizing a with
  | nil => simp only [List.foldl_nil, List.countP_nil]; omega
  | cons l ls ih =>
    rw [List.foldl_cons, ih _ (by simp only [recordEffect]; split <;> omega)]
    by_cases hz : atol ((fields l).getD 6 []) = 0
    · simp only [recordEffect, ne_eq, hz, not_true_eq_false, if_false, List.countP_cons,
        decide_False, Bool.false_eq_true]
      omega
    · simp only [recordEffect, ne_eq, hz, not_false_eq_true, if_true, List.countP_cons,
        decide_True]
      omega

theorem foldl_sum_temp (ctime : Int → List Char) (ls : List (List Char)) (a : climate_info) :
    (ls.foldl (fun a l => recordEffect ctime a (fields l)) a).sum_temp
      = a.sum_temp + (ls.map tempOf).sum := by
  induction ls generalizing a with
  | nil => simp
  | cons l ls ih =>
    rw [List.foldl_cons, ih]
    simp only [recordEffect, tempOf, List.map_cons, List.sum_cons]
    ring

theorem foldl_max_le_iff (ctime : Int → List Char) (ls : List (List Char)) (a : climate_info)
    (q : ℚ) :
    (ls.foldl (fun a l => recordEffect ctime a (fields l)) a).max_temp ≤ q
      ↔ a.max_temp ≤ q ∧ ∀ l ∈ ls, tempOf l ≤ q := by
  induction ls generalizing a with
  | nil => simp
  | cons l ls ih =>
    rw [List.foldl_cons, ih]
    simp only [recordEffect, tempOf, List.mem_cons, forall_eq_or_imp]
    constructor
    · rintro ⟨h1, h2⟩
      split at h1
      · rename_i hgt
        exact ⟨le_trans (le_of_lt hgt) h1, h1, h2⟩
      · rename_i hgt
        exact ⟨h1, le_trans (not_lt.mp hgt) h1, h2⟩
    · rintro ⟨h1, h2, h3⟩
      refine ⟨?_, h3⟩
      split
      · exact h2
      · exact h1

theorem le_foldl_min_iff (ctime : Int → List Char) (ls : List (List Char)) (a : climate_info)
    (q : ℚ) :
    q ≤ (ls.foldl (fun a l => recordEffect ctime a (fields l)) a).min_temp
      ↔ q ≤ a.min_temp ∧ ∀ l ∈ ls, q ≤ tempOf l := by
  induction ls generalizing a with
  | nil => simp
  | cons l ls ih =>
    rw [List.foldl_cons, ih]
    simp only [recordEffect, tempOf, List.mem_cons, forall_eq_or_imp]
    constructor
    · rintro ⟨h1, h2⟩
      split at h1
      · rename_i hlt
        exact ⟨le_trans h1 (le_of_lt hlt), h1, h2⟩
      · rename_i hlt
        exact ⟨h1, le_trans h1 (not_lt.mp hlt), h2⟩
    · rintro ⟨h1, h2, h3⟩
      refine ⟨?_, h3⟩
      split
      · exact h2
      · exact h1

theorem ctimeSeconds_ok : CtimeOk ctimeSeconds := by
  intro t
  exact ⟨'T', by simp [ctimeSeconds], by decide⟩

theorem card_codes_le_length (lines : List (List Char)) :
    (lines.map codeOf).toFinset.card ≤ lines.length := by
  have := List.toFinset_card_le (lines.map codeOf)
  simpa using this

theorem accOf_num_records (ctime : Int → List Char) (c : List Char) (lines : List (List Char))
    (hlen : lines.length < 2 ^ 64) :
    (accOf ctime c lines).num_records = (lines.filter (fun l => codeOf l = c)).length := by
  unfold accOf
  rw [foldl_num_records ctime _ _ (by simp [newInfo])]
  have h1 := List.length_filter_le (fun l => decide (codeOf l = c)) lines
  simp only [newInfo, Nat.zero_add]
  exact Nat.mod_eq_of_lt (by omega)


/-! ## The extrema and their timestamps -/

theorem recordEffect_max_temp (ctime : Int → List Char) (a : climate_info) (l : List Char) :
    (recordEffect ctime a (fields l)).max_temp
      = if tempOf l > a.max_temp then tempOf l else a.max_temp := rfl

theorem recordEffect_max_temp_time (ctime : Int → List Char) (a : climate_info)
    (l : List Char) :
    (recordEffect ctime a (fields l)).max_temp_time
      = if tempOf l > a.max_temp then (stampOf ctime l).getD [] else a.max_temp_time := rfl

theorem recordEffect_min_temp (ctime : Int → List Char) (a : climate_info) (l : List Char) :
    (recordEffect ctime a (fields l)).min_temp
      = if tempOf l < a.min_temp then tempOf l else a.min_temp := rfl

theorem recordEffect_min_temp_time (ctime : Int → List Char) (a : climate_info)
    (l : List Char) :
    (recordEffect ctime a (fields l)).min_temp_time
      = if tempOf l < a.min_temp then (stampOf ctime l).getD [] else a.min_temp_time := rfl

theorem accOf_of_all (ctime : Int → List Char) (c : List Char) (lines : List (List Char))
    (h : ∀ l ∈ lines, codeOf l = c) :
    accOf ctime c lines
      = lines.foldl (fun a l => recordEffect ctime a (fields l)) (newInfo c) := by
  unfold accOf
  rw [List.filter_eq_self.mpr]
  intro l hl
  simpa using h l hl


theorem tempOf_eq_of_parts (l : List Char) (neg : Bool) (m k : Nat) (e : Int)
    (h : atofParts ((fields l).getD 8 []) = (neg, m, k, e)) :
    tempOf l = KtoF (if neg then -((m : ℚ) / 10 ^ k * 10 ^ e) else (m : ℚ) / 10 ^ k * 10 ^ e) := by
  unfold tempOf atof
  rw [h]

theorem tempOf_tieLine : tempOf tieLine = tieInfo.max_temp := by
  rw [tempOf_eq_of_parts _ false 27758716 5 0 (by decide)]
  norm_num [KtoF, tieInfo]

/-! ## Lines with fewer than nine fields -/

theorem updateInfo_short (ctime : Int → List Char) (a : climate_info)
    (toks : List (List Char)) (h : toks.length < 9) :
    updateInfo ctime a toks = .error .nullDeref := by
  rcases toks with _ | ⟨t0, _ | ⟨t1, _ | ⟨t2, _ | ⟨t3, _ | ⟨t4, _ | ⟨t5, _ | ⟨t6, _ | ⟨t7,
    _ | ⟨t8, rest⟩⟩⟩⟩⟩⟩⟩⟩⟩
  all_goals first
    | (simp only [List.length_cons] at h; omega)
    | simp [updateInfo, tokenArg, bind, Except.bind]

theorem processLine_short (ctime : Int → List Char) (st : Registry) (line : List Char)
    (h : ¬ WellFormed line) : ∃ e, processLine ctime st line = .error e := by
  have hlen : (strtokAll [' ', '\t', '\n'] line).length < 9 := by
    unfold WellFormed fields at h
    omega
  unfold processLine
  simp only [bind, Except.bind, pure, Except.pure]
  cases findLoop (blockAllocated st) (strtokAll [' ', '\t', '\n'] line)[0]? st 0 with
  | error e => exact ⟨e, rfl⟩
  | ok found =>
    simp only
    by_cases hneg : found < 0
    · simp only [hneg, if_true]
      cases createLoop (strtokAll [' ', '\t', '\n'] line)[0]? st 0 with
      | error e => exact ⟨e, rfl⟩
      | ok r =>
        obtain ⟨st1, idx⟩ := r
        simp only
        by_cases hidx : idx < 0
        · exact ⟨_, if_pos hidx⟩
        · rw [if_neg hidx]
          cases hs : st1[idx.toNat]? with
          | none => exact ⟨_, rfl⟩
          | some o =>
            cases o with
            | none => exact ⟨_, rfl⟩
            | some a => simp only [updateInfo_short ctime a _ hlen]; exact ⟨_, rfl⟩
    · simp only [hneg, if_false]
      cases hs : st[found.toNat]? with
      | none => exact ⟨_, rfl⟩
      | some o =>
        cases o with
        | none => exact ⟨_, rfl⟩
        | some a => simp only [updateInfo_short ctime a _ hlen]; exact ⟨_, rfl⟩

/-! ## The report -/

theorem foundLoop_free (blk : Bool) (n : Nat) :
    foundLoop blk (List.replicate n none) = .ok [] := by
  induction n with
  | zero => rfl
  | succ m ih => simpa [List.replicate_succ, foundLoop] using ih

theorem blockLoop_free (fmtF : Option ℚ → List Char) (blk : Bool) (n : Nat) :
    blockLoop fmtF blk (List.replicate n none) = .ok [] := by
  induction n with
  | zero => rfl
  | succ m ih => simpa [List.replicate_succ, blockLoop] using ih

theorem foundLoop_occupied (accs : List climate_info) (n : Nat) :
    foundLoop true (accs.map some ++ List.replicate n none)
      = .ok (accs.flatMap (fun a => a.code ++ [' '])) := by
  induction accs with
  | nil => simpa using foundLoop_free true n
  | cons a as ih => simp [foundLoop, ih]

theorem blockLoop_occupied (fmtF : Option ℚ → List Char) (accs : List climate_info) (n : Nat) :
    blockLoop fmtF true (accs.map some ++ List.replicate n none)
      = .ok (accs.flatMap (reportBlock fmtF)) := by
  induction accs with
  | nil => simpa using blockLoop_free fmtF true n
  | cons a as ih => simp [blockLoop, ih]

theorem print_report_dense (fmtF : Option ℚ → List Char) (accs : List climate_info) :
    print_report fmtF (dense accs)
      = .ok (("States found: ".toList ++ accs.flatMap (fun a => a.code ++ [' ']))
          :: accs.flatMap (reportBlock fmtF)) := by
  unfold print_report
  cases accs with
  | nil =>
    simp only [dense, List.map_nil, List.nil_append, foundLoop_free, blockLoop_free, bind,
      Except.bind, pure, Except.pure]
    rfl
  | cons a as =>
    have hb : blockAllocated (dense (a :: as)) = true := rfl
    rw [hb]
    unfold dense
    simp only [foundLoop_occupied, blockLoop_occupied, bind, Except.bind, pure, Except.pure]


/-! ## Slots and codes -/

theorem codesOf_dense (accs : List climate_info) :
    codesOf (dense accs) = accs.map (fun a => a.code) := by
  unfold codesOf dense
  rw [List.filterMap_append]
  have h1 : (List.replicate (NUM_STATES - accs.length) (none : Option climate_info)).filterMap
      (fun s => s.map (fun a => a.code)) = [] := by
    induction (NUM_STATES - accs.length) with
    | zero => rfl
    | succ m ih => simp [List.replicate_succ]
  rw [h1, List.append_nil, List.filterMap_map]
  induction accs with
  | nil => rfl
  | cons a as ih => simp [List.filterMap_cons, ih]

theorem dense_getElem?_of (accs : List climate_info) (i : Nat) (a : climate_info)
    (h : accs[i]? = some a) : (dense accs)[i]? = some (some a) := by
  have hlt : i < accs.length := by
    by_contra hge
    rw [List.getElem?_eq_none (by omega)] at h
    cases h
  rw [dense_getElem? accs i hlt]
  rw [List.getElem?_eq_getElem hlt] at h
  rw [Option.some.inj h]

theorem index_eq_of_nodup {α : Type} [DecidableEq α] (L : List α) (t : α) (i : Nat)
    (hnd : L.Nodup) (hi : L[i]? = some t) : i = indexIn t L := by
  induction L generalizing i with
  | nil => simp at hi
  | cons x xs ih =>
    rw [List.nodup_cons] at hnd
    cases i with
    | zero =>
      simp only [List.getElem?_cons_zero, Option.some.injEq] at hi
      simp [indexIn, hi]
    | succ n =>
      simp only [List.getElem?_cons_succ] at hi
      have hx : x ≠ t := fun h => hnd.1 (h ▸ List.getElem?_mem hi)
      simp [indexIn, hx, ih n hnd.2 hi]

/-! ## Order of the files -/

theorem summary_foldl_comm (ctime : Int → List Char) (c : List Char)
    (xs ys : List (List Char)) :
    summary ((xs ++ ys).foldl (fun a l => recordEffect ctime a (fields l)) (newInfo c))
      = summary ((ys ++ xs).foldl (fun a l => recordEffect ctime a (fields l)) (newInfo c)) := by
  have h0 : (newInfo c).num_records < 2 ^ 64 := by simp [newInfo]
  have h1 : (newInfo c).sum_humidity < 2 ^ 64 := by simp [newInfo]
  have h2 : (newInfo c).sum_cloud < 2 ^ 64 := by simp [newInfo]
  have h3 : (newInfo c).sum_snow < 2 ^ 64 := by simp [newInfo]
  have h4 : (newInfo c).sum_strikes < 2 ^ 64 := by simp [newInfo]
  unfold summary
  refine Prod.ext ?_ (Prod.ext ?_ (Prod.ext ?_ (Prod.ext ?_ (Prod.ext ?_ (Prod.ext ?_
    (Prod.ext ?_ ?_))))))
  · dsimp only
    rw [foldl_num_records ctime _ _ h0, foldl_num_records ctime _ _ h0, List.length_append,
      List.length_append, Nat.add_comm xs.length]
  · dsimp only
    have e1 := foldl_sum_humidity ctime (xs ++ ys) (newInfo c)
    have e2 := foldl_sum_humidity ctime (ys ++ xs) (newInfo c)
    have l1 := foldl_sum_humidity_lt ctime (xs ++ ys) (newInfo c) h1
    have l2 := foldl_sum_humidity_lt ctime (ys ++ xs) (newInfo c) h1
    rw [List.map_append, List.sum_append] at e1 e2
    rw [add_comm (List.sum _) (List.sum _)] at e2
    rw [← e2] at e1
    omega
  · dsimp only
    have e1 := foldl_sum_cloud ctime (xs ++ ys) (newInfo c)
    have e2 := foldl_sum_cloud ctime (ys ++ xs) (newInfo c)
    have l1 := foldl_sum_cloud_lt ctime (xs ++ ys) (newInfo c) h2
    have l2 := foldl_sum_cloud_lt ctime (ys ++ xs) (newInfo c) h2
    rw [List.map_append, List.sum_append] at e1 e2
    rw [add_comm (List.sum _) (List.sum _)] at e2
    rw [← e2] at e1
    omega
  · dsimp only
    rw [foldl_sum_snow ctime _ _ h3, foldl_sum_snow ctime _ _ h3, List.countP_append,
      List.countP_append, Nat.add_comm (List.countP _ xs)]
  · dsimp only
    rw [foldl_sum_strikes ctime _ _ h4, foldl_sum_strikes ctime _ _ h4, List.countP_append,
      List.countP_append, Nat.add_comm (List.countP _ xs)]
  · dsimp only
    rw [foldl_sum_temp, foldl_sum_temp, List.map_append, List.map_append, List.sum_append,
      List.sum_append, add_comm (List.sum (xs.map tempOf))]
  · dsimp only
    apply le_antisymm
    · rw [le_foldl_min_iff]
      have h := (le_foldl_min_iff ctime (xs ++ ys) (newInfo c) _).mp (le_refl _)
      exact ⟨h.1, fun l hl => h.2 l (by
        rcases List.mem_append.mp hl with h | h
        · exact List.mem_append_right _ h
        · exact List.mem_append_left _ h)⟩
    · rw [le_foldl_min_iff]
      have h := (le_foldl_min_iff ctime (ys ++ xs) (newInfo c) _).mp (le_refl _)
      exact ⟨h.1, fun l hl => h.2 l (by
        rcases List.mem_append.mp hl with h | h
        · exact List.mem_append_right _ h
        · exact List.mem_append_left _ h)⟩
  · dsimp only
    apply le_antisymm
    · rw [foldl_max_le_iff]
      have h := (foldl_max_le_iff ctime (ys ++ xs) (newInfo c) _).mp (le_refl _)
      exact ⟨h.1, fun l hl => h.2 l (by
        rcases List.mem_append.mp hl with h | h
        · exact List.mem_append_right _ h
        · exact List.mem_append_left _ h)⟩
    · rw [foldl_max_le_iff]
      have h := (foldl_max_le_iff ctime (xs ++ ys) (newInfo c) _).mp (le_refl _)
      exact ⟨h.1, fun l hl => h.2 l (by
        rcases List.mem_append.mp hl with h | h
        · exact List.mem_append_right _ h
        · exact List.mem_append_left _ h)⟩

theorem summary_accOf_comm (ctime : Int → List Char) (c : List Char)
    (A B : List (List Char)) :
    summary (accOf ctime c (A ++ B)) = summary (accOf ctime c (B ++ A)) := by
  unfold accOf
  rw [List.filter_append, List.filter_append]
  exact summary_foldl_comm ctime c _ _

/-! ## The claims -/

/-- C1. When `analyze_file` processes well-formed lines (nine fields or more, at most
`NUM_STATES` distinct codes, fewer than `2 ^ 64` lines) from the empty registry, the run
completes and, for every code `c`, the registry has an accumulator for `c` exactly when some
line bears `c`, and that accumulator has `num_records` equal to the number of lines whose first
field is `c`. -/
theorem C1_num_records_counts_lines (ctime : Int → List Char) (hct : CtimeOk ctime)
    (lines : List (List Char)) (hwf : ∀ l ∈ lines, WellFormed l)
    (hcap : (lines.map codeOf).toFinset.card ≤ NUM_STATES) (hlen : lines.length < 2 ^ 64)
    (c : List Char) :
    ∃ st, analyze_file ctime emptyRegistry lines = .ok st ∧
      ((accFor c st).isSome ↔ 0 < lines.countP (fun l => (fields l).head? = some c)) ∧
      ∀ a, accFor c st = some a →
        a.num_records = lines.countP (fun l => (fields l).head? = some c) := by
  refine ⟨_, analyze_file_eq ctime hct lines hwf hcap, ?_, ?_⟩
  · rw [accFor_dense_accsOf, List.countP_pos_iff]
    constructor
    · intro h
      split at h
      · rename_i hmem
        obtain ⟨l, hl, hc⟩ := List.mem_map.mp hmem
        exact ⟨l, hl, by simpa using (head?_eq_iff_codeOf l c (hwf l hl)).mpr hc⟩
      · simp at h
    · rintro ⟨l, hl, hc⟩
      have hc2 : codeOf l = c := (head?_eq_iff_codeOf l c (hwf l hl)).mp (by simpa using hc)
      rw [if_pos (List.mem_map.mpr ⟨l, hl, hc2⟩)]
      rfl
  · intro a ha
    rw [accFor_dense_accsOf] at ha
    split at ha
    · cases ha
      rw [accOf_num_records ctime c lines hlen, List.countP_eq_length_filter]
      congr 1
      apply List.filter_congr
      intro l hl
      simp only [decide_eq_decide]
      exact (head?_eq_iff_codeOf l c (hwf l hl)).symm
    · cases ha

/-- Witness of C1 on `sampleLines` for the code `CA`. -/
theorem C1_num_records_counts_lines_witness :
    ∃ st, analyze_file ctimeSeconds emptyRegistry sampleLines = .ok st ∧
      ((accFor "CA".toList st).isSome
        ↔ 0 < sampleLines.countP (fun l => (fields l).head? = some "CA".toList)) ∧
      ∀ a, accFor "CA".toList st = some a →
        a.num_records = sampleLines.countP (fun l => (fields l).head? = some "CA".toList) :=
  C1_num_records_counts_lines ctimeSeconds ctimeSeconds_ok sampleLines (by decide)
    (le_trans (card_codes_le_length sampleLines) (by decide)) (by decide) "CA".toList

/-- C2. After `analyze_file` has processed well-formed lines from the empty registry, every
line is covered by the accumulator of its code: `min_temp` is at most the converted Fahrenheit
temperature of the line and `max_temp` is at least that temperature. -/
theorem C2_min_max_bound_every_temperature (ctime : Int → List Char) (hct : CtimeOk ctime)
    (lines : List (List Char)) (hwf : ∀ l ∈ lines, WellFormed l)
    (hcap : (lines.map codeOf).toFinset.card ≤ NUM_STATES) :
    ∃ st, analyze_file ctime emptyRegistry lines = .ok st ∧
      ∀ c l, l ∈ lines → (fields l).head? = some c →
        ∃ a, accFor c st = some a ∧ a.min_temp ≤ tempOf l ∧ tempOf l ≤ a.max_temp := by
  refine ⟨_, analyze_file_eq ctime hct lines hwf hcap, ?_⟩
  intro c l hl hc
  have hc2 : codeOf l = c := (head?_eq_iff_codeOf l c (hwf l hl)).mp hc
  rw [accFor_dense_accsOf, if_pos (List.mem_map.mpr ⟨l, hl, hc2⟩)]
  refine ⟨_, rfl, ?_, ?_⟩
  · have h := (le_foldl_min_iff ctime (lines.filter (fun l => codeOf l = c)) (newInfo c)
      (accOf ctime c lines).min_temp).mp (le_refl _)
    exact h.2 l (List.mem_filter.mpr ⟨hl, by simpa using hc2⟩)
  · have h := (foldl_max_le_iff ctime (lines.filter (fun l => codeOf l = c)) (newInfo c)
      (accOf ctime c lines).max_temp).mp (le_refl _)
    exact h.2 l (List.mem_filter.mpr ⟨hl, by simpa using hc2⟩)

/-- Witness of C2 on `sampleLines`. -/
theorem C2_min_max_bound_every_temperature_witness :
    ∃ st, analyze_file ctimeSeconds emptyRegistry sampleLines = .ok st ∧
      ∀ c l, l ∈ sampleLines → (fields l).head? = some c →
        ∃ a, accFor c st = some a ∧ a.min_temp ≤ tempOf l ∧ tempOf l ≤ a.max_temp :=
  C2_min_max_bound_every_temperature ctimeSeconds ctimeSeconds_ok sampleLines (by decide)
    (le_trans (card_codes_le_length sampleLines) (by decide))

/-- C3, evaluation at the failing input.  On the empty registry the single line `hotLine`,
whose converted temperature is 1160.33, leaves the accumulator for `CA` with `max_temp` equal to
that temperature but with `min_temp` still the initial value 1000 and `min_temp_time` still the
empty string, although the formatted timestamp of the line is `T1428300000`. -/
theorem C3_initial_minimum_survives_hot_first_record :
    ∃ st a, analyze_file ctimeSeconds emptyRegistry [hotLine] = .ok st ∧
      accFor "CA".toList st = some a ∧ tempOf hotLine = 1160.33 ∧
      stampOf ctimeSeconds hotLine = some "T1428300000".toList ∧
      a.max_temp = 1160.33 ∧ a.max_temp_time = "T1428300000".toList ∧
      a.min_temp = 1000 ∧ a.min_temp_time = [] := by
  have hrun := analyze_file_eq ctimeSeconds ctimeSeconds_ok [hotLine] (by decide)
    (le_trans (card_codes_le_length [hotLine]) (by decide))
  have hcode : codeOf hotLine = "CA".toList := by decide
  have hacc : accFor "CA".toList (dense (accsOf ctimeSeconds [hotLine]))
      = some (recordEffect ctimeSeconds (newInfo "CA".toList) (fields hotLine)) := by
    rw [accFor_dense_accsOf, if_pos (by simp [hcode]),
      accOf_of_all ctimeSeconds _ _ (by simp [hcode])]
    rfl
  have hparts : atofParts ((fields hotLine).getD 8 []) = (false, 9000, 1, 0) := by decide
  have htemp : tempOf hotLine = 1160.33 := by
    unfold tempOf atof KtoF
    rw [hparts]
    norm_num
  have hstamp : stampOf ctimeSeconds hotLine = some "T1428300000".toList := by decide
  refine ⟨_, _, hrun, hacc, htemp, hstamp, ?_, ?_, ?_, ?_⟩
  · rw [recordEffect_max_temp, htemp]
    norm_num [newInfo]
  · rw [recordEffect_max_temp_time, htemp, hstamp]
    norm_num [newInfo]
  · rw [recordEffect_min_temp, htemp]
    norm_num [newInfo]
  · rw [recordEffect_min_temp_time, htemp]
    norm_num [newInfo]

/-- C5. Let slot `i` of a registry whose block is allocated hold the accumulator `a`, the first
one with its code, and let a well-formed line bear that code.  Processing the line completes
and leaves an accumulator in slot `i`; when the converted temperature of the line equals
`a.max_temp`, `max_temp` and `max_temp_time` are unchanged, and when it equals `a.min_temp`,
`min_temp` and `min_temp_time` are unchanged. -/
theorem C5_tie_keeps_extremum_and_timestamp (ctime : Int → List Char) (hct : CtimeOk ctime)
    (st : Registry) (line : List Char) (i : Nat) (a : climate_info)
    (hwf : WellFormed line) (hblk : blockAllocated st = true)
    (hi : st[i]? = some (some a)) (hcode : (fields line).head? = some a.code)
    (hfirst : ∀ j, j < i → ∀ b, st[j]? = some (some b) → b.code ≠ a.code) :
    ∃ st1 a1, processLine ctime st line = .ok st1 ∧ st1[i]? = some (some a1) ∧
      (tempOf line = a.max_temp →
        a1.max_temp = a.max_temp ∧ a1.max_temp_time = a.max_temp_time) ∧
      (tempOf line = a.min_temp →
        a1.min_temp = a.min_temp ∧ a1.min_temp_time = a.min_temp_time) := by
  have hc : a.code = codeOf line := ((head?_eq_iff_codeOf line a.code hwf).mp hcode).symm
  obtain ⟨b0, rest, hst⟩ : ∃ b0 rest, st = some b0 :: rest := by
    match st, hblk with
    | some b0 :: rest, _ => exact ⟨b0, rest, rfl⟩
  have hlt : i < st.length := by
    by_contra hge
    rw [List.getElem?_eq_none (by omega)] at hi
    cases hi
  refine ⟨_, _, processLine_found ctime hct st line i a b0 rest hwf hst hi hc
    (fun j hj b hb => hc ▸ hfirst j hj b hb), List.getElem?_set_self hlt, ?_, ?_⟩
  · intro h
    rw [recordEffect_max_temp, recordEffect_max_temp_time, h]
    simp
  · intro h
    rw [recordEffect_min_temp, recordEffect_min_temp_time, h]
    simp

/-- Witness of C5: `tieLine` repeats the temperature that set both extrema of `tieInfo`. -/
theorem C5_tie_keeps_extremum_and_timestamp_witness :
    tempOf tieLine = tieInfo.max_temp ∧
    ∃ st1 a1, processLine ctimeSeconds (dense [tieInfo]) tieLine = .ok st1 ∧
      st1[0]? = some (some a1) ∧
      (tempOf tieLine = tieInfo.max_temp →
        a1.max_temp = tieInfo.max_temp ∧ a1.max_temp_time = tieInfo.max_temp_time) ∧
      (tempOf tieLine = tieInfo.min_temp →
        a1.min_temp = tieInfo.min_temp ∧ a1.min_temp_time = tieInfo.min_temp_time) :=
  ⟨tempOf_tieLine,
    C5_tie_keeps_extremum_and_timestamp ctimeSeconds ctimeSeconds_ok (dense [tieInfo]) tieLine 0
      tieInfo (by decide) rfl rfl (by decide) (fun j hj => absurd hj (Nat.not_lt_zero j))⟩

/-- C6, what the code does.  For every registry and every line with fewer than nine fields
(the empty line included) the loop body of `analyze_file` does not complete: it ends in a
fault, so the line is not skipped. -/
theorem C6_short_line_faults (ctime : Int → List Char) (st : Registry) (line : List Char)
    (h : ¬ WellFormed line) : ∃ e, processLine ctime st line = .error e :=
  processLine_short ctime st line h

/-- Witness of C6 at the failing input: the two-field line `shortLine` on the empty
registry. -/
theorem C6_short_line_faults_witness :
    ¬ WellFormed shortLine ∧ ∃ e, processLine ctimeSeconds emptyRegistry shortLine = .error e :=
  ⟨by decide, C6_short_line_faults ctimeSeconds emptyRegistry shortLine (by decide)⟩

/-- C7, evaluation at the failing input.  With the program name as only argument (`argc = 1`)
`main` prints no usage message: it prints the report of the empty registry, the single line
`States found: `, and returns status `0`. -/
theorem C7_no_file_arguments_reports_and_returns_zero (ctime : Int → List Char)
    (fmtF : Option ℚ → List Char) (fs : List Char → Option (List (List Char)))
    (prog : List Char) :
    main ctime fmtF fs [prog] = .ok (["States found: ".toList], 0) := by
  have h : print_report fmtF emptyRegistry = .ok ["States found: ".toList] := by
    have := print_report_dense fmtF []
    simpa using this
  simp [main, fileLoop, h]

/-- C9. Let `analyze_file` have processed well-formed lines from the empty registry, and let one
more well-formed line `l` be processed (at most `NUM_STATES` distinct codes in all).  Before and
after that line no two occupied slots hold the same code; an accumulator whose code differs from
the first field of `l` in any character is left as it was, and an accumulator whose code is
exactly that field receives the record. -/
theorem C9_one_accumulator_per_code_exact_match (ctime : Int → List Char) (hct : CtimeOk ctime)
    (lines : List (List Char)) (l : List Char) (hwf : ∀ x ∈ lines, WellFormed x)
    (hwfl : WellFormed l) (hcap : ((lines ++ [l]).map codeOf).toFinset.card ≤ NUM_STATES) :
    ∃ (st st1 : Registry), analyze_file ctime emptyRegistry lines = .ok st ∧
      processLine ctime st l = .ok st1 ∧ (codesOf st).Nodup ∧ (codesOf st1).Nodup ∧
      (∀ (i : Nat) (a : climate_info), st[i]? = some (some a) → a.code ≠ codeOf l → st1[i]? = some (some a)) ∧
      (∀ (i : Nat) (a : climate_info), st[i]? = some (some a) → a.code = codeOf l →
        st1[i]? = some (some (recordEffect ctime a (fields l)))) := by
  have hcap1 : (firstSeen ((lines ++ [l]).map codeOf)).length ≤ NUM_STATES := by
    rw [length_firstSeen]; exact hcap
  have hcap0 : (lines.map codeOf).toFinset.card ≤ NUM_STATES := by
    rw [← length_firstSeen]
    have := length_firstSeen_le_snoc (lines.map codeOf) (codeOf l)
    rw [List.map_append, List.map_singleton] at hcap1
    omega
  have hcodes := accsOf_codes ctime lines
  refine ⟨_, _, analyze_file_eq ctime hct lines hwf hcap0,
    processLine_dense ctime hct lines l hwfl hcap1, ?_, ?_, ?_, ?_⟩
  · rw [codesOf_dense, accsOf_codes]; exact nodup_firstSeen _
  · rw [codesOf_dense, accsOf_codes]; exact nodup_firstSeen _
  · intro i a hi hne
    have hA := dense_getElem?_some _ _ _ hi
    have hL : (firstSeen (lines.map codeOf))[i]? = some a.code := by
      rw [← hcodes, List.getElem?_map, hA]; rfl
    apply dense_getElem?_of
    by_cases h : codeOf l ∈ lines.map codeOf
    · rw [accsOf_snoc_old ctime lines l h, List.getElem?_set_ne, hA]
      intro hEq
      have h1 := getElem?_indexIn _ _ ((mem_firstSeen _ _).mpr h)
      rw [hEq, hL] at h1
      exact hne (Option.some.inj h1)
    · rw [accsOf_snoc_new ctime lines l h, List.getElem?_append_left, hA]
      by_contra hge
      rw [List.getElem?_eq_none (by omega)] at hA
      cases hA
  · intro i a hi hEq
    have hA := dense_getElem?_some _ _ _ hi
    have hL : (firstSeen (lines.map codeOf))[i]? = some (codeOf l) := by
      rw [← hcodes, List.getElem?_map, hA, ← hEq]; rfl
    have hmem : codeOf l ∈ lines.map codeOf := (mem_firstSeen _ _).mp (List.getElem?_mem hL)
    have hidx := index_eq_of_nodup _ _ i (nodup_firstSeen _) hL
    have hlt : i < (accsOf ctime lines).length := by
      by_contra hge
      rw [List.getElem?_eq_none (by omega)] at hA
      cases hA
    have hacc : a = accOf ctime (codeOf l) lines := by
      have h2 : (accsOf ctime lines)[i]? = some (accOf ctime (codeOf l) lines) := by
        unfold accsOf
        rw [List.getElem?_map, hL]
        rfl
      rw [hA] at h2
      exact Option.some.inj h2
    apply dense_getElem?_of
    rw [accsOf_snoc_old ctime lines l hmem, ← hidx, List.getElem?_set_self hlt, hacc]

/-- Witness of C9: `lowerLine`, whose code is `ca`, after `sampleLines`, whose codes are `CA`
and `TN`. -/
theorem C9_one_accumulator_per_code_exact_match_witness :
    ∃ (st st1 : Registry), analyze_file ctimeSeconds emptyRegistry sampleLines = .ok st ∧
      processLine ctimeSeconds st lowerLine = .ok st1 ∧ (codesOf st).Nodup ∧
      (codesOf st1).Nodup ∧
      (∀ (i : Nat) (a : climate_info), st[i]? = some (some a) → a.code ≠ codeOf lowerLine → st1[i]? = some (some a)) ∧
      (∀ (i : Nat) (a : climate_info), st[i]? = some (some a) → a.code = codeOf lowerLine →
        st1[i]? = some (some (recordEffect ctimeSeconds a (fields lowerLine)))) :=
  C9_one_accumulator_per_code_exact_match ctimeSeconds ctimeSeconds_ok sampleLines lowerLine
    (by decide) (by decide)
    (le_trans (card_codes_le_length (sampleLines ++ [lowerLine])) (by decide))

/-- C10. For well-formed lines `A` and `B` with at most `NUM_STATES` distinct codes overall,
running `analyze_file` on `A` and then on `B`, and running it on `B` and then on `A`, both
complete, and for every code the two registries agree on whether it has an accumulator and on
that accumulator's `num_records`, `sum_humidity`, `sum_cloud`, `sum_snow`, `sum_strikes`,
`sum_temp`, `min_temp` and `max_temp`. -/
theorem C10_order_of_files_commutes (ctime : Int → List Char) (hct : CtimeOk ctime)
    (A B : List (List Char)) (hA : ∀ l ∈ A, WellFormed l) (hB : ∀ l ∈ B, WellFormed l)
    (hcap : ((A ++ B).map codeOf).toFinset.card ≤ NUM_STATES) :
    ∃ (st1 st2 : Registry),
      (analyze_file ctime emptyRegistry A).bind (fun s => analyze_file ctime s B) = .ok st1 ∧
      (analyze_file ctime emptyRegistry B).bind (fun s => analyze_file ctime s A) = .ok st2 ∧
      ∀ c, (accFor c st1).map summary = (accFor c st2).map summary := by
  have hAB : ∀ l ∈ A ++ B, WellFormed l := by
    intro l hl
    rcases List.mem_append.mp hl with h | h
    · exact hA l h
    · exact hB l h
  have hBA : ∀ l ∈ B ++ A, WellFormed l := by
    intro l hl
    rcases List.mem_append.mp hl with h | h
    · exact hB l h
    · exact hA l h
  have hcap2 : ((B ++ A).map codeOf).toFinset.card ≤ NUM_STATES := by
    have : ((B ++ A).map codeOf).toFinset = ((A ++ B).map codeOf).toFinset := by
      ext x
      simp only [List.map_append, List.mem_toFinset, List.mem_append]
      exact Or.comm
    rw [this]; exact hcap
  refine ⟨dense (accsOf ctime (A ++ B)), dense (accsOf ctime (B ++ A)), ?_, ?_, ?_⟩
  · rw [← analyze_file_append]
    exact analyze_file_eq ctime hct (A ++ B) hAB hcap
  · rw [← analyze_file_append]
    exact analyze_file_eq ctime hct (B ++ A) hBA hcap2
  · intro c
    rw [accFor_dense_accsOf, accFor_dense_accsOf]
    by_cases h : c ∈ (A ++ B).map codeOf
    · have h2 : c ∈ (B ++ A).map codeOf := by
        simp only [List.map_append, List.mem_append] at h ⊢
        exact h.symm
      rw [if_pos h, if_pos h2, Option.map_some', Option.map_some', summary_accOf_comm]
    · have h2 : c ∉ (B ++ A).map codeOf := by
        simp only [List.map_append, List.mem_append] at h ⊢
        exact fun h3 => h h3.symm
      rw [if_neg h, if_neg h2]

/-- Witness of C10: `sampleLines` and `caLines` in the two orders. -/
theorem C10_order_of_files_commutes_witness :
    ∃ (st1 st2 : Registry),
      (analyze_file ctimeSeconds emptyRegistry sampleLines).bind
        (fun s => analyze_file ctimeSeconds s caLines) = .ok st1 ∧
      (analyze_file ctimeSeconds emptyRegistry caLines).bind
        (fun s => analyze_file ctimeSeconds s sampleLines) = .ok st2 ∧
      ∀ c, (accFor c st1).map summary = (accFor c st2).map summary :=
  C10_order_of_files_commutes ctimeSeconds ctimeSeconds_ok sampleLines caLines (by decide)
    (by decide) (le_trans (card_codes_le_length (sampleLines ++ caLines)) (by decide))

/-! ## One more line after a run -/

theorem processLine_after_run (ctime : Int → List Char) (hct : CtimeOk ctime)
    (lines : List (List Char)) (l : List Char) (hwf : ∀ x ∈ lines, WellFormed x)
    (hwfl : WellFormed l) (hcap : ((lines ++ [l]).map codeOf).toFinset.card ≤ NUM_STATES) :
    analyze_file ctime emptyRegistry lines = .ok (dense (accsOf ctime lines)) ∧
      processLine ctime (dense (accsOf ctime lines)) l
        = .ok (dense (accsOf ctime (lines ++ [l]))) ∧
      accFor (codeOf l) (dense (accsOf ctime (lines ++ [l])))
        = some (recordEffect ctime (accBefore (dense (accsOf ctime lines)) l) (fields l)) ∧
      accBefore (dense (accsOf ctime lines)) l = accOf ctime (codeOf l) lines := by
  have hcap1 : (firstSeen ((lines ++ [l]).map codeOf)).length ≤ NUM_STATES := by
    rw [length_firstSeen]; exact hcap
  have hcap0 : (lines.map codeOf).toFinset.card ≤ NUM_STATES := by
    rw [← length_firstSeen]
    have := length_firstSeen_le_snoc (lines.map codeOf) (codeOf l)
    rw [List.map_append, List.map_singleton] at hcap1
    omega
  have hbefore : accBefore (dense (accsOf ctime lines)) l = accOf ctime (codeOf l) lines := by
    unfold accBefore
    rw [accFor_dense_accsOf]
    by_cases h : codeOf l ∈ lines.map codeOf
    · rw [if_pos h]; rfl
    · rw [if_neg h, accOf_of_not_mem ctime _ _ h]; rfl
  refine ⟨analyze_file_eq ctime hct lines hwf hcap0,
    processLine_dense ctime hct lines l hwfl hcap1, ?_, hbefore⟩
  rw [accFor_dense_accsOf, if_pos (by simp), accOf_snoc, if_pos rfl, hbefore]

theorem accOf_sum_snow_le (ctime : Int → List Char) (c : List Char) (lines : List (List Char)) :
    (accOf ctime c lines).sum_snow ≤ lines.length := by
  unfold accOf
  rw [foldl_sum_snow ctime _ _ (by simp [newInfo])]
  refine le_trans (Nat.mod_le _ _) ?_
  simp only [newInfo, Nat.zero_add]
  exact le_trans (List.countP_le_length _) (List.length_filter_le _ _)

theorem accOf_sum_strikes_le (ctime : Int → List Char) (c : List Char)
    (lines : List (List Char)) : (accOf ctime c lines).sum_strikes ≤ lines.length := by
  unfold accOf
  rw [foldl_sum_strikes ctime _ _ (by simp [newInfo])]
  refine le_trans (Nat.mod_le _ _) ?_
  simp only [newInfo, Nat.zero_add]
  exact le_trans (List.countP_le_length _) (List.length_filter_le _ _)

theorem atof_eq_of_parts (s : List Char) (neg : Bool) (m k : Nat) (e : Int)
    (h : atofParts s = (neg, m, k, e)) :
    atof s = if neg then -((m : ℚ) / 10 ^ k * 10 ^ e) else (m : ℚ) / 10 ^ k * 10 ^ e := by
  unfold atof
  rw [h]

theorem accFor_single (ctime : Int → List Char) (l : List Char) :
    accFor (codeOf l) (dense (accsOf ctime [l]))
      = some (recordEffect ctime (newInfo (codeOf l)) (fields l)) := by
  rw [accFor_dense_accsOf, if_pos (by simp), accOf_of_all ctime _ _ (by simp)]
  rfl

theorem selectSlot_dense_found (ctime : Int → List Char) (lines : List (List Char))
    (l : List Char) (hwfl : WellFormed l) (h : codeOf l ∈ lines.map codeOf) :
    selectSlot (dense (accsOf ctime lines)) (fields l)[0]?
      = .ok (dense (accsOf ctime lines),
          ((indexIn (codeOf l) (firstSeen (lines.map codeOf)) : Nat) : Int)) := by
  have hcodes := accsOf_codes ctime lines
  have hlen := length_accsOf ctime lines
  have hmem : codeOf l ∈ firstSeen (lines.map codeOf) := (mem_firstSeen _ _).mpr h
  have hi := indexIn_lt _ _ hmem
  have hi2 : indexIn (codeOf l) (firstSeen (lines.map codeOf)) < (accsOf ctime lines).length := by
    rw [hlen]; exact hi
  have hget := dense_getElem? (accsOf ctime lines) _ hi2
  have hcode : ((accsOf ctime lines)[indexIn (codeOf l) (firstSeen (lines.map codeOf))]).code
      = codeOf l := by
    have h1 := getElem?_indexIn _ _ hmem
    have h2 : ((accsOf ctime lines).map (fun a => a.code))[
        indexIn (codeOf l) (firstSeen (lines.map codeOf))]? = some (codeOf l) := by
      rw [hcodes]; exact h1
    rw [List.getElem?_map, List.getElem?_eq_getElem hi2] at h2
    exact Option.some.inj h2
  have hfind := findLoop_found (codeOf l) (dense (accsOf ctime lines)) 0 _ _ hget hcode (by
    intro j hj b hb2 hbc
    have h1 := dense_getElem?_some _ _ _ hb2
    have h2 : ((accsOf ctime lines).map (fun a => a.code))[j]? = some b.code := by
      rw [List.getElem?_map, h1]; rfl
    rw [hcodes, hbc] at h2
    exact getElem?_ne_of_lt_indexIn _ _ j hj h2)
  have hblk : blockAllocated (dense (accsOf ctime lines)) = true := by
    rcases dense_block (accsOf ctime lines) with ⟨b0, rest, hb⟩ | hall
    · rw [hb]; rfl
    · have := hall _ (List.getElem?_mem hget)
      cases this
  unfold selectSlot
  rw [fields_head_of_wellFormed l hwfl, hblk, hfind]
  simp only [bind, Except.bind, pure, Except.pure, Nat.zero_add]
  rw [if_neg (by omega)]

theorem absent_of_not_mem (ctime : Int → List Char) (lines : List (List Char)) (l : List Char)
    (h : codeOf l ∉ lines.map codeOf) :
    ∀ b, some b ∈ dense (accsOf ctime lines) → b.code ≠ codeOf l := by
  intro b hb hbc
  have h1 : b.code ∈ (accsOf ctime lines).map (fun a => a.code) :=
    List.mem_map.mpr ⟨b, mem_dense _ _ hb, rfl⟩
  rw [accsOf_codes, hbc] at h1
  exact h ((mem_firstSeen _ _).mp h1)

theorem findLoop_dense_absent (ctime : Int → List Char) (lines : List (List Char))
    (l : List Char) (h : codeOf l ∉ lines.map codeOf) :
    findLoop (blockAllocated (dense (accsOf ctime lines))) (some (codeOf l))
      (dense (accsOf ctime lines)) 0 = .ok (-1) := by
  rcases dense_block (accsOf ctime lines) with ⟨b0, rest, hb⟩ | hall
  · have hblk : blockAllocated (dense (accsOf ctime lines)) = true := by rw [hb]; rfl
    rw [hblk]
    exact findLoop_absent _ _ _ (absent_of_not_mem ctime lines l h)
  · exact findLoop_free _ _ _ _ hall

theorem selectSlot_dense_new (ctime : Int → List Char) (lines : List (List Char))
    (l : List Char) (hwfl : WellFormed l) (h : codeOf l ∉ lines.map codeOf)
    (hlt : (accsOf ctime lines).length < NUM_STATES) :
    selectSlot (dense (accsOf ctime lines)) (fields l)[0]?
      = .ok ((dense (accsOf ctime lines)).set (accsOf ctime lines).length
            (some (newInfo (codeOf l))),
          (((accsOf ctime lines).length : Nat) : Int)) := by
  have hcreate := createLoop_free (codeOf l) (dense (accsOf ctime lines)) 0
    (accsOf ctime lines).length (dense_free _ hlt) (fun j hj => dense_not_free _ j hj)
  unfold selectSlot
  rw [fields_head_of_wellFormed l hwfl, findLoop_dense_absent ctime lines l h]
  simp only [bind, Except.bind, pure, Except.pure]
  rw [if_pos (by omega), hcreate, Nat.zero_add]

theorem dense_full (accs : List climate_info) (h : accs.length = NUM_STATES) :
    ∀ x ∈ dense accs, x ≠ none := by
  intro x hx
  unfold dense at hx
  rw [h, Nat.sub_self] at hx
  simp only [List.replicate_zero, List.append_nil, List.mem_map] at hx
  obtain ⟨a, -, rfl⟩ := hx
  simp

theorem selectSlot_dense_full (ctime : Int → List Char) (lines : List (List Char))
    (l : List Char) (hwfl : WellFormed l) (h : codeOf l ∉ lines.map codeOf)
    (hfull : (accsOf ctime lines).length = NUM_STATES) :
    selectSlot (dense (accsOf ctime lines)) (fields l)[0]?
      = .ok (dense (accsOf ctime lines), -1) := by
  unfold selectSlot
  rw [fields_head_of_wellFormed l hwfl, findLoop_dense_absent ctime lines l h]
  simp only [bind, Except.bind, pure, Except.pure]
  rw [if_pos (by omega), createLoop_full _ _ _ (dense_full _ hfull)]

theorem processLine_dense_full (ctime : Int → List Char) (lines : List (List Char))
    (l : List Char) (hwfl : WellFormed l) (h : codeOf l ∉ lines.map codeOf)
    (hfull : (accsOf ctime lines).length = NUM_STATES) :
    processLine ctime (dense (accsOf ctime lines)) l = .error .outOfBounds := by
  rcases dense_block (accsOf ctime lines) with ⟨b0, rest, hb⟩ | hall
  · exact processLine_full ctime _ l b0 rest hwfl hb (absent_of_not_mem ctime lines l h)
      (dense_full _ hfull)
  · exfalso
    cases hacc : accsOf ctime lines with
    | nil => rw [hacc] at hfull; simp [NUM_STATES] at hfull
    | cons a r =>
      rw [hacc] at hall
      have := hall (some a) (by simp [dense])
      cases this

theorem accsOf_single (ctime : Int → List Char) (l : List Char) :
    accsOf ctime [l] = [recordEffect ctime (newInfo (codeOf l)) (fields l)] := by
  unfold accsOf
  simp only [List.map_cons, List.map_nil, firstSeen, List.filter_nil]
  rw [accOf_of_all ctime _ _ (by simp)]
  rfl

theorem run_single (ctime : Int → List Char) (hct : CtimeOk ctime) (l : List Char)
    (hwf : WellFormed l) :
    analyze_file ctime emptyRegistry [l]
      = .ok (dense [recordEffect ctime (newInfo (codeOf l)) (fields l)]) := by
  rw [← accsOf_single]
  exact analyze_file_eq ctime hct [l] (by simpa using hwf)
    (le_trans (card_codes_le_length [l]) (by simp [NUM_STATES]))

theorem accFor_dense_single (a : climate_info) : accFor a.code (dense [a]) = some a := by
  simp [dense, accFor]

theorem recordEffect_sum_snow_of_zero (ctime : Int → List Char) (a : climate_info)
    (toks : List (List Char)) (h : atol (toks.getD 4 []) = 0) :
    (recordEffect ctime a toks).sum_snow = a.sum_snow := by
  show (if atol (toks.getD 4 []) ≠ 0 then (a.sum_snow + 1) % 2 ^ 64 else a.sum_snow)
    = a.sum_snow
  rw [if_neg (fun hne => hne h)]

theorem recordEffect_sum_strikes_of_zero (ctime : Int → List Char) (a : climate_info)
    (toks : List (List Char)) (h : atol (toks.getD 6 []) = 0) :
    (recordEffect ctime a toks).sum_strikes = a.sum_strikes := by
  show (if atol (toks.getD 6 []) ≠ 0 then (a.sum_strikes + 1) % 2 ^ 64 else a.sum_strikes)
    = a.sum_strikes
  rw [if_neg (fun hne => hne h)]

/-! ## The remaining claims about `climate.c` -/

/-- C21. After `analyze_file` has processed well-formed lines (at most `NUM_STATES` distinct
codes, fewer than `2 ^ 64` lines) from the empty registry, every occupied slot has
`num_records` at least 1, so that each division by `num_records` in `print_report` has a
divisor other than zero. -/
theorem C21_num_records_positive (ctime : Int → List Char) (hct : CtimeOk ctime)
    (lines : List (List Char)) (hwf : ∀ l ∈ lines, WellFormed l)
    (hcap : (lines.map codeOf).toFinset.card ≤ NUM_STATES) (hlen : lines.length < 2 ^ 64) :
    ∃ st : Registry, analyze_file ctime emptyRegistry lines = .ok st ∧
      ∀ (i : Nat) (a : climate_info), st[i]? = some (some a) →
        1 ≤ a.num_records ∧ ∀ x : ℚ, fdiv x a.num_records = some (x / a.num_records) := by
  refine ⟨_, analyze_file_eq ctime hct lines hwf hcap, ?_⟩
  intro i a hi
  have hA := dense_getElem?_some _ _ _ hi
  have hmem : a ∈ accsOf ctime lines := List.getElem?_mem hA
  unfold accsOf at hmem
  obtain ⟨c, hc, rfl⟩ := List.mem_map.mp hmem
  have hc2 : c ∈ lines.map codeOf := (mem_firstSeen _ _).mp hc
  obtain ⟨l, hl, hlc⟩ := List.mem_map.mp hc2
  have hpos : 1 ≤ (accOf ctime c lines).num_records := by
    rw [accOf_num_records ctime c lines hlen]
    exact List.length_pos_of_mem (List.mem_filter.mpr ⟨hl, by simpa using hlc⟩)
  refine ⟨hpos, ?_⟩
  intro x
  unfold fdiv
  rw [if_neg (by omega)]

/-- Witness of C21 on `sampleLines`. -/
theorem C21_num_records_positive_witness :
    ∃ st : Registry, analyze_file ctimeSeconds emptyRegistry sampleLines = .ok st ∧
      ∀ (i : Nat) (a : climate_info), st[i]? = some (some a) →
        1 ≤ a.num_records ∧ ∀ x : ℚ, fdiv x a.num_records = some (x / a.num_records) :=
  C21_num_records_positive ctimeSeconds ctimeSeconds_ok sampleLines (by decide)
    (le_trans (card_codes_le_length sampleLines) (by decide)) (by decide)

/-- C22 as stated fails: on the empty registry the line `halfLine`, whose snow and lightning
fields are `0.5`, a nonzero value, leaves `sum_snow` and `sum_strikes` of the new accumulator
at 0. -/
theorem C22_fractional_flag_not_counted :
    ∃ (st : Registry) (a : climate_info),
      analyze_file ctimeSeconds emptyRegistry [halfLine] = .ok st ∧
      accFor "CA".toList st = some a ∧
      atof ((fields halfLine).getD 4 []) = 1 / 2 ∧ atof ((fields halfLine).getD 6 []) = 1 / 2 ∧
      a.sum_snow = 0 ∧ a.sum_strikes = 0 := by
  refine ⟨_, _, run_single ctimeSeconds ctimeSeconds_ok halfLine (by decide),
    accFor_dense_single _, ?_, ?_, ?_, ?_⟩
  · rw [atof_eq_of_parts _ false 5 1 0 (by decide)]
    norm_num
  · rw [atof_eq_of_parts _ false 5 1 0 (by decide)]
    norm_num
  · exact recordEffect_sum_snow_of_zero _ _ _ (by decide)
  · exact recordEffect_sum_strikes_of_zero _ _ _ (by decide)

/-- C22, amended.  When a well-formed line is processed after a run of `analyze_file` on
well-formed lines (at most `NUM_STATES` distinct codes and fewer than `2 ^ 64` lines in all),
`sum_snow` of its accumulator increases by 1 if `atol` of the snow field, its integer part, is
not zero and is unchanged otherwise, and likewise `sum_strikes` for the lightning field. -/
theorem C22_flags_counted_by_integer_part (ctime : Int → List Char) (hct : CtimeOk ctime)
    (lines : List (List Char)) (l : List Char) (hwf : ∀ x ∈ lines, WellFormed x)
    (hwfl : WellFormed l) (hcap : ((lines ++ [l]).map codeOf).toFinset.card ≤ NUM_STATES)
    (hlen : lines.length + 1 < 2 ^ 64) :
    ∃ (st st1 : Registry) (a1 : climate_info),
      analyze_file ctime emptyRegistry lines = .ok st ∧ processLine ctime st l = .ok st1 ∧
      accFor (codeOf l) st1 = some a1 ∧
      a1.sum_snow
        = (accBefore st l).sum_snow + (if atol ((fields l).getD 4 []) ≠ 0 then 1 else 0) ∧
      a1.sum_strikes
        = (accBefore st l).sum_strikes + (if atol ((fields l).getD 6 []) ≠ 0 then 1 else 0) := by
  obtain ⟨hrun, hstep, hacc, hbefore⟩ := processLine_after_run ctime hct lines l hwf hwfl hcap
  have h1 := accOf_sum_snow_le ctime (codeOf l) lines
  have h2 := accOf_sum_strikes_le ctime (codeOf l) lines
  rw [← hbefore] at h1 h2
  refine ⟨_, _, _, hrun, hstep, hacc, ?_, ?_⟩
  · show (if atol ((fields l).getD 4 []) ≠ 0 then _ else _) = _
    split
    · exact Nat.mod_eq_of_lt (by omega)
    · rfl
  · show (if atol ((fields l).getD 6 []) ≠ 0 then _ else _) = _
    split
    · exact Nat.mod_eq_of_lt (by omega)
    · rfl

/-- Witness of the amended C22: `halfLine` after `sampleLines`. -/
theorem C22_flags_counted_by_integer_part_witness :
    ∃ (st st1 : Registry) (a1 : climate_info),
      analyze_file ctimeSeconds emptyRegistry sampleLines = .ok st ∧
      processLine ctimeSeconds st halfLine = .ok st1 ∧
      accFor (codeOf halfLine) st1 = some a1 ∧
      a1.sum_snow = (accBefore st halfLine).sum_snow
        + (if atol ((fields halfLine).getD 4 []) ≠ 0 then 1 else 0) ∧
      a1.sum_strikes = (accBefore st halfLine).sum_strikes
        + (if atol ((fields halfLine).getD 6 []) ≠ 0 then 1 else 0) :=
  C22_flags_counted_by_integer_part ctimeSeconds ctimeSeconds_ok sampleLines halfLine
    (by decide) (by decide)
    (le_trans (card_codes_le_length (sampleLines ++ [halfLine])) (by decide)) (by decide)

/-- C23 as stated fails: on the empty registry the line `fractionLine`, whose humidity field
is `93.5` and whose cloud field is `99.5`, gives `sum_humidity = 93` and `sum_cloud = 99`. -/
theorem C23_fractional_percentage_truncated :
    ∃ (st : Registry) (a : climate_info),
      analyze_file ctimeSeconds emptyRegistry [fractionLine] = .ok st ∧
      accFor "CA".toList st = some a ∧
      atof ((fields fractionLine).getD 3 []) = 93.5 ∧
      atof ((fields fractionLine).getD 5 []) = 99.5 ∧
      a.sum_humidity = 93 ∧ a.sum_cloud = 99 := by
  refine ⟨_, _, run_single ctimeSeconds ctimeSeconds_ok fractionLine (by decide),
    accFor_dense_single _, ?_, ?_, ?_, ?_⟩
  · rw [atof_eq_of_parts _ false 935 1 0 (by decide)]
    norm_num
  · rw [atof_eq_of_parts _ false 995 1 0 (by decide)]
    norm_num
  · show wrapUL (0 + atol ((fields fractionLine).getD 3 [])) = 93
    decide
  · show wrapUL (0 + atol ((fields fractionLine).getD 5 [])) = 99
    decide

/-- C23, amended.  When a well-formed line is processed after a run of `analyze_file` on
well-formed lines (at most `NUM_STATES` distinct codes in all), `sum_humidity` of its
accumulator increases by `atol` of the humidity field, its integer part, and `sum_cloud` by
`atol` of the cloud field, both modulo `2 ^ 64`, and `sum_temp` increases by `KtoF` of the
Kelvin field.  The line of the worked example on the empty registry gives `num_records = 1`,
`sum_humidity = 93`, `sum_snow = 0`, `sum_cloud = 100`, `sum_strikes = 0` and
`sum_temp = 39.986888`. -/
theorem C23_sums_add_integer_parts (ctime : Int → List Char) (hct : CtimeOk ctime)
    (lines : List (List Char)) (l : List Char) (hwf : ∀ x ∈ lines, WellFormed x)
    (hwfl : WellFormed l) (hcap : ((lines ++ [l]).map codeOf).toFinset.card ≤ NUM_STATES) :
    (∃ (st st1 : Registry) (a1 : climate_info),
      analyze_file ctime emptyRegistry lines = .ok st ∧ processLine ctime st l = .ok st1 ∧
      accFor (codeOf l) st1 = some a1 ∧
      a1.sum_humidity = wrapUL ((accBefore st l).sum_humidity + atol ((fields l).getD 3 [])) ∧
      a1.sum_cloud = wrapUL ((accBefore st l).sum_cloud + atol ((fields l).getD 5 [])) ∧
      a1.sum_temp = (accBefore st l).sum_temp + KtoF (atof ((fields l).getD 8 []))) ∧
    ∃ (st0 : Registry) (a0 : climate_info),
      analyze_file ctime emptyRegistry [exampleLine] = .ok st0 ∧
      accFor "CA".toList st0 = some a0 ∧ a0.num_records = 1 ∧ a0.sum_humidity = 93 ∧
      a0.sum_snow = 0 ∧ a0.sum_cloud = 100 ∧ a0.sum_strikes = 0 ∧ a0.sum_temp = 39.986888 := by
  obtain ⟨hrun, hstep, hacc, -⟩ := processLine_after_run ctime hct lines l hwf hwfl hcap
  refine ⟨⟨_, _, _, hrun, hstep, hacc, rfl, rfl, rfl⟩, _, _,
    run_single ctime hct exampleLine (by decide), accFor_dense_single _, ?_, ?_, ?_, ?_, ?_, ?_⟩
  · show (0 + 1) % 2 ^ 64 = 1
    decide
  · show wrapUL (0 + atol ((fields exampleLine).getD 3 [])) = 93
    decide
  · exact recordEffect_sum_snow_of_zero _ _ _ (by decide)
  · show wrapUL (0 + atol ((fields exampleLine).getD 5 [])) = 100
    decide
  · exact recordEffect_sum_strikes_of_zero _ _ _ (by decide)
  · show (0 : ℚ) + KtoF (atof ((fields exampleLine).getD 8 [])) = 39.986888
    rw [atof_eq_of_parts _ false 27758716 5 0 (by decide)]
    norm_num [KtoF]

/-- Witness of the amended C23: `fractionLine` after `sampleLines`. -/
theorem C23_sums_add_integer_parts_witness :
    (∃ (st st1 : Registry) (a1 : climate_info),
      analyze_file ctimeSeconds emptyRegistry sampleLines = .ok st ∧
      processLine ctimeSeconds st fractionLine = .ok st1 ∧
      accFor (codeOf fractionLine) st1 = some a1 ∧
      a1.sum_humidity = wrapUL ((accBefore st fractionLine).sum_humidity
        + atol ((fields fractionLine).getD 3 [])) ∧
      a1.sum_cloud = wrapUL ((accBefore st fractionLine).sum_cloud
        + atol ((fields fractionLine).getD 5 [])) ∧
      a1.sum_temp = (accBefore st fractionLine).sum_temp
        + KtoF (atof ((fields fractionLine).getD 8 []))) ∧
    ∃ (st0 : Registry) (a0 : climate_info),
      analyze_file ctimeSeconds emptyRegistry [exampleLine] = .ok st0 ∧
      accFor "CA".toList st0 = some a0 ∧ a0.num_records = 1 ∧ a0.sum_humidity = 93 ∧
      a0.sum_snow = 0 ∧ a0.sum_cloud = 100 ∧ a0.sum_strikes = 0 ∧ a0.sum_temp = 39.986888 :=
  C23_sums_add_integer_parts ctimeSeconds ctimeSeconds_ok sampleLines fractionLine
    (by decide) (by decide)
    (le_trans (card_codes_le_length (sampleLines ++ [fractionLine])) (by decide))

/-- C24. The block of an accumulator has the line `Lightning Strikes: ` followed by the
conversion of `sum_strikes` and the line `Records with Snow Cover: ` followed by the conversion
of `sum_snow`, but the conversion is `%.lu`, of precision zero, which gives no digit for the
value 0: after the line of the worked example the report shows both lines with nothing after
the colon and the blank, where the decimal representation of 0 is the digit `0`. -/
theorem C24_zero_counts_print_no_digit (fmtF : Option ℚ → List Char) :
    (∀ a : climate_info,
      (reportBlock fmtF a)[8]? = some ("Lightning Strikes: ".toList ++ fmt_dot_lu a.sum_strikes) ∧
      (reportBlock fmtF a)[9]?
        = some ("Records with Snow Cover: ".toList ++ fmt_dot_lu a.sum_snow)) ∧
    (∃ (st : Registry) (out : List (List Char)),
      analyze_file ctimeSeconds emptyRegistry [exampleLine] = .ok st ∧
      print_report fmtF st = .ok out ∧
      out[9]? = some "Lightning Strikes: ".toList ∧
      out[10]? = some "Records with Snow Cover: ".toList) ∧
    fmt_dot_lu 0 = [] ∧ (Nat.repr 0).toList = ['0'] ∧ fmt_ld 0 = ['0'] := by
  refine ⟨fun a => ⟨rfl, rfl⟩, ⟨_, _, run_single ctimeSeconds ctimeSeconds_ok exampleLine
    (by decide), print_report_dense fmtF _, ?_, ?_⟩, rfl, by decide, by decide⟩
  · show some ("Lightning Strikes: ".toList
      ++ fmt_dot_lu (recordEffect ctimeSeconds (newInfo (codeOf exampleLine))
          (fields exampleLine)).sum_strikes) = _
    rw [recordEffect_sum_strikes_of_zero _ _ _ (by decide)]
    rfl
  · show some ("Records with Snow Cover: ".toList
      ++ fmt_dot_lu (recordEffect ctimeSeconds (newInfo (codeOf exampleLine))
          (fields exampleLine)).sum_snow) = _
    rw [recordEffect_sum_snow_of_zero _ _ _ (by decide)]
    rfl

theorem fiftyLines_wellFormed : ∀ l ∈ fiftyLines, WellFormed l := by decide

theorem fiftyLines_codes : (firstSeen (fiftyLines.map codeOf)).length = 50 := by decide

/-- C26. After `analyze_file` has processed well-formed lines with at most `NUM_STATES`
distinct codes from the empty registry, the slot selected for one more well-formed line has an
index from 0 to 49 exactly when the code of the line is registered or fewer than 50 codes are
registered, and the line is then processed; otherwise `found_index` stays -1 and the update
addresses a slot outside the registry. -/
theorem C26_slot_index_valid_iff_registered_or_room (ctime : Int → List Char)
    (hct : CtimeOk ctime) (lines : List (List Char)) (l : List Char)
    (hwf : ∀ x ∈ lines, WellFormed x) (hwfl : WellFormed l)
    (hcap : (lines.map codeOf).toFinset.card ≤ NUM_STATES) :
    ∃ (st st1 : Registry) (found_index : Int),
      analyze_file ctime emptyRegistry lines = .ok st ∧
      selectSlot st (fields l)[0]? = .ok (st1, found_index) ∧
      ((0 ≤ found_index ∧ found_index < 50) ↔
        (codeOf l ∈ codesOf st ∨ (codesOf st).length < 50)) ∧
      ((0 ≤ found_index ∧ found_index < 50) → ∃ st2, processLine ctime st l = .ok st2) ∧
      (¬ (codeOf l ∈ codesOf st ∨ (codesOf st).length < 50) →
        found_index = -1 ∧ st1 = st ∧ processLine ctime st l = .error .outOfBounds) := by
  have hrun := analyze_file_eq ctime hct lines hwf hcap
  have hcodes : codesOf (dense (accsOf ctime lines)) = firstSeen (lines.map codeOf) := by
    rw [codesOf_dense, accsOf_codes]
  have hlen := length_accsOf ctime lines
  have hcard := length_firstSeen (lines.map codeOf)
  have hle : (firstSeen (lines.map codeOf)).length ≤ 50 := by
    rw [hcard]
    exact hcap
  by_cases h : codeOf l ∈ lines.map codeOf
  · have hmem : codeOf l ∈ firstSeen (lines.map codeOf) := (mem_firstSeen _ _).mpr h
    have hidx := indexIn_lt (codeOf l) (firstSeen (lines.map codeOf)) hmem
    have hstep := processLine_dense ctime hct lines l hwfl (by
      rw [List.map_append, List.map_cons, List.map_nil, firstSeen_snoc, if_pos h]
      exact hle)
    refine ⟨_, _, _, hrun, selectSlot_dense_found ctime lines l hwfl h, ?_, ?_, ?_⟩
    · rw [hcodes]
      constructor
      · intro _
        exact Or.inl hmem
      · intro _
        constructor <;> omega
    · intro _
      exact ⟨_, hstep⟩
    · rw [hcodes]
      intro hn
      exact absurd (Or.inl hmem) hn
  · have hnot : codeOf l ∉ firstSeen (lines.map codeOf) := fun hm => h ((mem_firstSeen _ _).mp hm)
    by_cases hlt : (accsOf ctime lines).length < NUM_STATES
    · have hlt2 : (accsOf ctime lines).length < 50 := hlt
      have hstep := processLine_dense ctime hct lines l hwfl (by
        rw [List.map_append, List.map_cons, List.map_nil, firstSeen_snoc, if_neg h,
          List.length_append, List.length_singleton, ← hlen]
        exact hlt)
      refine ⟨_, _, _, hrun, selectSlot_dense_new ctime lines l hwfl h hlt, ?_, ?_, ?_⟩
      · rw [hcodes]
        constructor
        · intro _
          right
          omega
        · intro _
          constructor <;> omega
      · intro _
        exact ⟨_, hstep⟩
      · rw [hcodes]
        intro hn
        exact absurd (Or.inr (by omega)) hn
    · have hfull : (accsOf ctime lines).length = NUM_STATES := by
        have h50 : ¬ (accsOf ctime lines).length < 50 := hlt
        show _ = 50
        omega
      refine ⟨_, _, _, hrun, selectSlot_dense_full ctime lines l hwfl h hfull, ?_, ?_, ?_⟩
      · rw [hcodes]
        have h50 : (accsOf ctime lines).length = 50 := hfull
        constructor
        · intro hk
          omega
        · rintro (hm | hl)
          · exact absurd hm hnot
          · omega
      · intro hk
        omega
      · intro _
        exact ⟨rfl, rfl, processLine_dense_full ctime lines l hwfl h hfull⟩

/-- Witness of C26: the fifty-first code, `BY`, after fifty lines of fifty distinct codes. -/
theorem C26_slot_index_valid_iff_registered_or_room_witness :
    ∃ (st st1 : Registry) (found_index : Int),
      analyze_file ctimeSeconds emptyRegistry fiftyLines = .ok st ∧
      selectSlot st (fields (codeLine 50))[0]? = .ok (st1, found_index) ∧
      ((0 ≤ found_index ∧ found_index < 50) ↔
        (codeOf (codeLine 50) ∈ codesOf st ∨ (codesOf st).length < 50)) ∧
      ((0 ≤ found_index ∧ found_index < 50) →
        ∃ st2, processLine ctimeSeconds st (codeLine 50) = .ok st2) ∧
      (¬ (codeOf (codeLine 50) ∈ codesOf st ∨ (codesOf st).length < 50) →
        found_index = -1 ∧ st1 = st ∧
          processLine ctimeSeconds st (codeLine 50) = .error .outOfBounds) :=
  C26_slot_index_valid_iff_registered_or_room ctimeSeconds ctimeSeconds_ok fiftyLines
    (codeLine 50) fiftyLines_wellFormed (by decide)
    (le_trans (card_codes_le_length fiftyLines) (by decide))

/-- The loop body of `analyze_file` is the choice of the slot followed by the update at
`(*states + found_index)`. -/
theorem processLine_selectSlot (ctime : Int → List Char) (states : Registry) (l : List Char) :
    processLine ctime states l
      = (selectSlot states (fields l)[0]?).bind (fun r =>
          if r.2 < 0 then .error .outOfBounds
          else
            match r.1[r.2.toNat]? with
            | some (some a) => (updateInfo ctime a (fields l)).bind (fun a1 =>
                .ok (r.1.set r.2.toNat (some a1)))
            | _ => .error .outOfBounds) := by
  unfold processLine selectSlot fields
  rcases hfl : findLoop (blockAllocated states) (strtokAll [' ', '\t', '\n'] l)[0]? states 0
    with e | found
  · simp only [hfl, bind, Except.bind]
  · by_cases hf : found < 0
    · simp only [hfl, bind, Except.bind, hf, if_true]
      cases createLoop (strtokAll [' ', '\t', '\n'] l)[0]? states 0 <;> rfl
    · simp only [hfl, bind, Except.bind, hf, if_false]
      rfl

/-- With fifty codes registered, a line of a fifty-first code is a fault of `analyze_file`. -/
theorem fiftyLines_overflow :
    analyze_file ctimeSeconds emptyRegistry (fiftyLines ++ [codeLine 50])
      = .error .outOfBounds := by
  have hrun := analyze_file_eq ctimeSeconds ctimeSeconds_ok fiftyLines fiftyLines_wellFormed
    (le_trans (card_codes_le_length fiftyLines) (by decide))
  have hfull : (accsOf ctimeSeconds fiftyLines).length = NUM_STATES := by
    rw [length_accsOf]
    exact fiftyLines_codes
  have hstep := processLine_dense_full ctimeSeconds fiftyLines (codeLine 50) (by decide)
    (by decide) hfull
  rw [analyze_file_append, hrun]
  exact hstep

end Climate

namespace Project4

/-! ## Linked segments -/

theorem nextPtr_append (a b : List Cell) (nxt : Option Nat) :
    nextPtr (a ++ b) nxt = nextPtr a (nextPtr b nxt) := by
  cases a <;> rfl

theorem lastPtr_append (a b : List Cell) (prev : Option Nat) :
    lastPtr (a ++ b) prev = lastPtr b (lastPtr a prev) := by
  induction a generalizing prev with
  | nil => rfl
  | cons c r ih => exact ih (some c.1)

theorem seg_append (nodes : List list_node_s) (a b : List Cell) (prev nxt : Option Nat) :
    Seg nodes prev (a ++ b) nxt
      ↔ Seg nodes prev a (nextPtr b nxt) ∧ Seg nodes (lastPtr a prev) b nxt := by
  induction a generalizing prev with
  | nil => simp [Seg, lastPtr]
  | cons c r ih =>
    show Seg nodes prev (c :: (r ++ b)) nxt ↔ _
    simp only [Seg, lastPtr]
    rw [ih, nextPtr_append, and_assoc]

theorem seg_lt (nodes : List list_node_s) (cells : List Cell) (prev nxt : Option Nat)
    (h : Seg nodes prev cells nxt) : ∀ c ∈ cells, c.1 < nodes.length := by
  induction cells generalizing prev with
  | nil => intro c hc; cases hc
  | cons x r ih =>
    intro c hc
    rcases List.mem_cons.mp hc with rfl | hc
    · by_contra hge
      have h1 := h.1
      rw [List.getElem?_eq_none (by omega)] at h1
      cases h1
    · exact ih _ h.2 c hc

theorem seg_set_frame (nodes : List list_node_s) (cells : List Cell) (prev nxt : Option Nat)
    (q : Nat) (v : list_node_s) (hq : ∀ c ∈ cells, c.1 ≠ q) (h : Seg nodes prev cells nxt) :
    Seg (nodes.set q v) prev cells nxt := by
  induction cells generalizing prev with
  | nil => trivial
  | cons x r ih =>
    refine ⟨?_, ih _ (fun c hc => hq c (List.mem_cons_of_mem _ hc)) h.2⟩
    rw [List.getElem?_set_ne (fun e => hq x (List.mem_cons_self _ _) e.symm)]
    exact h.1

theorem seg_append_frame (nodes : List list_node_s) (cells : List Cell) (prev nxt : Option Nat)
    (v : list_node_s) (h : Seg nodes prev cells nxt) : Seg (nodes ++ [v]) prev cells nxt := by
  induction cells generalizing prev with
  | nil => trivial
  | cons x r ih =>
    refine ⟨?_, ih _ h.2⟩
    have hlt := seg_lt nodes (x :: r) prev nxt h x (List.mem_cons_self _ _)
    rw [List.getElem?_append_left hlt]
    exact h.1

theorem seg_getElem (nodes : List list_node_s) (a b : List Cell) (c : Cell)
    (prev nxt : Option Nat) (h : Seg nodes prev (a ++ c :: b) nxt) :
    nodes[c.1]? = some { data := c.2, prev_p := lastPtr a prev, next_p := nextPtr b nxt } :=
  ((seg_append nodes a (c :: b) prev nxt).mp h).2.1

theorem length_le_of_nodup_lt (l : List Nat) (n : Nat) (hnd : l.Nodup) (h : ∀ x ∈ l, x < n) :
    l.length ≤ n := by
  have hsub : l.toFinset ⊆ Finset.range n := by
    intro x hx
    exact Finset.mem_range.mpr (h x (List.mem_toFinset.mp hx))
  have := Finset.card_le_card hsub
  rwa [List.toFinset_card_of_nodup hnd, Finset.card_range] at this

theorem WellFormedList.length_le {m : Memory} {list : list_s} {cells : List Cell}
    (h : WellFormedList m list cells) : cells.length ≤ m.nodes.length := by
  have := length_le_of_nodup_lt (cells.map Prod.fst) m.nodes.length h.nodup (by
    intro x hx
    obtain ⟨c, hc, rfl⟩ := List.mem_map.mp hx
    exact seg_lt _ _ _ _ h.seg c hc)
  simpa using this

/-! ## Traversals -/

theorem load_some (m : Memory) (a : Nat) (n : list_node_s) (h : m.nodes[a]? = some n) :
    load m (some a) = .ok n := by
  simp [load, h]

theorem memberLoop_spec (m : Memory) (cells : List Cell) (prev : Option Nat) (s : List Char)
    (fuel : Nat) (h : Seg m.nodes prev cells none) (hf : cells.length < fuel) :
    memberLoop fuel m (nextPtr cells none) s
      = .ok (if s ∈ elements cells then 1 else 0) := by
  induction cells generalizing prev fuel with
  | nil =>
    cases fuel with
    | zero => simp at hf
    | succ k => simp [memberLoop, nextPtr, elements]
  | cons c r ih =>
    cases fuel with
    | zero => simp at hf
    | succ k =>
      have hr := ih (some c.1) k h.2 (by simpa using hf)
      show memberLoop (k + 1) m (some c.1) s = _
      simp only [memberLoop, load_some m c.1 _ h.1, bind, Except.bind, pure, Except.pure]
      by_cases hc : c.2 = s
      · simp [hc, (Climate.strcmp_eq_zero_iff s s).mpr rfl, elements]
      · have hne : Climate.strcmp c.2 s ≠ 0 := fun e => hc ((Climate.strcmp_eq_zero_iff _ _).mp e)
        have hc2 : ¬ s = c.2 := fun e => hc e.symm
        simp only [hne, if_false, hr, elements, List.map_cons, List.mem_cons, hc2, false_or]

theorem printLoop_spec (m : Memory) (cells : List Cell) (prev : Option Nat)
    (fuel : Nat) (h : Seg m.nodes prev cells none) (hf : cells.length < fuel) :
    printLoop fuel m (nextPtr cells none)
      = .ok ((elements cells).flatMap (fun d => d ++ [' '])) := by
  induction cells generalizing prev fuel with
  | nil =>
    cases fuel with
    | zero => simp at hf
    | succ k => simp [printLoop, nextPtr, elements]
  | cons c r ih =>
    cases fuel with
    | zero => simp at hf
    | succ k =>
      have hr := ih (some c.1) k h.2 (by simpa using hf)
      show printLoop (k + 1) m (some c.1) = _
      simp only [printLoop, load_some m c.1 _ h.1, bind, Except.bind, pure, Except.pure, hr]
      simp [elements]

theorem Member_spec (m : Memory) (list : list_s) (cells : List Cell) (s : List Char)
    (h : WellFormedList m list cells) :
    Member m list s = .ok (if s ∈ elements cells then 1 else 0) := by
  unfold Member
  rw [h.head]
  exact memberLoop_spec m cells none s _ h.seg (Nat.lt_succ_of_le h.length_le)

theorem Print_spec (m : Memory) (list : list_s) (cells : List Cell)
    (h : WellFormedList m list cells) :
    Print m list
      = .ok ("list = ".toList ++ (elements cells).flatMap (fun d => d ++ [' ']) ++ ['\n']) := by
  unfold Print
  rw [h.head, printLoop_spec m cells none _ h.seg (Nat.lt_succ_of_le h.length_le)]
  rfl

/-! ## Insert -/

theorem modify_some (m : Memory) (a : Nat) (n : list_node_s) (f : list_node_s → list_node_s)
    (h : m.nodes[a]? = some n) :
    modify m (some a) f = .ok { m with nodes := m.nodes.set a (f n) } := by
  simp [modify, h]

theorem advance_append (s : List Char) (cells : List Cell) :
    (advance s cells).1 ++ (advance s cells).2 = cells := by
  induction cells with
  | nil => rfl
  | cons c r ih =>
    cases r with
    | nil => rfl
    | cons c2 r2 =>
      by_cases h : Climate.strcmp s c.2 ≥ 0
      · simp only [advance, if_pos h, List.cons_append, ih]
      · simp only [advance, if_neg h, List.nil_append]

theorem advance_snd_ne_nil (s : List Char) (cells : List Cell) (hne : cells ≠ []) :
    (advance s cells).2 ≠ [] := by
  induction cells with
  | nil => exact absurd rfl hne
  | cons c r ih =>
    cases r with
    | nil => simp [advance]
    | cons c2 r2 =>
      by_cases h : Climate.strcmp s c.2 ≥ 0
      · simp only [advance, if_pos h]
        exact ih (List.cons_ne_nil _ _)
      · simp [advance, if_neg h]

theorem advance_passed (s : List Char) (cells : List Cell) :
    ∀ c ∈ (advance s cells).1, Climate.strcmp s c.2 ≥ 0 := by
  induction cells with
  | nil => intro c hc; cases hc
  | cons c r ih =>
    cases r with
    | nil => intro x hx; cases hx
    | cons c2 r2 =>
      by_cases h : Climate.strcmp s c.2 ≥ 0
      · simp only [advance, if_pos h]
        intro x hx
        rcases List.mem_cons.mp hx with rfl | hx
        · exact h
        · exact ih x hx
      · simp only [advance, if_neg h]
        intro x hx; cases hx

theorem advance_stop (s : List Char) (cells : List Cell) (q : Cell) (post : List Cell)
    (h : (advance s cells).2 = q :: post) : post = [] ∨ Climate.strcmp s q.2 < 0 := by
  induction cells with
  | nil => simp [advance] at h
  | cons c r ih =>
    cases r with
    | nil =>
      simp only [advance, List.cons.injEq] at h
      exact Or.inl h.2.symm
    | cons c2 r2 =>
      by_cases hc : Climate.strcmp s c.2 ≥ 0
      · simp only [advance, if_pos hc] at h
        exact ih h
      · simp only [advance, if_neg hc, List.cons.injEq] at h
        right
        rw [← h.1]
        omega

theorem insertLoop_spec (m : Memory) (cells : List Cell) (prev : Option Nat) (s : List Char)
    (new : Nat) (nw : list_node_s) (fuel : Nat) (h : Seg m.nodes prev cells none)
    (hne : cells ≠ []) (hnew : m.nodes[new]? = some nw) (hdata : nw.data = s)
    (hf : cells.length ≤ fuel) :
    insertLoop fuel m (some new) (nextPtr cells none)
      = .ok (nextPtr (advance s cells).2 none) := by
  induction cells generalizing prev fuel with
  | nil => exact absurd rfl hne
  | cons c r ih =>
    cases fuel with
    | zero => simp at hf
    | succ k =>
      show insertLoop (k + 1) m (some new) (some c.1) = _
      cases r with
      | nil =>
        simp only [insertLoop, load_some m c.1 _ h.1, bind, Except.bind, pure, Except.pure]
        simp [nextPtr, advance]
      | cons c2 r2 =>
        have hr := ih (some c.1) k h.2 (List.cons_ne_nil _ _) (by simpa using hf)
        simp only [insertLoop, load_some m c.1 _ h.1, load_some m new _ hnew, bind, Except.bind,
          pure, Except.pure, hdata]
        have hn : nextPtr (c2 :: r2) none ≠ none := by simp [nextPtr]
        simp only [hn, ne_eq, not_false_eq_true, if_true]
        by_cases hc : Climate.strcmp s c.2 ≥ 0
        · simp only [hc, if_true, advance]
          exact hr
        · simp only [hc, if_false, advance]
          rfl

theorem lastPtr_cons_ne_none (c : Cell) (r : List Cell) (prev : Option Nat) :
    lastPtr (c :: r) prev ≠ none := by
  induction r generalizing c prev with
  | nil => simp [lastPtr]
  | cons d r ih => exact ih d (some c.1)

theorem lastPtr_eq_none (pre : List Cell) (h : lastPtr pre none = none) : pre = [] := by
  cases pre with
  | nil => rfl
  | cons c r => exact absurd h (lastPtr_cons_ne_none c r none)

theorem nextPtr_eq_none (post : List Cell) (h : nextPtr post none = none) : post = [] := by
  cases post with
  | nil => rfl
  | cons c r => simp [nextPtr] at h

theorem linkNode_spec (m1 : Memory) (list : list_s) (pre post : List Cell) (q : Cell) (N : Nat)
    (s : List Char) (hseg : Seg m1.nodes none (pre ++ q :: post) none)
    (hnd : ((pre ++ q :: post).map Prod.fst).Nodup)
    (hN : m1.nodes[N]? = some { data := s, prev_p := none, next_p := none })
    (hfresh : ∀ c ∈ pre ++ q :: post, c.1 ≠ N)
    (hh : list.h_p = nextPtr (pre ++ q :: post) none)
    (ht : list.t_p = lastPtr (pre ++ q :: post) none)
    (hstop : pre = [] → post ≠ [] → Climate.strcmp s q.2 ≤ 0) :
    ∃ m2 list2, linkNode m1 list (some N) (some q.1) = .ok (m2, list2) ∧
      m2.freed = m1.freed ∧ m2.nodes.length = m1.nodes.length ∧
      Seg m2.nodes none
        (if post = [] ∧ Climate.strcmp s q.2 > 0 then pre ++ [q, (N, s)]
          else pre ++ (N, s) :: q :: post) none ∧
      list2.h_p = nextPtr
        (if post = [] ∧ Climate.strcmp s q.2 > 0 then pre ++ [q, (N, s)]
          else pre ++ (N, s) :: q :: post) none ∧
      list2.t_p = lastPtr
        (if post = [] ∧ Climate.strcmp s q.2 > 0 then pre ++ [q, (N, s)]
          else pre ++ (N, s) :: q :: post) none := by
  have hq := seg_getElem _ _ _ _ _ _ hseg
  obtain ⟨hsegpre, -, hsegpost⟩ := (seg_append _ _ _ _ _).mp hseg
  have hNlt : N < m1.nodes.length := by
    by_contra hge
    rw [List.getElem?_eq_none (by omega)] at hN
    cases hN
  have hqlt : q.1 < m1.nodes.length := seg_lt _ _ _ _ hseg q (by simp)
  have hqN : q.1 ≠ N := hfresh q (by simp)
  rw [List.map_append, List.map_cons, List.nodup_append] at hnd
  obtain ⟨hndpre, hndq, hdisj⟩ := hnd
  rw [List.nodup_cons] at hndq
  have hqpre : ∀ c ∈ pre, c.1 ≠ q.1 := by
    intro c hc e
    exact hdisj (List.mem_map.mpr ⟨c, hc, rfl⟩) (by simp [e])
  have hqpost : ∀ c ∈ post, c.1 ≠ q.1 := by
    intro c hc e
    exact hndq.1 (List.mem_map.mpr ⟨c, hc, e⟩)
  have hNpre : ∀ c ∈ pre, c.1 ≠ N := fun c hc => hfresh c (by simp [hc])
  have hNpost : ∀ c ∈ post, c.1 ≠ N := fun c hc => hfresh c (by simp [hc])
  unfold linkNode
  simp only [load_some m1 _ _ hq, load_some m1 _ _ hN, bind, Except.bind, pure, Except.pure]
  by_cases hA : lastPtr pre none = none ∧ Climate.strcmp s q.2 ≤ 0
  · -- the new node becomes the head
    have hpre : pre = [] := lastPtr_eq_none pre hA.1
    subst hpre
    have hnotB : ¬ (post = [] ∧ Climate.strcmp s q.2 > 0) := fun h => by omega
    simp only [hA, and_self, if_true, hnotB, if_false, List.nil_append]
    rw [modify_some m1 q.1 _ _ hq]
    simp only
    rw [modify_some _ N { data := s, prev_p := none, next_p := none } _
      (by simp only; rw [List.getElem?_set_ne hqN]; exact hN)]
    simp only
    have hq3 : ((m1.nodes.set q.1 { data := q.2, prev_p := some N, next_p := nextPtr post none }).set
        N { data := s, prev_p := none, next_p := some q.1 })[q.1]?
        = some { data := q.2, prev_p := some N, next_p := nextPtr post none } := by
      rw [List.getElem?_set_ne (fun e => hqN e.symm), List.getElem?_set_self hqlt]
    have hsegnew : Seg ((m1.nodes.set q.1
        { data := q.2, prev_p := some N, next_p := nextPtr post none }).set
        N { data := s, prev_p := none, next_p := some q.1 }) none ((N, s) :: q :: post) none := by
      refine ⟨?_, hq3, ?_⟩
      · rw [List.getElem?_set_self (by simpa using hNlt)]
        rfl
      · exact seg_set_frame _ _ _ _ _ _ hNpost (seg_set_frame _ _ _ _ _ _ hqpost hsegpost)
    rw [load_some _ q.1 _ hq3]
    by_cases hp : nextPtr post none = none
    · have hp2 : post = [] := nextPtr_eq_none post hp
      subst hp2
      simp only [hp, if_true]
      exact ⟨_, _, rfl, rfl, by simp, hsegnew, rfl, rfl⟩
    · simp only [hp, if_false]
      refine ⟨_, _, rfl, rfl, by simp, hsegnew, rfl, ?_⟩
      simp only [ht, List.nil_append, lastPtr]
  · by_cases hB : post = [] ∧ Climate.strcmp s q.2 > 0
    · -- the new node becomes the tail
      obtain ⟨hpost, hgt⟩ := hB
      subst hpost
      have hB2 : nextPtr [] none = none ∧ Climate.strcmp s q.2 > 0 := ⟨rfl, hgt⟩
      simp only [hA, if_false, hB2, and_self, if_true, true_and, hgt]
      rw [modify_some m1 q.1 _ _ hq]
      simp only
      rw [modify_some _ N { data := s, prev_p := none, next_p := none } _
        (by simp only; rw [List.getElem?_set_ne hqN]; exact hN)]
      refine ⟨_, _, rfl, rfl, by simp, ?_, ?_, ?_⟩
      · rw [seg_append]
        refine ⟨?_, ?_, ?_, trivial⟩
        · exact seg_set_frame _ _ _ _ _ _ hNpre (seg_set_frame _ _ _ _ _ _ hqpre hsegpre)
        · simp only
          rw [List.getElem?_set_ne (fun e => hqN e.symm), List.getElem?_set_self hqlt]
          rfl
        · simp only
          rw [List.getElem?_set_self (by simpa using hNlt)]
          rfl
      · simp only [hh, nextPtr_append]
        rfl
      · simp only [lastPtr_append, lastPtr]
    · -- the new node goes between two nodes
      have hnotA : ¬ (lastPtr pre none = none ∧ Climate.strcmp s q.2 ≤ 0) := hA
      have hnotB : ¬ (nextPtr post none = none ∧ Climate.strcmp s q.2 > 0) := by
        rintro ⟨h1, h2⟩
        exact hB ⟨nextPtr_eq_none post h1, h2⟩
      have hpne : pre ≠ [] := by
        intro hp
        subst hp
        by_cases hpost : post = []
        · subst hpost
          by_cases hle : Climate.strcmp s q.2 ≤ 0
          · exact hA ⟨rfl, hle⟩
          · exact hB ⟨rfl, by omega⟩
        · exact hA ⟨rfl, hstop rfl hpost⟩
      obtain ⟨pre1, t, rfl⟩ : ∃ pre1 t, pre = pre1 ++ [t] :=
        ⟨pre.dropLast, pre.getLast hpne, (List.dropLast_append_getLast hpne).symm⟩
      have hlast : lastPtr (pre1 ++ [t]) none = some t.1 := by
        rw [lastPtr_append]; rfl
      rw [hlast] at hq
      have htnode := seg_getElem _ _ _ _ _ _ hsegpre
      simp only [nextPtr] at htnode
      have htq : t.1 ≠ q.1 := hqpre t (by simp)
      have htN : t.1 ≠ N := hNpre t (by simp)
      have htlt : t.1 < m1.nodes.length := seg_lt _ _ _ _ hsegpre t (by simp)
      obtain ⟨hsegpre1, -⟩ := (seg_append _ _ _ _ _).mp hsegpre
      rw [List.map_append, List.nodup_append] at hndpre
      have htpre1 : ∀ c ∈ pre1, c.1 ≠ t.1 := by
        intro c hc e
        exact hndpre.2.2 (List.mem_map.mpr ⟨c, hc, rfl⟩) (by simp [e])
      simp only [hlast, hnotB, if_false, hB]
      have hA2 : ¬ (some t.1 = none ∧ Climate.strcmp s q.2 ≤ 0) := by simp
      simp only [hA2, if_false]
      rw [modify_some m1 q.1 _ _ hq]
      simp only
      rw [modify_some _ t.1 { data := t.2, prev_p := lastPtr pre1 none, next_p := some q.1 } _
        (by simp only; rw [List.getElem?_set_ne (fun e => htq e.symm)]; exact htnode)]
      simp only
      rw [modify_some _ N { data := s, prev_p := none, next_p := none } _
        (by
          simp only
          rw [List.getElem?_set_ne htN, List.getElem?_set_ne hqN]; exact hN)]
      simp only
      rw [modify_some _ N { data := s, prev_p := some t.1, next_p := none } _
        (by simp only; rw [List.getElem?_set_self (by simpa using hNlt)])]
      refine ⟨_, _, rfl, rfl, by simp, ?_, ?_, ?_⟩
      · rw [List.append_assoc, seg_append]
        refine ⟨?_, ?_, ?_, ?_, ?_⟩
        · exact seg_set_frame _ _ _ _ _ _ (fun c hc => hNpre c (by simp [hc]))
            (seg_set_frame _ _ _ _ _ _ (fun c hc => hNpre c (by simp [hc]))
              (seg_set_frame _ _ _ _ _ _ htpre1
                (seg_set_frame _ _ _ _ _ _ (fun c hc => hqpre c (by simp [hc])) hsegpre1)))
        · simp only
          rw [List.getElem?_set_ne (fun e => htN e.symm), List.getElem?_set_ne (fun e => htN e.symm),
            List.getElem?_set_self (by simpa using htlt)]
          rfl
        · simp only
          rw [List.getElem?_set_self (by simpa using hNlt)]
          simp [lastPtr_append, lastPtr, nextPtr]
        · simp only
          rw [List.getElem?_set_ne (fun e => hqN e.symm), List.getElem?_set_ne (fun e => hqN e.symm),
            List.getElem?_set_ne htq, List.getElem?_set_self hqlt]
        · exact seg_set_frame _ _ _ _ _ _ hNpost (seg_set_frame _ _ _ _ _ _ hNpost
            (seg_set_frame _ _ _ _ _ _ (fun c hc e => by
                have := hdisj (List.mem_map.mpr ⟨t, by simp, rfl⟩)
                  (List.mem_cons_of_mem _ (List.mem_map.mpr ⟨c, hc, e⟩))
                exact this)
              (seg_set_frame _ _ _ _ _ _ hqpost hsegpost)))
      · simp only [hh, nextPtr_append]
        cases pre1 <;> rfl
      · simp only [ht, lastPtr_append, lastPtr]

theorem insertCells_eq (nw : Cell) (cells pre post : List Cell) (q : Cell)
    (h : advance nw.2 cells = (pre, q :: post)) :
    insertCells nw cells
      = if post = [] ∧ Climate.strcmp nw.2 q.2 > 0 then pre ++ [q, nw]
        else pre ++ nw :: q :: post := by
  unfold insertCells
  rw [h]

theorem insertCells_perm (nw : Cell) (cells : List Cell) :
    (insertCells nw cells).Perm (nw :: cells) := by
  cases hc : cells with
  | nil => simp [insertCells, advance]
  | cons c r =>
    rw [← hc]
    have happ := advance_append nw.2 cells
    have hne := advance_snd_ne_nil nw.2 cells (by rw [hc]; exact List.cons_ne_nil _ _)
    cases h2 : (advance nw.2 cells).2 with
    | nil => exact absurd h2 hne
    | cons q post =>
      rw [insertCells_eq nw cells (advance nw.2 cells).1 post q (by rw [← h2])]
      rw [h2] at happ
      generalize (advance nw.2 cells).1 = pre at happ ⊢
      rw [← happ]
      split
      · rename_i hB
        rw [hB.1]
        have e : pre ++ [q, nw] = (pre ++ [q]) ++ [nw] := by simp
        rw [e]
        exact List.perm_append_singleton _ _
      · exact List.perm_middle

theorem Insert_malloc_null (malloc : Nat → Option (List Char)) (m : Memory) (list : list_s)
    (s : List Char) (hm : malloc m.nodes.length = none) :
    Insert malloc m list s = .error .nullDeref := by
  unfold Insert
  simp only [Allocate_node, hm]
  rfl

theorem Insert_spec (malloc : Nat → Option (List Char)) (m : Memory) (list : list_s)
    (cells : List Cell) (s junk : List Char) (h : WellFormedList m list cells)
    (hm : malloc m.nodes.length = some junk) :
    ∃ m2 list2, Insert malloc m list s = .ok (m2, list2) ∧
      WellFormedList m2 list2 (insertCells (m.nodes.length, junk ++ s) cells) ∧
      m2.freed = m.freed ∧ m2.nodes.length = m.nodes.length + 1 := by
  have hnew0 : (m.nodes ++ [({ data := junk, prev_p := none, next_p := none } : list_node_s)])[
      m.nodes.length]? = some { data := junk, prev_p := none, next_p := none } :=
    List.getElem?_concat_length _ _
  have hnodes1 : (m.nodes ++ [({ data := junk, prev_p := none, next_p := none } : list_node_s)]).set
      m.nodes.length { data := junk ++ s, prev_p := none, next_p := none }
      = m.nodes ++ [{ data := junk ++ s, prev_p := none, next_p := none }] := by simp
  unfold Insert
  simp only [Allocate_node, hm]
  rw [modify_some _ m.nodes.length _ _ hnew0]
  simp only [hnodes1, bind, Except.bind, pure, Except.pure]
  generalize junk ++ s = t
  have hfreshAll : ∀ c ∈ cells, c.1 ≠ m.nodes.length := fun c hc =>
    Nat.ne_of_lt (seg_lt _ _ _ _ h.seg c hc)
  have hnodup2 : ((insertCells (m.nodes.length, t) cells).map Prod.fst).Nodup := by
    rw [((insertCells_perm (m.nodes.length, t) cells).map Prod.fst).nodup_iff, List.map_cons,
      List.nodup_cons]
    refine ⟨?_, h.nodup⟩
    intro hmem
    obtain ⟨c, hc, e⟩ := List.mem_map.mp hmem
    exact hfreshAll c hc e
  have hlive2 : ∀ c ∈ insertCells (m.nodes.length, t) cells, c.1 ∉ m.freed := by
    intro c hc
    rcases List.mem_cons.mp ((insertCells_perm _ cells).mem_iff.mp hc) with rfl | hc
    · intro hf
      exact Nat.lt_irrefl _ (h.freedValid _ hf)
    · exact h.live c hc
  cases hc : cells with
  | nil =>
    subst hc
    have hh := h.head
    have ht := h.tail
    simp only [nextPtr, lastPtr] at hh ht
    simp only [hh, ht, and_self, if_true]
    refine ⟨_, _, rfl, ⟨?_, ?_, rfl, rfl, ?_, ?_⟩, rfl, by simp⟩
    · simp [insertCells, advance]
    · simp only [insertCells, advance, List.nil_append, Seg, and_true]
      rw [List.getElem?_concat_length]
      rfl
    · simpa using hlive2
    · intro a ha
      have := h.freedValid a ha
      simp only [List.length_append, List.length_singleton]
      omega
  | cons c0 r0 =>
    rw [← hc]
    have hne : cells ≠ [] := by rw [hc]; exact List.cons_ne_nil _ _
    have hh : list.h_p ≠ none := by
      rw [h.head, hc]; simp [nextPtr]
    have hcond : ¬ (list.h_p = none ∧ list.t_p = none) := fun x => hh x.1
    simp only [hcond, if_false]
    have hseg1 : Seg (m.nodes ++ [{ data := t, prev_p := none, next_p := none }]) none cells
        none := seg_append_frame _ _ _ _ _ h.seg
    have hN1 : (m.nodes ++ [({ data := t, prev_p := none, next_p := none } : list_node_s)])[
        m.nodes.length]? = some { data := t, prev_p := none, next_p := none } :=
      List.getElem?_concat_length _ _
    have hloop := insertLoop_spec
      { nodes := m.nodes ++ [{ data := t, prev_p := none, next_p := none }], freed := m.freed }
      cells none t m.nodes.length _ (m.nodes.length + 1) hseg1 hne hN1 rfl
      (Nat.le_succ_of_le h.length_le)
    rw [h.head]
    simp only [List.length_append, List.length_singleton]
    rw [hloop]
    simp only
    have happ := advance_append t cells
    have hne2 := advance_snd_ne_nil t cells hne
    cases h2 : (advance t cells).2 with
    | nil => exact absurd h2 hne2
    | cons q post =>
      rw [h2] at happ
      have hstop : (advance t cells).1 = [] → post ≠ [] → Climate.strcmp t q.2 ≤ 0 := by
        intro _ hp
        rcases advance_stop t cells q post h2 with hx | hx
        · exact absurd hx hp
        · omega
      obtain ⟨m2, list2, hrun, hfr, hlen, hseg2, hh2, ht2⟩ := linkNode_spec
        { nodes := m.nodes ++ [{ data := t, prev_p := none, next_p := none }], freed := m.freed }
        list (advance t cells).1 post q m.nodes.length t (by rw [happ]; exact hseg1)
        (by rw [happ]; exact h.nodup) hN1 (by rw [happ]; exact hfreshAll)
        (by rw [happ]; exact h.head) (by rw [happ]; exact h.tail) hstop
      have hins := insertCells_eq (m.nodes.length, t) cells (advance t cells).1 post q
        (by rw [← h2])
      simp only at hins
      rw [← hins] at hseg2 hh2 ht2
      simp only [nextPtr]
      refine ⟨m2, list2, hrun, ⟨hnodup2, hseg2, hh2, ht2, ?_, ?_⟩, hfr, ?_⟩
      · rw [hfr]; exact hlive2
      · rw [hfr, hlen]
        intro a ha
        have := h.freedValid a ha
        simp only [List.length_append, List.length_singleton]
        omega
      · rw [hlen]; simp

/-! ## Ascending order -/

theorem strcmp_swap (a b : List Char) : Climate.strcmp b a = - Climate.strcmp a b := by
  induction a generalizing b with
  | nil => cases b <;> simp [Climate.strcmp]
  | cons x xs ih =>
    cases b with
    | nil => simp [Climate.strcmp]
    | cons y ys =>
      by_cases hxy : x = y
      · subst hxy
        simp [Climate.strcmp, ih]
      · have hyx : ¬ y = x := fun e => hxy e.symm
        have hne : x.toNat ≠ y.toNat := fun e => hxy (Char.ext (UInt32.ext e))
        simp only [Climate.strcmp, hxy, hyx, if_false]
        split <;> split <;> omega

theorem strcmp_lt_of_ge_of_ne (s p : List Char) (h : Climate.strcmp s p ≥ 0) (hne : s ≠ p) :
    Climate.strcmp p s < 0 := by
  have h0 : Climate.strcmp s p ≠ 0 := fun e => hne ((Climate.strcmp_eq_zero_iff s p).mp e)
  rw [strcmp_swap s p]
  omega

theorem ascending_insertCells (nw : Cell) (cells : List Cell)
    (hasc : Ascending (elements cells)) (hnew : nw.2 ∉ elements cells) :
    Ascending (elements (insertCells nw cells)) := by
  cases hc : cells with
  | nil => simp [insertCells, advance, elements, Ascending]
  | cons c r =>
    rw [← hc]
    have happ := advance_append nw.2 cells
    have hne := advance_snd_ne_nil nw.2 cells (by rw [hc]; exact List.cons_ne_nil _ _)
    have hpassed := advance_passed nw.2 cells
    cases h2 : (advance nw.2 cells).2 with
    | nil => exact absurd h2 hne
    | cons q post =>
      have hstop := advance_stop nw.2 cells q post h2
      rw [insertCells_eq nw cells (advance nw.2 cells).1 post q (by rw [← h2])]
      rw [h2] at happ
      generalize (advance nw.2 cells).1 = pre at happ hpassed ⊢
      subst happ
      unfold Ascending elements at hasc ⊢
      have hq : nw.2 ≠ q.2 := fun e => hnew (by simp [elements, e])
      have hpre : ∀ x ∈ (pre.map Prod.snd).getLast?, Climate.strcmp x nw.2 < 0 := by
        intro x hx
        have hxm : x ∈ pre.map Prod.snd := List.mem_of_mem_getLast? hx
        obtain ⟨c1, hc1, rfl⟩ := List.mem_map.mp hxm
        exact strcmp_lt_of_ge_of_ne nw.2 c1.2 (hpassed c1 hc1)
          (fun e => hnew (by simp [elements]; exact Or.inl ⟨c1.1, by rw [e]; exact hc1⟩))
      rw [List.map_append, List.map_cons, List.chain'_append] at hasc
      obtain ⟨hc1, hc2, hc3⟩ := hasc
      split
      · rename_i hB
        obtain ⟨hpost, hgt⟩ := hB
        subst hpost
        have hqn : Climate.strcmp q.2 nw.2 < 0 := by rw [strcmp_swap nw.2 q.2]; omega
        rw [List.map_append, List.chain'_append]
        refine ⟨hc1, ?_, ?_⟩
        · simp only [List.map_cons, List.map_nil, List.chain'_cons, List.chain'_singleton,
            and_true]
          exact hqn
        · simpa using hc3
      · rename_i hB
        have hnq : Climate.strcmp nw.2 q.2 < 0 := by
          rcases hstop with hp | hlt
          · have h0 : Climate.strcmp nw.2 q.2 ≠ 0 :=
              fun e => hq ((Climate.strcmp_eq_zero_iff _ _).mp e)
            have : ¬ Climate.strcmp nw.2 q.2 > 0 := fun hgt => hB ⟨hp, hgt⟩
            omega
          · exact hlt
        rw [List.map_append, List.chain'_append]
        refine ⟨hc1, ?_, ?_⟩
        · simp only [List.map_cons, List.chain'_cons]
          exact ⟨hnq, hc2⟩
        · simpa using hpre

theorem insertAll_singleton (malloc : Nat → Option (List Char)) (m : Memory) (list : list_s)
    (s : List Char) : insertAll malloc m list [s] = Insert malloc m list s := by
  unfold insertAll
  simp only [List.foldlM_cons, List.foldlM_nil, bind, Except.bind, pure, Except.pure]
  cases Insert malloc m list s <;> rfl

theorem insertAll_spec (malloc : Nat → Option (List Char)) (hclean : ∀ k, malloc k = some [])
    (m : Memory) (list : list_s) (cells : List Cell)
    (strings : List (List Char)) (hwf : WellFormedList m list cells)
    (hasc : Ascending (elements cells)) (hnd : strings.Nodup)
    (hnew : ∀ s ∈ strings, s ∉ elements cells) :
    ∃ m2 list2 cells2, insertAll malloc m list strings = .ok (m2, list2) ∧
      WellFormedList m2 list2 cells2 ∧ Ascending (elements cells2) ∧
      (elements cells2).Perm (elements cells ++ strings) := by
  induction strings generalizing m list cells with
  | nil => exact ⟨m, list, cells, rfl, hwf, hasc, by simp⟩
  | cons s rest ih =>
    obtain ⟨m1, list1, hrun, hwf1, -, -⟩ := Insert_spec malloc m list cells s [] hwf (hclean _)
    rw [List.nil_append] at hwf1
    have hasc1 := ascending_insertCells (m.nodes.length, s) cells hasc (hnew s (by simp))
    have hperm1 : (elements (insertCells (m.nodes.length, s) cells)).Perm (s :: elements cells) :=
      (insertCells_perm (m.nodes.length, s) cells).map Prod.snd
    rw [List.nodup_cons] at hnd
    obtain ⟨m2, list2, cells2, hrun2, hwf2, hasc2, hperm2⟩ := ih m1 list1
      (insertCells (m.nodes.length, s) cells) hwf1 hasc1 hnd.2 (by
        intro x hx hmem
        rcases List.mem_cons.mp (hperm1.mem_iff.mp hmem) with e | hmem
        · exact hnd.1 (e ▸ hx)
        · exact hnew x (List.mem_cons_of_mem _ hx) hmem)
    refine ⟨m2, list2, cells2, ?_, hwf2, hasc2, ?_⟩
    · unfold insertAll at hrun2 ⊢
      simp only [List.foldlM_cons, bind, Except.bind, hrun]
      exact hrun2
    · refine hperm2.trans ?_
      refine (List.Perm.append_right rest hperm1).trans ?_
      simp only [List.cons_append]
      exact (List.perm_middle).symm

/-- When `malloc` gives storage that starts with NUL, strings that are pairwise distinct and not
in the list are printed in ascending order after their insertion, whatever the order of the
calls. -/
theorem insertAll_print (malloc : Nat → Option (List Char)) (hclean : ∀ k, malloc k = some [])
    (m : Memory) (list : list_s) (cells : List Cell)
    (strings : List (List Char)) (hwf : WellFormedList m list cells)
    (hasc : Ascending (elements cells)) (hnd : strings.Nodup)
    (hnew : ∀ s ∈ strings, s ∉ elements cells) :
    ∃ m2 list2 cells2, insertAll malloc m list strings = .ok (m2, list2) ∧
      WellFormedList m2 list2 cells2 ∧ Ascending (elements cells2) ∧
      (elements cells2).Perm (elements cells ++ strings) ∧
      Print m2 list2
        = .ok ("list = ".toList ++ (elements cells2).flatMap (fun d => d ++ [' ']) ++ ['\n']) := by
  obtain ⟨m2, list2, cells2, hrun, hwf2, hasc2, hperm⟩ :=
    insertAll_spec malloc hclean m list cells strings hwf hasc hnd hnew
  exact ⟨m2, list2, cells2, hrun, hwf2, hasc2, hperm, Print_spec m2 list2 cells2 hwf2⟩

/-! ## Delete -/

theorem Free_node_live (ns : List list_node_s) (fr : List Nat) (a : Nat) (n : list_node_s)
    (h : ns[a]? = some n) (hlive : a ∉ fr) :
    Free_node { nodes := ns, freed := fr } (some a) = .ok { nodes := ns, freed := a :: fr } := by
  simp [Free_node, h, hlive]

theorem deleteNode_spec (m : Memory) (list : list_s) (pre post : List Cell) (q : Cell)
    (hwf : WellFormedList m list (pre ++ q :: post)) (hlen : pre ≠ [] ∨ post ≠ []) :
    ∃ m2 list2, deleteNode m list (some q.1) = .ok (m2, list2) ∧
      WellFormedList m2 list2 (pre ++ post) ∧ m2.freed = q.1 :: m.freed ∧
      m2.nodes.length = m.nodes.length := by
  have hseg := hwf.seg
  have hq := seg_getElem _ _ _ _ _ _ hseg
  obtain ⟨hsegpre, -, hsegpost⟩ := (seg_append _ _ _ _ _).mp hseg
  have hqlt : q.1 < m.nodes.length := seg_lt _ _ _ _ hseg q (by simp)
  have hqlive : q.1 ∉ m.freed := hwf.live q (by simp)
  have hnd := hwf.nodup
  rw [List.map_append, List.map_cons, List.nodup_append] at hnd
  obtain ⟨hndpre, hndq, hdisj⟩ := hnd
  rw [List.nodup_cons] at hndq
  have hqpre : ∀ c ∈ pre, c.1 ≠ q.1 := by
    intro c hc e
    exact hdisj (List.mem_map.mpr ⟨c, hc, rfl⟩) (by simp [e])
  have hqpost : ∀ c ∈ post, c.1 ≠ q.1 := by
    intro c hc e
    exact hndq.1 (List.mem_map.mpr ⟨c, hc, e⟩)
  have hprepost : ∀ c ∈ pre, ∀ d ∈ post, c.1 ≠ d.1 := by
    intro c hc d hd e
    exact hdisj (List.mem_map.mpr ⟨c, hc, rfl⟩)
      (List.mem_cons_of_mem _ (List.mem_map.mpr ⟨d, hd, e.symm⟩))
  have hnodup2 : ((pre ++ post).map Prod.fst).Nodup := by
    rw [List.map_append, List.nodup_append]
    exact ⟨hndpre, hndq.2, fun x hx hy => hdisj hx (List.mem_cons_of_mem _ hy)⟩
  have hlive2 : ∀ c ∈ pre ++ post, c.1 ∉ q.1 :: m.freed := by
    intro c hc hmem
    rcases List.mem_cons.mp hmem with e | hmem
    · rcases List.mem_append.mp hc with h1 | h1
      · exact hqpre c h1 e
      · exact hqpost c h1 e
    · refine hwf.live c ?_ hmem
      rcases List.mem_append.mp hc with h1 | h1
      · simp [h1]
      · simp [h1]
  have hvalid2 : ∀ a ∈ q.1 :: m.freed, a < m.nodes.length := by
    intro a ha
    rcases List.mem_cons.mp ha with rfl | ha
    · exact hqlt
    · exact hwf.freedValid a ha
  have hsingle : ¬ (lastPtr pre none = none ∧ nextPtr post none = none) := by
    rintro ⟨h1, h2⟩
    rcases hlen with h | h
    · exact h (lastPtr_eq_none pre h1)
    · exact h (nextPtr_eq_none post h2)
  unfold deleteNode
  simp only [load_some m _ _ hq, bind, Except.bind, pure, Except.pure, hsingle, if_false]
  by_cases hp : lastPtr pre none = none
  · -- the node is the head
    have hpre : pre = [] := lastPtr_eq_none pre hp
    subst hpre
    cases post with
    | nil => simp at hlen
    | cons p2 post2 =>
      have hp2 := hsegpost.1
      have hp2q : p2.1 ≠ q.1 := hqpost p2 (by simp)
      have hp2lt : p2.1 < m.nodes.length := seg_lt _ _ _ _ hsegpost p2 (by simp)
      have hp2post : ∀ c ∈ post2, c.1 ≠ p2.1 := by
        intro c hc e
        have := hndq.2
        rw [List.map_cons, List.nodup_cons] at this
        exact this.1 (List.mem_map.mpr ⟨c, hc, e⟩)
      simp only [lastPtr, nextPtr, if_true]
      rw [modify_some m p2.1 _ _ hp2]
      simp only
      rw [load_some _ q.1 { data := q.2, prev_p := none, next_p := some p2.1 }
        (by simp only; rw [List.getElem?_set_ne hp2q]; exact hq)]
      simp only
      rw [Free_node_live _ _ q.1 { data := q.2, prev_p := none, next_p := some p2.1 }
        (by rw [List.getElem?_set_ne hp2q]; exact hq) hqlive]
      refine ⟨_, _, rfl, ⟨hnodup2, ?_, rfl, ?_, hlive2, ?_⟩, rfl, by simp⟩
      · refine ⟨?_, seg_set_frame _ _ _ _ _ _ hp2post hsegpost.2⟩
        simp only
        rw [List.getElem?_set_self hp2lt]
      · simp only [hwf.tail, List.nil_append, lastPtr]
      · simpa using hvalid2
  · obtain ⟨pre1, t, rfl⟩ : ∃ pre1 t, pre = pre1 ++ [t] := by
      have hpne : pre ≠ [] := by
        intro e
        subst e
        exact hp rfl
      exact ⟨pre.dropLast, pre.getLast hpne, (List.dropLast_append_getLast hpne).symm⟩
    have hlast : lastPtr (pre1 ++ [t]) none = some t.1 := by
      rw [lastPtr_append]; rfl
    rw [hlast] at hq
    have htnode := seg_getElem _ _ _ _ _ _ hsegpre
    simp only [nextPtr] at htnode
    have htq : t.1 ≠ q.1 := hqpre t (by simp)
    have htlt : t.1 < m.nodes.length := seg_lt _ _ _ _ hsegpre t (by simp)
    obtain ⟨hsegpre1, -⟩ := (seg_append _ _ _ _ _).mp hsegpre
    rw [List.map_append, List.nodup_append] at hndpre
    have htpre1 : ∀ c ∈ pre1, c.1 ≠ t.1 := by
      intro c hc e
      exact hndpre.2.2 (List.mem_map.mpr ⟨c, hc, rfl⟩) (by simp [e])
    have htpost : ∀ c ∈ post, c.1 ≠ t.1 := fun c hc e => hprepost t (by simp) c hc e.symm
    have hsome : ¬ (some t.1 = none) := by simp
    simp only [hlast, hsome, if_false]
    cases post with
    | nil =>
      -- the node is the tail
      simp only [nextPtr, if_true]
      simp only [nextPtr] at hq
      rw [modify_some m t.1 _ _ htnode]
      simp only
      rw [load_some _ q.1 { data := q.2, prev_p := some t.1, next_p := none }
        (by simp only; rw [List.getElem?_set_ne htq]; exact hq)]
      simp only
      rw [Free_node_live _ _ q.1 { data := q.2, prev_p := some t.1, next_p := none }
        (by rw [List.getElem?_set_ne htq]; exact hq) hqlive]
      refine ⟨_, _, rfl, ⟨hnodup2, ?_, ?_, ?_, hlive2, ?_⟩, rfl, by simp⟩
      · rw [List.append_nil, seg_append]
        refine ⟨seg_set_frame _ _ _ _ _ _ htpre1 hsegpre1, ?_, trivial⟩
        simp only
        rw [List.getElem?_set_self htlt]
        rfl
      · simp only [hwf.head, nextPtr_append, List.append_nil]
        cases pre1 <;> rfl
      · simp only [List.append_nil, lastPtr_append, lastPtr]
      · simpa using hvalid2
    | cons p2 post2 =>
      -- the node is between two nodes
      have hp2 := hsegpost.1
      have hp2q : p2.1 ≠ q.1 := hqpost p2 (by simp)
      have hp2t : p2.1 ≠ t.1 := htpost p2 (by simp)
      have hp2lt : p2.1 < m.nodes.length := seg_lt _ _ _ _ hsegpost p2 (by simp)
      have hp2post : ∀ c ∈ post2, c.1 ≠ p2.1 := by
        intro c hc e
        have := hndq.2
        rw [List.map_cons, List.nodup_cons] at this
        exact this.1 (List.mem_map.mpr ⟨c, hc, e⟩)
      have hnn : ¬ (nextPtr (p2 :: post2) none = none) := by simp [nextPtr]
      simp only [hnn, if_false]
      simp only [nextPtr] at hq ⊢
      rw [modify_some m p2.1 _ _ hp2]
      simp only
      rw [load_some _ q.1 { data := q.2, prev_p := some t.1, next_p := some p2.1 }
        (by simp only; rw [List.getElem?_set_ne hp2q]; exact hq)]
      simp only
      rw [modify_some _ t.1 { data := t.2, prev_p := lastPtr pre1 none, next_p := some q.1 } _
        (by simp only; rw [List.getElem?_set_ne hp2t]; exact htnode)]
      simp only
      rw [Free_node_live _ _ q.1 { data := q.2, prev_p := some t.1, next_p := some p2.1 }
        (by rw [List.getElem?_set_ne htq, List.getElem?_set_ne hp2q]; exact hq) hqlive]
      refine ⟨_, _, rfl, ⟨hnodup2, ?_, ?_, ?_, hlive2, ?_⟩, rfl, by simp⟩
      · rw [List.append_assoc, seg_append]
        refine ⟨?_, ?_, ?_, ?_⟩
        · exact seg_set_frame _ _ _ _ _ _ htpre1
            (seg_set_frame _ _ _ _ _ _ (fun c hc => hprepost c (by simp [hc]) p2 (by simp))
              hsegpre1)
        · simp only
          rw [List.getElem?_set_self (by simpa using htlt)]
          rfl
        · simp only
          rw [List.getElem?_set_ne (fun e => hp2t e.symm), List.getElem?_set_self hp2lt]
        · exact seg_set_frame _ _ _ _ _ _ (fun c hc => htpost c (by simp [hc]))
            (seg_set_frame _ _ _ _ _ _ hp2post hsegpost.2)
      · simp only [hwf.head, nextPtr_append]
        cases pre1 <;> rfl
      · simp only [hwf.tail, lastPtr_append, lastPtr]
      · simpa using hvalid2

theorem deleteLoop_skip (m : Memory) (list : list_s) (a b : List Cell) (prev : Option Nat)
    (s : List Char) (fuel : Nat) (h : Seg m.nodes prev (a ++ b) none)
    (hne : ∀ c ∈ a, c.2 ≠ s) :
    deleteLoop (a.length + fuel) m list (nextPtr (a ++ b) none) s
      = deleteLoop fuel m list (nextPtr b none) s := by
  induction a generalizing prev with
  | nil => simp
  | cons c r ih =>
    have hc : Climate.strcmp c.2 s ≠ 0 :=
      fun e => hne c (List.mem_cons_self _ _) ((Climate.strcmp_eq_zero_iff _ _).mp e)
    have e : (c :: r).length + fuel = (r.length + fuel) + 1 := by simp; omega
    rw [e]
    show deleteLoop (r.length + fuel + 1) m list (some c.1) s = _
    have hnode := h.1
    simp only [deleteLoop, load_some m c.1 _ hnode, bind, Except.bind, hc, if_false]
    exact ih (some c.1) h.2 (fun x hx => hne x (List.mem_cons_of_mem _ hx))

theorem Delete_absent (m : Memory) (list : list_s) (cells : List Cell) (s : List Char)
    (hwf : WellFormedList m list cells) (hs : s ∉ elements cells) :
    Delete m list s
      = .ok (m, list, "String was not found. No change was made.\n".toList) := by
  unfold Delete
  obtain ⟨k, hk⟩ : ∃ k, m.nodes.length + 1 = cells.length + (k + 1) :=
    ⟨m.nodes.length - cells.length, by have := hwf.length_le; omega⟩
  have hskip := deleteLoop_skip m list cells [] none s (k + 1)
    (by simpa using hwf.seg) (fun c hc e => hs (by simp [elements]; exact ⟨c.1, e ▸ hc⟩))
  rw [List.append_nil] at hskip
  rw [hwf.head, hk, hskip]
  rfl

theorem Delete_present (m : Memory) (list : list_s) (pre post : List Cell) (q : Cell)
    (s : List Char) (hwf : WellFormedList m list (pre ++ q :: post))
    (hlen : pre ≠ [] ∨ post ≠ []) (hq : q.2 = s) (hpre : s ∉ elements pre) :
    ∃ m2 list2, Delete m list s = .ok (m2, list2, []) ∧
      WellFormedList m2 list2 (pre ++ post) ∧ m2.freed = q.1 :: m.freed ∧
      m2.nodes.length = m.nodes.length := by
  obtain ⟨m2, list2, hrun, hwf2, hfr, hlen2⟩ := deleteNode_spec m list pre post q hwf hlen
  refine ⟨m2, list2, ?_, hwf2, hfr, hlen2⟩
  unfold Delete
  obtain ⟨k, hk⟩ : ∃ k, m.nodes.length + 1 = pre.length + (k + 1) :=
    ⟨m.nodes.length - pre.length, by
      have := hwf.length_le
      simp only [List.length_append, List.length_cons] at this
      omega⟩
  have hskip := deleteLoop_skip m list pre (q :: post) none s (k + 1) hwf.seg
    (fun c hc e => hpre (by simp [elements]; exact ⟨c.1, e ▸ hc⟩))
  have hnode := seg_getElem _ _ _ _ _ _ hwf.seg
  have hqlt : q.1 < m2.nodes.length := by
    rw [hlen2]; exact seg_lt _ _ _ _ hwf.seg q (by simp)
  obtain ⟨n2, hn2⟩ : ∃ n2, m2.nodes[q.1]? = some n2 :=
    ⟨m2.nodes[q.1], List.getElem?_eq_getElem hqlt⟩
  rw [hwf.head, hk, hskip]
  show (deleteLoop (k + 1) m list (some q.1) s).bind _ = _
  simp only [deleteLoop, load_some m q.1 _ hnode, bind, Except.bind, hq,
    (Climate.strcmp_eq_zero_iff s s).mpr rfl, if_true, hrun, load_some m2 q.1 _ hn2, pure,
    Except.pure]

/-! ## Free_list -/

theorem memberLoop_congr (fuel : Nat) (m m2 : Memory) (p : Option Nat) (s : List Char)
    (h : m2.nodes = m.nodes) : memberLoop fuel m2 p s = memberLoop fuel m p s := by
  induction fuel generalizing p with
  | zero => rfl
  | succ k ih =>
    cases p with
    | none => rfl
    | some a =>
      simp only [memberLoop, load, h, bind, Except.bind]
      cases m.nodes[a]? with
      | none => rfl
      | some n =>
        simp only
        split
        · rfl
        · exact ih _

theorem lastPtr_snoc (pre : List Cell) (t : Cell) (prev : Option Nat) :
    lastPtr (pre ++ [t]) prev = some t.1 := by
  rw [lastPtr_append]; rfl

theorem Free_list_empty (m : Memory) : Free_list m emptyList = .error .nullDeref := rfl

theorem Free_list_single (m : Memory) (list : list_s) (c : Cell)
    (hwf : WellFormedList m list [c]) : Free_list m list = .error .doubleFree := by
  have hnode := hwf.seg.1
  have hh := hwf.head
  have ht := hwf.tail
  simp only [nextPtr, lastPtr] at hh ht
  obtain ⟨ns, fr⟩ := m
  unfold Free_list
  rw [hh, ht, Free_node_live ns fr c.1 _ hnode (hwf.live c (by simp))]
  simp [Free_node, bind, Except.bind, hnode]

theorem Free_list_many (m : Memory) (list : list_s) (h : Cell) (mid : List Cell) (t : Cell)
    (hwf : WellFormedList m list (h :: (mid ++ [t]))) :
    Free_list m list = .ok ({ nodes := m.nodes, freed := t.1 :: h.1 :: m.freed }, list) := by
  have hnode := hwf.seg.1
  have htnode : ∃ n, m.nodes[t.1]? = some n := by
    have hlt := seg_lt _ _ _ _ hwf.seg t (by simp)
    exact ⟨m.nodes[t.1], List.getElem?_eq_getElem hlt⟩
  obtain ⟨n, hn⟩ := htnode
  have hh := hwf.head
  have ht := hwf.tail
  have hth : t.1 ≠ h.1 := by
    have := hwf.nodup
    rw [List.map_cons, List.nodup_cons] at this
    intro e
    exact this.1 (List.mem_map.mpr ⟨t, by simp, e⟩)
  have e : h :: (mid ++ [t]) = (h :: mid) ++ [t] := rfl
  rw [e, lastPtr_snoc] at ht
  simp only [nextPtr] at hh
  obtain ⟨ns, fr⟩ := m
  unfold Free_list
  rw [hh, ht, Free_node_live ns fr h.1 _ hnode (hwf.live h (by simp))]
  simp only [bind, Except.bind, ne_eq, not_false_eq_true, if_true, reduceCtorEq]
  rw [Free_node_live ns (h.1 :: fr) t.1 n hn (by
    intro hmem
    rcases List.mem_cons.mp hmem with e1 | e1
    · exact hth e1
    · exact hwf.live t (by simp) e1)]
  rfl

theorem fruit_wellFormed : WellFormedList fruitMemory fruitList fruitCells :=
  ⟨by decide, by simp [Seg, fruitMemory, fruitCells, nextPtr], rfl, rfl,
    by simp [fruitMemory], by simp [fruitMemory]⟩

theorem single_wellFormed : WellFormedList singleMemory singleList [(0, "apple".toList)] :=
  ⟨by decide, by simp [Seg, singleMemory, nextPtr], rfl, rfl,
    by simp [singleMemory], by simp [singleMemory]⟩

theorem empty_wellFormed : WellFormedList emptyMemory emptyList [] :=
  ⟨by simp, trivial, rfl, rfl, by simp, by simp [emptyMemory]⟩

/-! ## The claims about `project4.c` -/

theorem fruit_ascending : Ascending (elements fruitCells) := by
  simp only [Ascending, elements, fruitCells, List.map_cons, List.map_nil, List.chain'_cons,
    List.chain'_singleton, and_true]
  decide

/-- The list `apple banana cherry` is what `banana`, `apple` and `cherry`, inserted in that
order into the empty list, give when `malloc` gives storage that starts with NUL. -/
theorem fruit_inserted :
    insertAll cleanMalloc emptyMemory emptyList
        ["banana".toList, "apple".toList, "cherry".toList] = .ok (fruitMemory, fruitList) ∧
      Print fruitMemory fruitList = .ok "list = apple banana cherry \n".toList :=
  ⟨rfl, rfl⟩

/-- C11, what the code does.  `Insert` appends the string `s` with `strcat` to the storage that
`malloc` has just returned, which nothing initialises.  On a well-formed list in strictly
ascending order without `s`, when that storage holds `junk` before its first NUL, `Insert`
completes and the new node holds `junk ++ s`: if `junk` is not empty the list does not hold `s`
afterwards, `Member` does not find it and the elements are not the old ones and `s`; only if the
storage starts with NUL is the list the old elements and `s` in strictly ascending order. -/
theorem C11_insert_appends_to_uninitialised_storage (malloc : Nat → Option (List Char))
    (m : Memory) (list : list_s) (cells : List Cell) (s junk : List Char)
    (hwf : WellFormedList m list cells) (hasc : Ascending (elements cells))
    (hnew : s ∉ elements cells) (hm : malloc m.nodes.length = some junk) :
    ∃ m1 list1 cells1, Insert malloc m list s = .ok (m1, list1) ∧
      WellFormedList m1 list1 cells1 ∧
      (elements cells1).Perm ((junk ++ s) :: elements cells) ∧
      (junk ≠ [] → s ∉ elements cells1 ∧ Member m1 list1 s = .ok 0 ∧
        ¬ (elements cells1).Perm (elements cells ++ [s])) ∧
      (junk = [] → Ascending (elements cells1) ∧
        (elements cells1).Perm (elements cells ++ [s])) := by
  obtain ⟨m1, list1, hrun, hwf1, -, -⟩ := Insert_spec malloc m list cells s junk hwf hm
  have hperm1 : (elements (insertCells (m.nodes.length, junk ++ s) cells)).Perm
      ((junk ++ s) :: elements cells) :=
    (insertCells_perm (m.nodes.length, junk ++ s) cells).map Prod.snd
  have hnot : junk ≠ [] → s ∉ elements (insertCells (m.nodes.length, junk ++ s) cells) := by
    intro hj hmem
    rcases List.mem_cons.mp (hperm1.mem_iff.mp hmem) with e | hmem
    · have hlen := congrArg List.length e
      rw [List.length_append] at hlen
      have hpos := List.length_pos.mpr hj
      omega
    · exact hnew hmem
  refine ⟨m1, list1, _, hrun, hwf1, hperm1, ?_, ?_⟩
  · intro hj
    refine ⟨hnot hj, ?_, ?_⟩
    · rw [Member_spec m1 list1 _ s hwf1, if_neg (hnot hj)]
    · intro hp
      exact hnot hj (hp.mem_iff.mpr (by simp))
  · intro hj
    subst hj
    rw [List.nil_append] at hperm1 ⊢
    exact ⟨ascending_insertCells (m.nodes.length, s) cells hasc hnew,
      hperm1.trans (List.perm_append_singleton s (elements cells)).symm⟩

/-- Witness of C11 at the failing input: `blueberry` is inserted into `apple banana cherry` when
the storage `malloc` returns still holds `kiwi`; the new node holds `kiwiblueberry`. -/
theorem C11_insert_appends_to_uninitialised_storage_witness :
    (∃ m1 list1 cells1, Insert staleMalloc fruitMemory fruitList "blueberry".toList
        = .ok (m1, list1) ∧
      WellFormedList m1 list1 cells1 ∧
      (elements cells1).Perm (("kiwi".toList ++ "blueberry".toList) :: elements fruitCells) ∧
      ("kiwi".toList ≠ [] → "blueberry".toList ∉ elements cells1 ∧
        Member m1 list1 "blueberry".toList = .ok 0 ∧
        ¬ (elements cells1).Perm (elements fruitCells ++ ["blueberry".toList])) ∧
      ("kiwi".toList = [] → Ascending (elements cells1) ∧
        (elements cells1).Perm (elements fruitCells ++ ["blueberry".toList]))) ∧
    (Insert staleMalloc fruitMemory fruitList "blueberry".toList).bind
        (fun st => Print st.1 st.2)
      = .ok "list = apple banana cherry kiwiblueberry \n".toList ∧
    (Insert staleMalloc fruitMemory fruitList "blueberry".toList).bind
        (fun st => Member st.1 st.2 "blueberry".toList) = .ok 0 :=
  ⟨C11_insert_appends_to_uninitialised_storage staleMalloc fruitMemory fruitList fruitCells
      "blueberry".toList "kiwi".toList fruit_wellFormed fruit_ascending
      (by decide) rfl, rfl, rfl⟩

/-- C12, what the code does.  `Insert` never looks for the string in the list: on every
well-formed list and for every string `s` that is already an element, when `malloc` gives
storage that starts with NUL, it completes and links a further node holding `s`, so that the
list is one element longer and holds `s` at least twice. -/
theorem C12_insert_of_present_string_adds_duplicate (malloc : Nat → Option (List Char))
    (m : Memory) (list : list_s)
    (cells : List Cell) (s : List Char) (hwf : WellFormedList m list cells)
    (hs : s ∈ elements cells) (hm : malloc m.nodes.length = some []) :
    ∃ m2 list2 cells2, Insert malloc m list s = .ok (m2, list2) ∧
      WellFormedList m2 list2 cells2 ∧
      (elements cells2).Perm (s :: elements cells) ∧
      (elements cells2).length = (elements cells).length + 1 ∧
      2 ≤ (elements cells2).countP (fun x => x = s) := by
  obtain ⟨m2, list2, hrun, hwf2, -, -⟩ := Insert_spec malloc m list cells s [] hwf hm
  rw [List.nil_append] at hwf2
  have hperm : (elements (insertCells (m.nodes.length, s) cells)).Perm (s :: elements cells) :=
    (insertCells_perm (m.nodes.length, s) cells).map Prod.snd
  refine ⟨m2, list2, _, hrun, hwf2, hperm, ?_, ?_⟩
  · rw [hperm.length_eq]; rfl
  · rw [hperm.countP_eq, List.countP_cons_of_pos _ _ (by simp)]
    have := (List.countP_pos_iff (p := fun x => decide (x = s))).mpr ⟨s, hs, by simp⟩
    omega

/-- Witness of C12 at the failing input: `apple` inserted into `apple banana cherry`, after
which `Print` shows `apple apple banana cherry`. -/
theorem C12_insert_of_present_string_adds_duplicate_witness :
    (∃ m2 list2 cells2, Insert cleanMalloc fruitMemory fruitList "apple".toList
        = .ok (m2, list2) ∧
      WellFormedList m2 list2 cells2 ∧
      (elements cells2).Perm ("apple".toList :: elements fruitCells) ∧
      (elements cells2).length = (elements fruitCells).length + 1 ∧
      2 ≤ (elements cells2).countP (fun x => x = "apple".toList)) ∧
    (Insert cleanMalloc fruitMemory fruitList "apple".toList).bind (fun st => Print st.1 st.2)
      = .ok "list = apple apple banana cherry \n".toList :=
  ⟨C12_insert_of_present_string_adds_duplicate cleanMalloc fruitMemory fruitList fruitCells
      "apple".toList fruit_wellFormed (by decide) rfl, rfl⟩

/-- C13, evaluation at the failing input.  Two calls of `Insert` with `apple` from the empty
list complete and give the list `apple apple`, which is not strictly ascending. -/
theorem C13_reachable_list_with_repeated_string :
    ∃ m list, insertAll cleanMalloc emptyMemory emptyList ["apple".toList, "apple".toList]
        = .ok (m, list) ∧
      WellFormedList m list [(1, "apple".toList), (0, "apple".toList)] ∧
      Print m list = .ok "list = apple apple \n".toList ∧
      ¬ Ascending (elements [(1, "apple".toList), (0, "apple".toList)]) := by
  refine ⟨{ nodes := [ { data := "apple".toList, prev_p := some 1, next_p := none },
      { data := "apple".toList, prev_p := none, next_p := some 0 } ], freed := [] },
    { h_p := some 1, t_p := some 0 }, rfl, ?_, rfl, ?_⟩
  · exact ⟨by decide, by simp [Seg, nextPtr], rfl, rfl, by simp, by simp⟩
  · simp only [Ascending, elements, List.map_cons, List.map_nil, List.chain'_cons,
      List.chain'_singleton, and_true]
    rw [(Climate.strcmp_eq_zero_iff _ _).mpr rfl]
    omega

/-- C14. On a well-formed list `Member` completes and returns `1` when some element of the list
equals the string and `0` otherwise.  `Member` stores nothing: it has no heap or list among its
results. -/
theorem C14_member_iff_element (m : Memory) (list : list_s) (cells : List Cell) (s : List Char)
    (hwf : WellFormedList m list cells) :
    Member m list s = .ok (if s ∈ elements cells then 1 else 0) :=
  Member_spec m list cells s hwf

/-- Witness of C14 on the list `apple banana cherry` for `banana`. -/
theorem C14_member_iff_element_witness :
    Member fruitMemory fruitList "banana".toList
      = .ok (if "banana".toList ∈ elements fruitCells then 1 else 0) :=
  C14_member_iff_element fruitMemory fruitList fruitCells "banana".toList fruit_wellFormed

/-- C15. On a well-formed list with at least two elements that holds `s`, `Delete` completes
without a message, releases the first node holding `s` and no other, and leaves a well-formed
list (head, tail and links in both directions) of the other cells in their order. -/
theorem C15_delete_unlinks_first_match (m : Memory) (list : list_s) (cells : List Cell)
    (s : List Char) (hwf : WellFormedList m list cells) (hlen : 2 ≤ cells.length)
    (hs : s ∈ elements cells) :
    ∃ m2 list2 pre q post, cells = pre ++ q :: post ∧ q.2 = s ∧ s ∉ elements pre ∧
      Delete m list s = .ok (m2, list2, []) ∧ WellFormedList m2 list2 (pre ++ post) ∧
      m2.freed = q.1 :: m.freed := by
  obtain ⟨c, hc, hcs⟩ := List.mem_map.mp hs
  obtain ⟨pre, post0, hsplit, hpre⟩ : ∃ pre post0, cells = pre ++ post0 ∧
      (∀ x ∈ pre, x.2 ≠ s) ∧ ∃ q post, post0 = q :: post ∧ q.2 = s := by
    clear hlen hwf hs
    induction cells with
    | nil => cases hc
    | cons x r ih =>
      by_cases hx : x.2 = s
      · exact ⟨[], x :: r, rfl, by simp, x, r, rfl, hx⟩
      · have hcr : c ∈ r := by
          rcases List.mem_cons.mp hc with e | e
          · exact absurd (e ▸ hcs) hx
          · exact e
        obtain ⟨pre, post0, hsplit, hpre, hq⟩ := ih hcr
        refine ⟨x :: pre, post0, by rw [hsplit]; rfl, ?_, hq⟩
        intro y hy
        rcases List.mem_cons.mp hy with e | e
        · rw [e]; exact hx
        · exact hpre y e
  obtain ⟨hpre1, q, post, hpost0, hq⟩ := hpre
  subst hpost0
  subst hsplit
  have hne : pre ≠ [] ∨ post ≠ [] := by
    by_contra hcon
    push_neg at hcon
    rw [hcon.1, hcon.2] at hlen
    simp at hlen
  have hpre2 : s ∉ elements pre := by
    intro hmem
    obtain ⟨x, hx, hxs⟩ := List.mem_map.mp hmem
    exact hpre1 x hx hxs
  obtain ⟨m2, list2, hrun, hwf2, hfr, -⟩ := Delete_present m list pre post q s hwf hne hq hpre2
  exact ⟨m2, list2, pre, q, post, rfl, hq, hpre2, hrun, hwf2, hfr⟩

/-- Witness of C15: `banana` deleted from `apple banana cherry`, after which `Print` shows
`apple cherry`. -/
theorem C15_delete_unlinks_first_match_witness :
    (∃ m2 list2 pre q post, fruitCells = pre ++ q :: post ∧ q.2 = "banana".toList ∧
      "banana".toList ∉ elements pre ∧
      Delete fruitMemory fruitList "banana".toList = .ok (m2, list2, []) ∧
      WellFormedList m2 list2 (pre ++ post) ∧ m2.freed = q.1 :: fruitMemory.freed) ∧
    (Delete fruitMemory fruitList "banana".toList).bind (fun r => Print r.1 r.2.1)
      = .ok "list = apple cherry \n".toList :=
  ⟨C15_delete_unlinks_first_match fruitMemory fruitList fruitCells "banana".toList
      fruit_wellFormed (by decide) (by decide), rfl⟩

/-- C16, what the code does.  On every well-formed list of exactly one node holding `s`,
`Delete` does not complete: its call of `Free_list` releases the node through `h_p` and then
again through `t_p`. -/
theorem C16_delete_of_only_node_releases_twice (m : Memory) (list : list_s) (p : Nat)
    (s : List Char) (hwf : WellFormedList m list [(p, s)]) :
    Delete m list s = .error .doubleFree := by
  have hnode := hwf.seg.1
  have hfl := Free_list_single m list (p, s) hwf
  have hh := hwf.head
  simp only [nextPtr] at hh hnode
  unfold Delete
  rw [hh]
  simp only [deleteLoop, load_some m p _ hnode, bind, Except.bind,
    (Climate.strcmp_eq_zero_iff s s).mpr rfl, if_true, deleteNode, and_self, hfl]

/-- Witness of C16 at the failing input: `apple` deleted from the list `apple`. -/
theorem C16_delete_of_only_node_releases_twice_witness :
    Delete singleMemory singleList "apple".toList = .error .doubleFree :=
  C16_delete_of_only_node_releases_twice singleMemory singleList 0 "apple".toList
    single_wellFormed

/-- C17. On a well-formed list, the empty list included, that does not hold `s`, `Delete`
completes, writes that the string was not found, and leaves the heap and the list header as
they were. -/
theorem C17_delete_of_absent_string_changes_nothing (m : Memory) (list : list_s)
    (cells : List Cell) (s : List Char) (hwf : WellFormedList m list cells)
    (hs : s ∉ elements cells) :
    Delete m list s
      = .ok (m, list, "String was not found. No change was made.\n".toList) :=
  Delete_absent m list cells s hwf hs

/-- Witness of C17: `kiwi` deleted from `apple banana cherry`. -/
theorem C17_delete_of_absent_string_changes_nothing_witness :
    Delete fruitMemory fruitList "kiwi".toList
      = .ok (fruitMemory, fruitList, "String was not found. No change was made.\n".toList) :=
  C17_delete_of_absent_string_changes_nothing fruitMemory fruitList fruitCells "kiwi".toList
    fruit_wellFormed (by decide)

/-- C18, what the code does.  On every well-formed list with at least two nodes `Free_list`
completes and leaves the list header as it was: `h_p` and `t_p` still point to the released
head and tail, and `Member` still returns `1` for every string that was in the list. -/
theorem C18_free_list_keeps_head_and_tail (m : Memory) (list : list_s) (cells : List Cell)
    (hwf : WellFormedList m list cells) (hlen : 2 ≤ cells.length) :
    ∃ m2, Free_list m list = .ok (m2, list) ∧ list.h_p ≠ none ∧ list.t_p ≠ none ∧
      ∀ s, Member m2 list s = .ok (if s ∈ elements cells then 1 else 0) := by
  obtain ⟨h, mid, t, rfl⟩ : ∃ h mid t, cells = h :: (mid ++ [t]) := by
    match cells, hlen with
    | h :: x :: r, _ =>
      exact ⟨h, (x :: r).dropLast, (x :: r).getLast (List.cons_ne_nil _ _),
        by rw [List.dropLast_append_getLast]⟩
  refine ⟨_, Free_list_many m list h mid t hwf, ?_, ?_, ?_⟩
  · rw [hwf.head]; simp [nextPtr]
  · rw [hwf.tail]
    exact lastPtr_cons_ne_none _ _ _
  · intro s
    rw [← Member_spec m list _ s hwf]
    exact memberLoop_congr _ _ _ _ _ rfl

/-- Witness of C18 on the list `apple banana cherry`. -/
theorem C18_free_list_keeps_head_and_tail_witness :
    ∃ m2, Free_list fruitMemory fruitList = .ok (m2, fruitList) ∧ fruitList.h_p ≠ none ∧
      fruitList.t_p ≠ none ∧
      ∀ s, Member m2 fruitList s = .ok (if s ∈ elements fruitCells then 1 else 0) :=
  C18_free_list_keeps_head_and_tail fruitMemory fruitList fruitCells fruit_wellFormed
    (by decide)

/-- C19, evaluation at the failing input.  On the empty list `Free_list` passes the `NULL` head
to `Free_node`, which dereferences it; so `main` does not end normally when `q` is the first
command. -/
theorem C19_free_list_of_empty_list_dereferences_null (malloc : Nat → Option (List Char))
    (m : Memory) :
    Free_list m emptyList = .error .nullDeref ∧
      main malloc "q\n".toList = .error .nullDeref :=
  ⟨rfl, rfl⟩

/-- C20, what the code does.  On a well-formed list `Free_list` passes to `Free_node` the head
and, when `t_p` is not `NULL`, the tail, and nothing else: the empty list makes it dereference
`NULL`, a list of one node has that node released twice, and a longer list has exactly its
first and last node released, every node between them being left. -/
theorem C20_free_list_releases_head_and_tail_only (m : Memory) (list : list_s)
    (cells : List Cell) (hwf : WellFormedList m list cells) :
    (cells = [] → Free_list m list = .error .nullDeref) ∧
    (∀ c, cells = [c] → Free_list m list = .error .doubleFree) ∧
    (∀ h mid t, cells = h :: (mid ++ [t]) →
      ∃ m2, Free_list m list = .ok (m2, list) ∧ m2.freed = t.1 :: h.1 :: m.freed ∧
        ∀ c ∈ mid, c.1 ∉ m2.freed) := by
  refine ⟨?_, ?_, ?_⟩
  · intro hc
    subst hc
    have hh := hwf.head
    have ht := hwf.tail
    simp only [nextPtr, lastPtr] at hh ht
    have : list = emptyList := by
      cases list
      simp only [emptyList] at hh ht ⊢
      rw [hh, ht]
    rw [this]
    rfl
  · intro c hc
    subst hc
    exact Free_list_single m list c hwf
  · intro h mid t hc
    subst hc
    refine ⟨_, Free_list_many m list h mid t hwf, rfl, ?_⟩
    intro c hc hmem
    have hnd := hwf.nodup
    rw [List.map_cons, List.nodup_cons, List.map_append, List.nodup_append] at hnd
    rcases List.mem_cons.mp hmem with e | hmem
    · exact hnd.2.2.2 (List.mem_map.mpr ⟨c, hc, rfl⟩) (by simp [e])
    · rcases List.mem_cons.mp hmem with e | hmem
      · exact hnd.1 (by simp; exact Or.inl ⟨c.2, by rw [← e]; exact hc⟩)
      · exact hwf.live c (by simp [hc]) hmem

/-- Witness of C20: on the list `apple banana cherry` the node of `banana` (address 0) is not
released, and on the list `apple` the only node is released twice. -/
theorem C20_free_list_releases_head_and_tail_only_witness :
    (∃ m2, Free_list fruitMemory fruitList = .ok (m2, fruitList) ∧
      m2.freed = 2 :: 1 :: fruitMemory.freed ∧
      ∀ c ∈ [((0 : Nat), "banana".toList)], c.1 ∉ m2.freed) ∧
    Free_list singleMemory singleList = .error .doubleFree :=
  ⟨(C20_free_list_releases_head_and_tail_only fruitMemory fruitList fruitCells
      fruit_wellFormed).2.2 (1, "apple".toList) [(0, "banana".toList)] (2, "cherry".toList) rfl,
    (C20_free_list_releases_head_and_tail_only singleMemory singleList [(0, "apple".toList)]
      single_wellFormed).2.1 (0, "apple".toList) rfl⟩


/-! ## The links of a well-formed list -/

/-- The four placements of `Insert` on concrete lists, with storage that starts with NUL: into
the empty list, before the head, after the tail, and between two nodes. -/
theorem Insert_four_cases :
    (Insert cleanMalloc emptyMemory emptyList "apple".toList).bind (fun st => Print st.1 st.2)
        = .ok "list = apple \n".toList ∧
      (Insert cleanMalloc fruitMemory fruitList "aardvark".toList).bind (fun st => Print st.1 st.2)
        = .ok "list = aardvark apple banana cherry \n".toList ∧
      (Insert cleanMalloc fruitMemory fruitList "date".toList).bind (fun st => Print st.1 st.2)
        = .ok "list = apple banana cherry date \n".toList ∧
      (Insert cleanMalloc fruitMemory fruitList "blueberry".toList).bind (fun st => Print st.1 st.2)
        = .ok "list = apple banana blueberry cherry \n".toList :=
  ⟨rfl, rfl, rfl, rfl⟩

/-! ## The remaining claim about `project4.c` -/

end Project4
